import Mathlib

/-!
# Verification of the leaflet-providers normalization script

This file is a shallow embedding, in Lean 4, of the core logic of
`scripts/parse_leaflet_providers.py`:

* Python strings are modelled as `List Char`; the builtins `in` (substring
  test) and `str.replace` (replace all leftmost non-overlapping occurrences)
  are modelled by `strContains` and `strReplace`.  (`strReplace` is only used
  by the script with non-empty literal patterns; our model returns the string
  unchanged for an empty pattern, where CPython would interleave the
  replacement between characters.)
* JSON-decoded Python values are modelled by `Val` (strings, ints, bools,
  `None`, lists, dicts).  Python dicts are modelled as ordered association
  lists `List (String × Val)`; insertion semantics of `d[k] = v` is
  `dictSet` (update-in-place keeps the key's position, otherwise append),
  `{**a, **b}` is `dictMerge`, `d.pop(k, ...)` is `alookup`/`dictErase`.
* Python exceptions are modelled by `Except PyErr`; each operation that can
  raise (`d[k]` on a missing key, `in` on a non-iterable, `.replace` on a
  non-string, `{**x}` on a non-mapping, ...) returns the corresponding error.
* The functions `pythonize_data`, `process_provider` and `process_data`
  mirror the Python functions of the same names; the process-wide
  `ATTRIBUTIONS` table is threaded as an explicit `attrs` parameter.
* For the frame-effect claims (mutation of the input catalog, and the
  copy-on-write behaviour of the generated `TileProvider` class) a second,
  heap-level embedding is given at the end of the file: dicts live in
  numbered heap cells, `.copy()` allocates, `.pop`/`d[k] = v` write to a
  cell, and the claims become statements that pre-existing cells are
  untouched.
-/

set_option autoImplicit false

namespace Leaflet

/-! ## Python strings: substring test and replacement -/

/-- Python `pat in s` for strings: `pat` occurs as a contiguous substring.
The empty pattern is contained in every string, as in Python. -/
def strContains (s pat : List Char) : Bool :=
  match s with
  | [] => pat.isEmpty
  | _ :: s' => pat.isPrefixOf s || strContains s' pat

/-- Fuelled worker for `strReplace`; the fuel is an upper bound on the length
of `s`, consumed one unit per step so that the recursion is structural. -/
def strReplaceF (fuel : Nat) (s pat rep : List Char) : List Char :=
  match fuel, s with
  | 0, s => s
  | _ + 1, [] => []
  | f + 1, c :: s' =>
    if pat ≠ [] ∧ pat.isPrefixOf (c :: s') then
      rep ++ strReplaceF f ((c :: s').drop pat.length) pat rep
    else
      c :: strReplaceF f s' pat rep

/-- Python `s.replace(pat, rep)`: replace every leftmost non-overlapping
occurrence of `pat` in `s` by `rep` (for the non-empty patterns the script
uses; an empty pattern leaves the string unchanged in this model). -/
def strReplace (s pat rep : List Char) : List Char :=
  strReplaceF s.length s pat rep

/-- Fuelled worker for `strSplit`. -/
def strSplitF (fuel : Nat) (s pat : List Char) : List (List Char) :=
  match fuel, s with
  | 0, s => [s]
  | _ + 1, [] => [[]]
  | f + 1, c :: s' =>
    if pat ≠ [] ∧ pat.isPrefixOf (c :: s') then
      [] :: strSplitF f ((c :: s').drop pat.length) pat
    else
      match strSplitF f s' pat with
      | [] => [[c]]
      | t :: ts => (c :: t) :: ts

/-- Split `s` at every leftmost non-overlapping occurrence of `pat`
(Python `s.split(pat)`).  `s.replace(pat, rep)` is `rep` interposed between
the parts of `strSplit s pat`, which is how we state that replacement
rewrites every occurrence and leaves all other characters unchanged. -/
def strSplit (s pat : List Char) : List (List Char) :=
  strSplitF s.length s pat

/-- Join a list of strings with a separator between consecutive parts. -/
def joinWith (sep : List Char) : List (List Char) → List Char
  | [] => []
  | [x] => x
  | x :: y :: ys => x ++ sep ++ joinWith sep (y :: ys)

/-! ## Python values and dicts -/

/-- A JSON-decoded Python value: the payload shapes that can occur in the
raw leaflet-providers catalog. -/
inductive Val where
  | s : List Char → Val
  | n : Int → Val
  | b : Bool → Val
  | null : Val
  | arr : List Val → Val
  | d : List (String × Val) → Val

mutual

/-- Decidable equality for `Val` (hand-written: `Val` nests `List`). -/
def decEqVal : (a b : Val) → Decidable (a = b)
  | .s a, .s b =>
    match decEq a b with
    | isTrue h => isTrue (by rw [h])
    | isFalse h => isFalse (by intro hc; cases hc; exact h rfl)
  | .n a, .n b =>
    match decEq a b with
    | isTrue h => isTrue (by rw [h])
    | isFalse h => isFalse (by intro hc; cases hc; exact h rfl)
  | .b a, .b b =>
    match decEq a b with
    | isTrue h => isTrue (by rw [h])
    | isFalse h => isFalse (by intro hc; cases hc; exact h rfl)
  | .null, .null => isTrue rfl
  | .arr a, .arr b =>
    match decEqValList a b with
    | isTrue h => isTrue (by rw [h])
    | isFalse h => isFalse (by intro hc; cases hc; exact h rfl)
  | .d a, .d b =>
    match decEqValDict a b with
    | isTrue h => isTrue (by rw [h])
    | isFalse h => isFalse (by intro hc; cases hc; exact h rfl)
  | .s _, .n _ => isFalse (by intro h; cases h)
  | .s _, .b _ => isFalse (by intro h; cases h)
  | .s _, .null => isFalse (by intro h; cases h)
  | .s _, .arr _ => isFalse (by intro h; cases h)
  | .s _, .d _ => isFalse (by intro h; cases h)
  | .n _, .s _ => isFalse (by intro h; cases h)
  | .n _, .b _ => isFalse (by intro h; cases h)
  | .n _, .null => isFalse (by intro h; cases h)
  | .n _, .arr _ => isFalse (by intro h; cases h)
  | .n _, .d _ => isFalse (by intro h; cases h)
  | .b _, .s _ => isFalse (by intro h; cases h)
  | .b _, .n _ => isFalse (by intro h; cases h)
  | .b _, .null => isFalse (by intro h; cases h)
  | .b _, .arr _ => isFalse (by intro h; cases h)
  | .b _, .d _ => isFalse (by intro h; cases h)
  | .null, .s _ => isFalse (by intro h; cases h)
  | .null, .n _ => isFalse (by intro h; cases h)
  | .null, .b _ => isFalse (by intro h; cases h)
  | .null, .arr _ => isFalse (by intro h; cases h)
  | .null, .d _ => isFalse (by intro h; cases h)
  | .arr _, .s _ => isFalse (by intro h; cases h)
  | .arr _, .n _ => isFalse (by intro h; cases h)
  | .arr _, .b _ => isFalse (by intro h; cases h)
  | .arr _, .null => isFalse (by intro h; cases h)
  | .arr _, .d _ => isFalse (by intro h; cases h)
  | .d _, .s _ => isFalse (by intro h; cases h)
  | .d _, .n _ => isFalse (by intro h; cases h)
  | .d _, .b _ => isFalse (by intro h; cases h)
  | .d _, .null => isFalse (by intro h; cases h)
  | .d _, .arr _ => isFalse (by intro h; cases h)

/-- Decidable equality for `List Val`. -/
def decEqValList : (a b : List Val) → Decidable (a = b)
  | [], [] => isTrue rfl
  | [], _ :: _ => isFalse (by intro h; cases h)
  | _ :: _, [] => isFalse (by intro h; cases h)
  | x :: xs, y :: ys =>
    match decEqVal x y, decEqValList xs ys with
    | isTrue h1, isTrue h2 => isTrue (by rw [h1, h2])
    | isFalse h1, _ => isFalse (by intro hc; cases hc; exact h1 rfl)
    | _, isFalse h2 => isFalse (by intro hc; cases hc; exact h2 rfl)

/-- Decidable equality for `List (String × Val)`. -/
def decEqValDict : (a b : List (String × Val)) → Decidable (a = b)
  | [], [] => isTrue rfl
  | [], _ :: _ => isFalse (by intro h; cases h)
  | _ :: _, [] => isFalse (by intro h; cases h)
  | (k1, v1) :: xs, (k2, v2) :: ys =>
    match decEq k1 k2, decEqVal v1 v2, decEqValDict xs ys with
    | isTrue h0, isTrue h1, isTrue h2 => isTrue (by rw [h0, h1, h2])
    | isFalse h0, _, _ => isFalse (by intro hc; cases hc; exact h0 rfl)
    | _, isFalse h1, _ => isFalse (by intro hc; cases hc; exact h1 rfl)
    | _, _, isFalse h2 => isFalse (by intro hc; cases hc; exact h2 rfl)

end

instance : DecidableEq Val := decEqVal

/-- A Python dict (ordered, as in Python ≥ 3.7): an association list. -/
abbrev Dict := List (String × Val)

/-- A Python exception. -/
inductive PyErr where
  /-- `KeyError` from `d[k]` or `d.pop(k)` on a missing key. -/
  | keyError (k : String)
  /-- `TypeError` (e.g. `in` on a non-iterable, `{**x}` on a non-mapping). -/
  | typeError
  /-- `AttributeError` (e.g. `.copy()` or `.replace` on a value without it). -/
  | attributeError
  /-- The `ValueError("Attribution not known: ...")` raised by
  `pythonize_data`; carries the offending attribution value. -/
  | attributionNotKnown (v : Val)
  deriving DecidableEq

/-- First-occurrence association lookup (Python `d[k]` when it succeeds;
Python dicts have unique keys, for which this is the lookup). -/
def alookup {α : Type} : List (String × α) → String → Option α
  | [], _ => none
  | (k, v) :: rest, key => if k = key then some v else alookup rest key

/-- `k in d` for a Python dict. -/
def hasKey (d : Dict) (key : String) : Bool :=
  (alookup d key).isSome

/-- Python `d[key] = v`: if the key is present its value is updated in place
(the entry keeps its position); otherwise the pair is appended. -/
def dictSet (d : Dict) (key : String) (v : Val) : Dict :=
  match d with
  | [] => [(key, v)]
  | (k, w) :: rest =>
    if k = key then (k, v) :: rest else (k, w) :: dictSet rest key v

/-- Remove the (first) entry with the given key, keeping the others in
order: the effect of a successful `d.pop(key)` on `d`. -/
def dictErase (d : Dict) (key : String) : Dict :=
  match d with
  | [] => []
  | (k, w) :: rest =>
    if k = key then rest else (k, w) :: dictErase rest key

/-- Python `{**a, **b}`: start from `a` and insert each entry of `b` in
order (colliding keys keep `a`'s position but take `b`'s value). -/
def dictMerge (a b : Dict) : Dict :=
  b.foldl (fun acc kv => dictSet acc kv.1 kv.2) a

/-- Python `dict(pairs)`: insert the pairs in order into an empty dict
(later pairs with an equal key win). -/
def dictOfList (l : List (String × Val)) : Dict :=
  l.foldl (fun acc kv => dictSet acc kv.1 kv.2) []

/-! ### Well-formedness: Python dicts have no duplicate keys.

The raw catalog is obtained from `json.loads`, so every dict in it has
pairwise distinct keys.  `valWF` checks this at every depth. -/

mutual

/-- Every dict nested in the value has pairwise distinct keys. -/
def valWF : Val → Bool
  | .s _ => true
  | .n _ => true
  | .b _ => true
  | .null => true
  | .arr l => arrWF l
  | .d dd => decide ((dd.map Prod.fst).Nodup) && cellWF dd

/-- `valWF` for every element of a list. -/
def arrWF : List Val → Bool
  | [] => true
  | v :: l => valWF v && arrWF l

/-- `valWF` for every value of an association list. -/
def cellWF : List (String × Val) → Bool
  | [] => true
  | (_, v) :: rest => valWF v && cellWF rest

end

/-! ## `pythonize_data`

Mirrors the source:

```python
def pythonize_data(data):
    rename_keys = {"maxZoom": "max_zoom", "minZoom": "min_zoom"}
    attributions = ATTRIBUTIONS
    items = data.items()
    new_data = []
    for key, value in items:
        if (key == "attribution") and ("{attribution." in value):
            for placeholder, attr in attributions.items():
                if placeholder in value:
                    value = value.replace(placeholder, attr)
                    if "{attribution." not in value:
                        # replaced last attribution
                        break
            else:
                raise ValueError("Attribution not known: {}".format(value))
        elif key in rename_keys:
            key = rename_keys[key]
        elif key == "url" and any(k in value for k in rename_keys):
            # NASAGIBS providers have {maxZoom} in the url
            for old, new in rename_keys.items():
                value = value.replace("{" + old + "}", "{" + new + "}")
        new_data.append((key, value))
    return dict(new_data)
```

The global `ATTRIBUTIONS` table is passed as the parameter `attrs`
(a `str → value` dict, in insertion order). -/

/-- `rename_keys = {"maxZoom": "max_zoom", "minZoom": "min_zoom"}`. -/
def rename_keys : List (String × String) :=
  [("maxZoom", "max_zoom"), ("minZoom", "min_zoom")]

/-- The attribution-placeholder marker `"{attribution."`. -/
def attrMarker : List Char := "\x7battribution.".toList

/-- Python `needle in value` for the value shapes that can occur: substring
test on a string, key membership on a dict, element membership on a list,
and a `TypeError` on non-iterable values. -/
def pyIn (needle : String) : Val → Except PyErr Bool
  | .s v => .ok (strContains v needle.toList)
  | .d dd => .ok (hasKey dd needle)
  | .arr l => .ok (l.any fun x => decide (x = Val.s needle.toList))
  | _ => .error .typeError

/-- Python `any(k in value for k in keys)` (short-circuiting, so a
`TypeError` surfaces at the first non-iterable membership test). -/
def pyAnyIn (keys : List String) (value : Val) : Except PyErr Bool :=
  match keys with
  | [] => .ok false
  | k :: rest => do
    let b ← pyIn k value
    if b then .ok true else pyAnyIn rest value

/-- `value.replace(placeholder, attr)`: the value must be a string (it has
no `.replace` otherwise) and the table entry must be a string (TypeError
otherwise). -/
def attrReplace (ph : String) (av value : Val) : Except PyErr Val :=
  match value with
  | .s v =>
    match av with
    | .s a => .ok (.s (strReplace v ph.toList a))
    | _ => .error .typeError
  | _ => .error .attributeError

/-- `"{attribution." in value` for a value known to be a string (the result
of a successful `attrReplace`); `false` on the unreachable non-strings. -/
def attrCont : Val → Bool
  | .s w => strContains w attrMarker
  | _ => false

/-- The inner `for placeholder, attr in attributions.items(): ...` loop of
`pythonize_data`, entered when `"{attribution." in value` was true.  Each
placeholder present in the value is replaced by its attribution; as soon as
no `"{attribution."` marker remains the loop breaks and the value is kept;
if the table is exhausted with a marker still present, the `for`/`else`
raises `ValueError("Attribution not known: ...")`.  A placeholder test or a
`.replace` on a non-string raises first. -/
def attrSubstIter (attrs : List (String × Val)) (value : Val) :
    Except PyErr Val :=
  match attrs with
  | [] => .error (.attributionNotKnown value)
  | (ph, av) :: rest => do
    let m ← pyIn ph value
    if m then do
      let v' ← attrReplace ph av value
      if attrCont v' then attrSubstIter rest v'
      else .ok v'
    else attrSubstIter rest value

/-- The URL rewrite of `pythonize_data`:
`for old, new in rename_keys.items(): value = value.replace("{" + old + "}", "{" + new + "}")`. -/
def urlFix (v : List Char) : List Char :=
  rename_keys.foldl
    (fun w kv =>
      strReplace w ('{' :: kv.1.toList ++ ['}'])
        ('{' :: kv.2.toList ++ ['}'])) v

/-- The URL rewrite applied to a value (which must be a string: a dict or
list reaching this point has no `.replace`). -/
def urlRename : Val → Except PyErr Val
  | .s v => .ok (.s (urlFix v))
  | _ => .error .attributeError

/-- The body of `pythonize_data`'s loop for one `(key, value)` item.  The
two `rename_keys` membership tests are unfolded for the script's literal
`rename_keys = {"maxZoom": "max_zoom", "minZoom": "min_zoom"}`. -/
def pythonizeItem (attrs : List (String × Val)) (key : String) (value : Val) :
    Except PyErr (String × Val) :=
  if key = "attribution" then do
    let g ← pyIn "\x7battribution." value
    if g then do
      let v' ← attrSubstIter attrs value
      .ok (key, v')
    else .ok (key, value)
  else if key = "maxZoom" then .ok ("max_zoom", value)
  else if key = "minZoom" then .ok ("min_zoom", value)
  else if key = "url" then do
    let g ← pyAnyIn (rename_keys.map Prod.fst) value
    if g then do
      let v' ← urlRename value
      .ok (key, v')
    else .ok (key, value)
  else .ok (key, value)

/-- The loop of `pythonize_data`: process the items in order, collecting the
`new_data` list; the first raised exception aborts. -/
def pythonizeItems (attrs : List (String × Val)) :
    List (String × Val) → Except PyErr (List (String × Val))
  | [] => .ok []
  | (k, v) :: rest => do
    let x ← pythonizeItem attrs k v
    let xs ← pythonizeItems attrs rest
    .ok (x :: xs)

/-- `pythonize_data`: clean up one record (rename mixedCase keys, substitute
the attribution placeholders) and rebuild it with `dict(new_data)`. -/
def pythonize_data (attrs : List (String × Val)) (data : Dict) :
    Except PyErr Dict := do
  let items ← pythonizeItems attrs data
  .ok (dictOfList items)

/-! ## `process_provider` and `process_data` -/

/-- `{**x}`: `x` must be a mapping. -/
def asDictForUnpack : Val → Except PyErr Dict
  | .d dd => .ok dd
  | _ => .error .typeError

/-- Build the per-variant dict of `process_provider`:

```python
var = variants[variant]
if isinstance(var, str):
    variant_keys = {"variant": var}
else:
    variant_keys = var.copy()
    variant_options = variant_keys.pop("options", {})
    variant_keys = {**variant_keys, **variant_options}
```

A non-string non-dict `var` raises (`.copy()` is missing on ints/bools/
`None`, and a list's `.pop` rejects the `("options", {})` arguments). -/
def buildVariantKeys (var : Val) : Except PyErr Dict :=
  match var with
  | .s w => .ok [("variant", .s w)]
  | .d vd =>
    let vk := dictErase vd "options"
    match alookup vd "options" with
    | none => .ok (dictMerge vk [])
    | some ov => do
      let vo ← asDictForUnpack ov
      .ok (dictMerge vk vo)
  | _ => .error .attributeError

/-- One iteration of the `for variant in variants` loop: build the variant
dict, merge it over the provider's keys, qualify the name and pythonize. -/
def processVariant (attrs : List (String × Val)) (provider_keys : Dict)
    (pname vname : String) (var : Val) : Except PyErr Dict := do
  let vk ← buildVariantKeys var
  let merged := dictMerge provider_keys vk
  let named := dictSet merged "name" (.s (pname ++ "." ++ vname).toList)
  pythonize_data attrs named

/-- The `result = {}; for variant in variants: ... result[variant] = ...`
loop, over the items of the variants dict. -/
def processVariantList (attrs : List (String × Val)) (provider_keys : Dict)
    (pname : String) (acc : Dict) :
    List (String × Val) → Except PyErr Dict
  | [] => .ok acc
  | (vn, var) :: rest => do
    let r ← processVariant attrs provider_keys pname vn var
    processVariantList attrs provider_keys pname
      (dictSet acc vn (.d r)) rest

/-- Iterating `for variant in variants` when `variants` is not `None`.
If it is a dict we loop over its items.  A non-empty string or list always
raises before the loop completes (string iteration yields 1-character
strings and `variants[variant]` then indexes a `str` with a `str`; list
iteration eventually reaches an element that is not a valid integer index
or produces an element without `.copy`), while an empty string or list
yields an empty `result`; ints/bools are not iterable. -/
def processVariantsVal (attrs : List (String × Val)) (provider_keys : Dict)
    (pname : String) : Val → Except PyErr Dict
  | .d vd => processVariantList attrs provider_keys pname [] vd
  | .s [] => .ok []
  | .arr [] => .ok []
  | _ => .error .typeError

/-- `process_provider(data, name)`:

```python
provider = data[name].copy()
variants = provider.pop("variants", None)
options = provider.pop("options")
provider_keys = {**provider, **options}
if variants is None:
    provider_keys["name"] = name
    provider_keys = pythonize_data(provider_keys)
    return provider_keys
result = {}
for variant in variants:
    ...
return result
```

A JSON `null` under `"variants"` decodes to Python `None`, so it takes the
no-variants branch exactly like an absent key. -/
def lookupOrKeyError (d : Dict) (k : String) : Except PyErr Val :=
  match alookup d k with
  | some v => .ok v
  | none => .error (.keyError k)

/-- `data[name].copy()`: only dicts have `.copy` behaving as needed (a
list's `.copy` exists but its `.pop("variants", None)` then raises). -/
def dictCopy : Val → Except PyErr Dict
  | .d dd => .ok dd
  | _ => .error .attributeError

/-- `provider.pop("variants", None)` combined with JSON decoding: a stored
JSON `null` is Python `None`, indistinguishable from an absent key in the
`variants is None` test. -/
def popVariants (pd : Dict) : Option Val :=
  match alookup pd "variants" with
  | some .null => none
  | x => x

/-- The two branches of `process_provider` after the merges. -/
def processBranch (attrs : List (String × Val)) (provider_keys : Dict)
    (name : String) : Option Val → Except PyErr Val
  | none => do
    let r ← pythonize_data attrs
      (dictSet provider_keys "name" (.s name.toList))
    .ok (.d r)
  | some vv => do
    let res ← processVariantsVal attrs provider_keys name vv
    .ok (.d res)

def process_provider (attrs : List (String × Val)) (data : Dict)
    (name : String) : Except PyErr Val := do
  let pv ← lookupOrKeyError data name
  let pd ← dictCopy pv
  let variantsOpt := popVariants pd
  let provider1 := dictErase pd "variants"
  let optv ← lookupOrKeyError provider1 "options"
  let provider2 := dictErase provider1 "options"
  let opts ← asDictForUnpack optv
  let provider_keys := dictMerge provider2 opts
  processBranch attrs provider_keys name variantsOpt

/-- Python `value[key]` for a `Val` (subscript). -/
def subscriptV (v : Val) (key : String) : Except PyErr Val :=
  match v with
  | .d dd =>
    match alookup dd key with
    | some w => .ok w
    | none => .error (.keyError key)
  | _ => .error .typeError

/-- `data[p]["options"]["attribution"]`. -/
def getOptionsAttribution (data : Dict) (p : String) : Except PyErr Val := do
  let pv ← subscriptV (.d data) p
  let ov ← subscriptV pv "options"
  subscriptV ov "attribution"

/-- Building the `ATTRIBUTIONS` table at the start of `process_data`:

```python
ATTRIBUTIONS = {
    "{attribution.OpenStreetMap}": data["OpenStreetMap"]["options"]["attribution"],
    "{attribution.Esri}": data["Esri"]["options"]["attribution"],
    "{attribution.OpenMapSurfer}": data["OpenMapSurfer"]["options"]["attribution"],
}
``` -/
def buildAttributions (data : Dict) : Except PyErr (List (String × Val)) := do
  let a1 ← getOptionsAttribution data "OpenStreetMap"
  let a2 ← getOptionsAttribution data "Esri"
  let a3 ← getOptionsAttribution data "OpenMapSurfer"
  .ok [("{attribution.OpenStreetMap}", a1),
       ("{attribution.Esri}", a2),
       ("{attribution.OpenMapSurfer}", a3)]

/-- `result = {}; for provider in data: result[provider] = process_provider(data, provider)`. -/
def processProviderLoop (attrs : List (String × Val)) (data : Dict)
    (acc : Dict) : List (String × Val) → Except PyErr Dict
  | [] => .ok acc
  | (pname, _) :: rest => do
    let r ← process_provider attrs data pname
    processProviderLoop attrs data (dictSet acc pname r) rest

/-- `process_data(data)`: build the attribution table, then normalize every
provider of the raw catalog in order. -/
def process_data (data : Dict) : Except PyErr Dict := do
  let attrs ← buildAttributions data
  processProviderLoop attrs data [] data

/-! ## Concrete inputs used by the claims -/

/-- The raw catalog of the spec's round-trip example. -/
def c1data : Dict :=
  [("OpenStreetMap", .d
    [("url", .s "http://tile/{z}/{x}/{y}.png".toList),
     ("options", .d
       [("maxZoom", .n 19), ("attribution", .s "© OSM".toList)])])]

/-- The record the round-trip example expects (as an ordered dict; the
spec's mapping notation is order-insensitive). -/
def c1record : Dict :=
  [("url", .s "http://tile/{z}/{x}/{y}.png".toList),
   ("max_zoom", .n 19),
   ("attribution", .s "© OSM".toList),
   ("name", .s "OpenStreetMap".toList)]

/-- A provider without variants whose `options` dict itself contains an
`options` key: `{**provider, **options}` reintroduces it. -/
def c5data : Dict :=
  [("P", .d [("url", .s "http://p/{z}".toList),
             ("options", .d [("options", .n 1)])])]

/-- What `process_provider` produces on `c5data`: the `options` key
survives into the normalized record. -/
def c5record : Dict :=
  [("url", .s "http://p/{z}".toList),
   ("options", .n 1),
   ("name", .s "P".toList)]

/-- A record exercising key renaming and the URL placeholder rewrite. -/
def c6data : Dict :=
  [("maxZoom", .n 19),
   ("url", .s "http://a/{maxZoom}/{z}/{x}/{y}".toList)]

/-- The pythonized form of `c6data`. -/
def c6record : Dict :=
  [("max_zoom", .n 19),
   ("url", .s "http://a/{max_zoom}/{z}/{x}/{y}".toList)]

/-- A raw catalog (with the three attribution-source providers present)
whose `OpenMapSurfer` entry has no `url`. -/
def c8data : Dict :=
  [("OpenStreetMap", .d
    [("url", .s "http://osm/{z}/{x}/{y}.png".toList),
     ("options", .d [("attribution", .s "(C) OSM contributors".toList)])]),
   ("Esri", .d
    [("url", .s "http://esri/{z}/{x}/{y}".toList),
     ("options", .d [("attribution", .s "Tiles (C) Esri".toList)])]),
   ("OpenMapSurfer", .d
    [("options", .d [("attribution", .s "Imagery OMS".toList)])])]

/-- `process_data c8data`: the `OpenMapSurfer` record has no `url` key. -/
def c8out : Dict :=
  [("OpenStreetMap", .d
    [("url", .s "http://osm/{z}/{x}/{y}.png".toList),
     ("attribution", .s "(C) OSM contributors".toList),
     ("name", .s "OpenStreetMap".toList)]),
   ("Esri", .d
    [("url", .s "http://esri/{z}/{x}/{y}".toList),
     ("attribution", .s "Tiles (C) Esri".toList),
     ("name", .s "Esri".toList)]),
   ("OpenMapSurfer", .d
    [("attribution", .s "Imagery OMS".toList),
     ("name", .s "OpenMapSurfer".toList)])]

/-- The `options` sub-dict of the variants example. -/
def c4opts : Dict :=
  [("maxZoom", .n 19), ("attribution", .s "© Basemap".toList)]

/-- The `variants` sub-dict of the variants example: one plain-string
variant and one nested mapping with its own `options`. -/
def c4vd : Dict :=
  [("normal", .s "geolandbasemap".toList),
   ("hidpi", .d [("options", .d [("maxZoom", .n 12)])])]

/-- A provider entry with two variants. -/
def c4pd : Dict :=
  [("url", .s "http://tile/{variant}/{z}".toList),
   ("options", .d c4opts),
   ("variants", .d c4vd)]

/-- A one-provider raw catalog whose provider has variants. -/
def c4data : Dict :=
  [("Basemap", .d c4pd)]

/-- The mapping `process_provider` produces for `Basemap`: keyed by the
variant short names, with qualified `name` fields and the `hidpi` variant's
`options` overriding `maxZoom`. -/
def c4res : Dict :=
  [("normal", .d
     [("url", .s "http://tile/{variant}/{z}".toList),
      ("max_zoom", .n 19),
      ("attribution", .s "© Basemap".toList),
      ("variant", .s "geolandbasemap".toList),
      ("name", .s "Basemap.normal".toList)]),
   ("hidpi", .d
     [("url", .s "http://tile/{variant}/{z}".toList),
      ("max_zoom", .n 12),
      ("attribution", .s "© Basemap".toList),
      ("name", .s "Basemap.hidpi".toList)])]

/-! ## A heap model of the script's dictionary objects

The `Val`-level development above treats every dict as a value, which is
adequate for the functional behaviour but cannot express object identity:
`TileProvider.__call__` promises to leave `self` unmodified, and the whole
normalization promises never to mutate the raw catalog it was given (every
`.pop` happens on a `.copy()`).  To state those frame properties we model
CPython's object store explicitly: scalars are immediate values, dicts and
lists live on a heap addressed by allocation order, and every statement of
the script that touches an object becomes an explicit heap operation. -/

/-- A runtime value: immediates (strings are immutable in Python, so they
are immediate here) or a reference into the heap. -/
inductive HVal where
  | s (v : List Char)
  | n (v : Int)
  | b (v : Bool)
  | null
  | ref (a : Nat)
  deriving DecidableEq

/-- The entry list of a heap-allocated dict. -/
abbrev HDict := List (String × HVal)

/-- A heap object: a dict or a list. -/
inductive HObj where
  | dict (entries : HDict)
  | arr (elems : List HVal)
  deriving DecidableEq

/-- The heap: objects in allocation order, addressed by index. -/
abbrev Heap := List HObj

/-- `d[key] = v` on a dict's entry list (as `dictSet`, at `HVal`). -/
def hdictSet (d : HDict) (key : String) (v : HVal) : HDict :=
  match d with
  | [] => [(key, v)]
  | (k, w) :: rest =>
    if k = key then (k, v) :: rest else (k, w) :: hdictSet rest key v

/-- Key removal on a dict's entry list (as `dictErase`, at `HVal`). -/
def hdictErase (d : HDict) (key : String) : HDict :=
  match d with
  | [] => []
  | (k, w) :: rest =>
    if k = key then rest else (k, w) :: hdictErase rest key

/-- `{**a, **b}` / `a.update(b)` on entry lists (as `dictMerge`). -/
def hdictMerge (a b : HDict) : HDict :=
  b.foldl (fun acc kv => hdictSet acc kv.1 kv.2) a

/-- `dict(pairs)` on entry lists (as `dictOfList`). -/
def hdictOfList (l : List (String × HVal)) : HDict :=
  l.foldl (fun acc kv => hdictSet acc kv.1 kv.2) []

/-- The state-exception monad of the heap model: a computation transforms
the heap and returns a value or a raised exception (the heap at the moment
of the raise is kept, as in Python). -/
def HM (α : Type) : Type := Heap → Heap × Except PyErr α

instance : Monad HM where
  pure x := fun h => (h, .ok x)
  bind m f := fun h =>
    match m h with
    | (h', .ok x) => f x h'
    | (h', .error e) => (h', .error e)

/-- `raise e`. -/
def hmRaise {α : Type} (e : PyErr) : HM α := fun h => (h, .error e)

/-- Read the object at an address (no failure: the result is optional). -/
def hmRead (a : Nat) : HM (Option HObj) := fun h => (h, .ok h[a]?)

/-- Allocate a fresh object and return its address. -/
def hmAlloc (o : HObj) : HM Nat := fun h => (h ++ [o], .ok h.length)

/-- Overwrite the object at an address. -/
def hmSetObj (a : Nat) (o : HObj) : HM Unit := fun h => (h.set a o, .ok ())

/-- Python `v[key]` with a string key: `v` must reference a dict (indexing
a list or a string with a string raises `TypeError`), and a missing key is
a `KeyError`. -/
def hmSubscript (v : HVal) (key : String) : HM HVal :=
  match v with
  | .ref a => do
    let o ← hmRead a
    match o with
    | some (.dict d) =>
      match alookup d key with
      | some w => pure w
      | none => hmRaise (.keyError key)
    | _ => hmRaise .typeError
  | _ => hmRaise .typeError

/-- `v.copy()`: dicts and lists have a shallow `copy` allocating a fresh
object sharing the element values; scalars and `None` have no `.copy`. -/
def hmCopy (v : HVal) : HM Nat :=
  match v with
  | .ref a => do
    let o ← hmRead a
    match o with
    | some o' => hmAlloc o'
    | none => hmRaise .attributeError
  | _ => hmRaise .attributeError

/-- `obj.pop(key)` on the dict at address `a`: removes the entry in place
and returns its value; `KeyError` when absent.  On a list `pop` rejects a
string argument with a `TypeError`. -/
def hmPop (a : Nat) (key : String) : HM HVal := do
  let o ← hmRead a
  match o with
  | some (.dict d) =>
    match alookup d key with
    | some w => do
      hmSetObj a (.dict (hdictErase d key))
      pure w
    | none => hmRaise (.keyError key)
  | some (.arr _) => hmRaise .typeError
  | none => hmRaise .attributeError

/-- `obj.pop(key, dflt)`: as `hmPop` but a missing key yields the default
and leaves the dict unchanged. -/
def hmPopDefault (a : Nat) (key : String) (dflt : HVal) : HM HVal := do
  let o ← hmRead a
  match o with
  | some (.dict d) =>
    match alookup d key with
    | some w => do
      hmSetObj a (.dict (hdictErase d key))
      pure w
    | none => pure dflt
  | some (.arr _) => hmRaise .typeError
  | none => hmRaise .attributeError

/-- `obj[key] = v` on the dict at address `a` (in-place entry update). -/
def hmSetItem (a : Nat) (key : String) (v : HVal) : HM Unit := do
  let o ← hmRead a
  match o with
  | some (.dict d) => hmSetObj a (.dict (hdictSet d key v))
  | _ => hmRaise .typeError

/-- `obj.update(kwargs)` on the dict at address `a`. -/
def hmUpdate (a : Nat) (kwargs : HDict) : HM Unit := do
  let o ← hmRead a
  match o with
  | some (.dict d) => hmSetObj a (.dict (hdictMerge d kwargs))
  | _ => hmRaise .typeError

/-- `obj.items()` of the dict at address `a` (a read-only snapshot). -/
def hmItems (a : Nat) : HM HDict := do
  let o ← hmRead a
  match o with
  | some (.dict d) => pure d
  | _ => hmRaise .attributeError

/-- `{**v}`: the value must reference a dict; its entries are read. -/
def hmUnpack (v : HVal) : HM HDict :=
  match v with
  | .ref a => do
    let o ← hmRead a
    match o with
    | some (.dict d) => pure d
    | _ => hmRaise .typeError
  | _ => hmRaise .typeError

/-- `TileProvider.__call__(self, **kwargs)`:

```python
def __call__(self, **kwargs):
    new = TileProvider(self)  # takes a copy preserving the class
    new.update(kwargs)
    return new
```

`TileProvider(self)` reads `self`'s items and allocates the copy;
`new.update(kwargs)` mutates only the fresh object. -/
def tpCall (a : Nat) (kwargs : HDict) : HM Nat := do
  let d ← hmUnpack (.ref a)
  let na ← hmAlloc (.dict d)
  hmUpdate na kwargs
  pure na

/-- Heap-level `needle in value` (cf. `pyIn`): substring test on a string,
key membership on a dict object, element equality on a list object (a
string compares equal only to an equal string), `TypeError` otherwise. -/
def hPyIn (needle : String) (v : HVal) : HM Bool :=
  match v with
  | .s w => pure (strContains w needle.toList)
  | .ref a => do
    let o ← hmRead a
    match o with
    | some (.dict d) => pure (alookup d needle).isSome
    | some (.arr l) => pure (l.any fun x => decide (x = HVal.s needle.toList))
    | none => hmRaise .typeError
  | _ => hmRaise .typeError

/-- Heap-level `any(k in value for k in keys)` (cf. `pyAnyIn`). -/
def hPyAnyIn (keys : List String) (value : HVal) : HM Bool :=
  match keys with
  | [] => pure false
  | k :: rest => do
    let bb ← hPyIn k value
    if bb then pure true else hPyAnyIn rest value

/-- Heap-level `value.replace(placeholder, attr)` (cf. `attrReplace`);
strings are immutable, so no heap access is needed. -/
def hAttrReplace (ph : String) (av value : HVal) : HM HVal :=
  match value with
  | .s v =>
    match av with
    | .s a => pure (.s (strReplace v ph.toList a))
    | _ => hmRaise .typeError
  | _ => hmRaise .attributeError

/-- Heap-level `attrCont`. -/
def hAttrCont : HVal → Bool
  | .s w => strContains w attrMarker
  | _ => false

/-- Scalar projection of an `HVal` for an exception payload (the raised
`ValueError` message stringifies the value; a reference's rendering is
abstracted to `null` here). -/
def hValPayload : HVal → Val
  | .s v => .s v
  | .n v => .n v
  | .b v => .b v
  | .null => .null
  | .ref _ => .null

/-- Heap-level attribution-substitution loop (cf. `attrSubstIter`). -/
def hAttrSubstIter (attrs : List (String × HVal)) (value : HVal) :
    HM HVal :=
  match attrs with
  | [] => hmRaise (.attributionNotKnown (hValPayload value))
  | (ph, av) :: rest => do
    let m ← hPyIn ph value
    if m then do
      let v' ← hAttrReplace ph av value
      if hAttrCont v' then hAttrSubstIter rest v'
      else pure v'
    else hAttrSubstIter rest value

/-- Heap-level URL rewrite (cf. `urlRename`). -/
def hUrlRename : HVal → HM HVal
  | .s v => pure (.s (urlFix v))
  | _ => hmRaise .attributeError

/-- Heap-level body of `pythonize_data`'s loop (cf. `pythonizeItem`). -/
def hPythonizeItem (attrs : List (String × HVal)) (key : String)
    (value : HVal) : HM (String × HVal) :=
  if key = "attribution" then do
    let g ← hPyIn "\x7battribution." value
    if g then do
      let v' ← hAttrSubstIter attrs value
      pure (key, v')
    else pure (key, value)
  else if key = "maxZoom" then pure ("max_zoom", value)
  else if key = "minZoom" then pure ("min_zoom", value)
  else if key = "url" then do
    let g ← hPyAnyIn (rename_keys.map Prod.fst) value
    if g then do
      let v' ← hUrlRename value
      pure (key, v')
    else pure (key, value)
  else pure (key, value)

/-- Heap-level loop of `pythonize_data` (cf. `pythonizeItems`). -/
def hPythonizeItems (attrs : List (String × HVal)) :
    List (String × HVal) → HM (List (String × HVal))
  | [] => pure []
  | (k, v) :: rest => do
    let x ← hPythonizeItem attrs k v
    let xs ← hPythonizeItems attrs rest
    pure (x :: xs)

/-- Heap-level `pythonize_data`: reads the record's items, cleans them up,
and allocates the rebuilt `dict(new_data)`. -/
def hPythonize_data (attrs : List (String × HVal)) (a : Nat) : HM Nat := do
  let items ← hmItems a
  let new_data ← hPythonizeItems attrs items
  hmAlloc (.dict (hdictOfList new_data))

/-- Heap-level per-variant dict construction (cf. `buildVariantKeys`):

```python
if isinstance(var, str):
    variant_keys = {"variant": var}
else:
    variant_keys = var.copy()
    variant_options = variant_keys.pop("options", {})
    variant_keys = {**variant_keys, **variant_options}
```

The `{}` default is allocated before the `pop` call, as in Python. -/
def hBuildVariantKeys (var : HVal) : HM Nat :=
  match var with
  | .s w => hmAlloc (.dict [("variant", .s w)])
  | _ => do
    let ca ← hmCopy var
    let dfa ← hmAlloc (.dict [])
    let ov ← hmPopDefault ca "options" (.ref dfa)
    let vkd ← hmUnpack (.ref ca)
    let vod ← hmUnpack ov
    hmAlloc (.dict (hdictMerge vkd vod))

/-- Heap-level body of the `for variant in variants` loop (cf.
`processVariant`): merge over the provider keys, qualify the name in
place, pythonize. -/
def hProcessVariant (attrs : List (String × HVal)) (pkAddr : Nat)
    (pname vname : String) (var : HVal) : HM Nat := do
  let vka ← hBuildVariantKeys var
  let pkd ← hmUnpack (.ref pkAddr)
  let vkd ← hmUnpack (.ref vka)
  let ma ← hmAlloc (.dict (hdictMerge pkd vkd))
  hmSetItem ma "name" (.s (pname ++ "." ++ vname).toList)
  hPythonize_data attrs ma

/-- Heap-level `for variant in variants: ... result[variant] = ...` over a
snapshot of the variants dict's keys (the dict is never mutated, so the
live iteration sees exactly these keys; `var = variants[variant]` re-reads
the live object). -/
def hProcessVariantList (attrs : List (String × HVal))
    (varsAddr pkAddr : Nat) (pname : String) (resAddr : Nat) :
    List String → HM Unit
  | [] => pure ()
  | vn :: rest => do
    let var ← hmSubscript (.ref varsAddr) vn
    let ra ← hProcessVariant attrs pkAddr pname vn var
    hmSetItem resAddr vn (.ref ra)
    hProcessVariantList attrs varsAddr pkAddr pname resAddr rest

/-- Heap-level iteration over the popped `variants` value (cf.
`processVariantsVal`): a dict object is looped over; an empty string or
list yields an empty loop; anything else raises before completing. -/
def hProcessVariantsVal (attrs : List (String × HVal)) (pkAddr : Nat)
    (pname : String) (resAddr : Nat) (vv : HVal) : HM Unit :=
  match vv with
  | .ref a => do
    let o ← hmRead a
    match o with
    | some (.dict vd) =>
      hProcessVariantList attrs a pkAddr pname resAddr (vd.map Prod.fst)
    | some (.arr []) => pure ()
    | some (.arr (_ :: _)) => hmRaise .typeError
    | none => hmRaise .typeError
  | .s [] => pure ()
  | _ => hmRaise .typeError

/-- Heap-level `process_provider(data, name)`, statement by statement:

```python
provider = data[name].copy()
variants = provider.pop("variants", None)
options = provider.pop("options")
provider_keys = {**provider, **options}
if variants is None:
    provider_keys["name"] = name
    provider_keys = pythonize_data(provider_keys)
    return provider_keys
result = {}
for variant in variants: ...
return result
```

A stored JSON `null` under `"variants"` pops as `None`. -/
def hProcess_provider (attrs : List (String × HVal)) (dataAddr : Nat)
    (name : String) : HM HVal := do
  let pv ← hmSubscript (.ref dataAddr) name
  let pa ← hmCopy pv
  let variants ← hmPopDefault pa "variants" .null
  let options ← hmPop pa "options"
  let pd ← hmUnpack (.ref pa)
  let od ← hmUnpack options
  let pka ← hmAlloc (.dict (hdictMerge pd od))
  if variants = .null then do
    hmSetItem pka "name" (.s name.toList)
    let ra ← hPythonize_data attrs pka
    pure (.ref ra)
  else do
    let resAddr ← hmAlloc (.dict [])
    hProcessVariantsVal attrs pka name resAddr variants
    pure (.ref resAddr)

/-- Heap-level `data[p]["options"]["attribution"]`. -/
def hGetOptionsAttribution (dataAddr : Nat) (p : String) : HM HVal := do
  let pv ← hmSubscript (.ref dataAddr) p
  let ov ← hmSubscript pv "options"
  hmSubscript ov "attribution"

/-- Heap-level construction of the `ATTRIBUTIONS` table (its entries; the
table itself is only ever read afterwards, so it is threaded as a value). -/
def hBuildAttributions (dataAddr : Nat) : HM (List (String × HVal)) := do
  let a1 ← hGetOptionsAttribution dataAddr "OpenStreetMap"
  let a2 ← hGetOptionsAttribution dataAddr "Esri"
  let a3 ← hGetOptionsAttribution dataAddr "OpenMapSurfer"
  pure [("{attribution.OpenStreetMap}", a1),
        ("{attribution.Esri}", a2),
        ("{attribution.OpenMapSurfer}", a3)]

/-- Heap-level `for provider in data: result[provider] = process_provider
(data, provider)` over a snapshot of the catalog's keys (the catalog is
never mutated, so the live iteration sees exactly these keys). -/
def hProcessProviderLoop (attrs : List (String × HVal))
    (dataAddr resAddr : Nat) : List String → HM Unit
  | [] => pure ()
  | pn :: rest => do
    let r ← hProcess_provider attrs dataAddr pn
    hmSetItem resAddr pn r
    hProcessProviderLoop attrs dataAddr resAddr rest

/-- Heap-level `process_data(data)`: build `ATTRIBUTIONS`, allocate
`result = {}`, loop over the catalog, return `result`'s address. -/
def hProcess_data (dataAddr : Nat) : HM Nat := do
  let attrs ← hBuildAttributions dataAddr
  let resAddr ← hmAlloc (.dict [])
  let dd ← hmItems dataAddr
  hProcessProviderLoop attrs dataAddr resAddr (dd.map Prod.fst)
  pure resAddr

/-- A one-record heap for exercising `tpCall`. -/
def c9heap : Heap :=
  [.dict [("url", .s "u".toList), ("max_zoom", .n 19)]]

/-- The entries of the record at address 0 of `c9heap`. -/
def c9self : HDict :=
  [("url", .s "u".toList), ("max_zoom", .n 19)]

/-- A keyword-override set for `tpCall`. -/
def c9kwargs : HDict := [("max_zoom", .n 12)]

/-- A computation that never touches the heap. -/
def ReadOnly {α : Type} (m : HM α) : Prop :=
  ∀ h, (m h).1 = h

/-- The frame judgment of the heap model: whatever the outcome, a
computation may grow the heap and mutate only objects at addresses `≥ n`,
so every address below `n` keeps its object; on success the result
satisfies `Q`. -/
def HTriple (n : Nat) {α : Type} (m : HM α) (Q : α → Prop) : Prop :=
  ∀ h, n ≤ h.length →
    h.length ≤ (m h).1.length ∧
    (∀ b, b < n → (m h).1[b]? = h[b]?) ∧
    (∀ x, (m h).2 = .ok x → Q x)

/-- The tail of the attribution marker after its initial `'{'`. -/
def attrMarkerTail : List Char := "attribution.".toList

/-- The canonical renamed form of a key (`maxZoom ↦ max_zoom`,
`minZoom ↦ min_zoom`, anything else unchanged). -/
def renameKey (k : String) : String :=
  match alookup rename_keys k with
  | some nk => nk
  | none => k

/-- Value shapes with no attribution marker, as observed on the output of
`pythonize_data` (strings resolved, other shapes trivially clean). -/
def noAttrToken : Val → Bool
  | .s v => ! strContains v attrMarker
  | _ => true

/-- `"{maxZoom}"`, as a char list. -/
def pMaxTok : List Char := "{maxZoom}".toList

/-- `"{max_zoom}"`, as a char list. -/
def rMaxTok : List Char := "{max_zoom}".toList

/-- `"{minZoom}"`, as a char list. -/
def pMinTok : List Char := "{minZoom}".toList

/-- `"{min_zoom}"`, as a char list. -/
def rMinTok : List Char := "{min_zoom}".toList

/-- The base keys of a provider entry: the provider dict minus `variants`
and `options`, merged with its `options` dict (`options` wins). -/
def providerBaseKeys (pd opts : Dict) : Dict :=
  dictMerge (dictErase (dictErase pd "variants") "options") opts

/-- The record-level "attribution is fully resolved" property. -/
def attributionResolved (r : Dict) : Prop :=
  ∀ v, alookup r "attribution" = some v → noAttrToken v = true

/-- Did the computation raise `ValueError("Attribution not known: ...")`? -/
def isUnknownAttrError {α : Type} : Except PyErr α → Bool
  | .error (.attributionNotKnown _) => true
  | _ => false

/-- One full pass of `value.replace(placeholder, attr)` over the whole
attribution table (the substitutions the inner loop performs when no break
interrupts it). -/
def foldAttrReplace (attrs : List (String × Val)) (v : List Char) :
    List Char :=
  attrs.foldl
    (fun w pr =>
      match pr.2 with
      | .s a => strReplace w pr.1.toList a
      | _ => w) v

/-- The provider dict of `c1data`. -/
def c1pd : Dict :=
  [("url", .s "http://tile/{z}/{x}/{y}.png".toList),
   ("options", .d
     [("maxZoom", .n 19), ("attribution", .s "© OSM".toList)])]

/-- The options dict of `c1data`. -/
def c1opts : Dict :=
  [("maxZoom", .n 19), ("attribution", .s "© OSM".toList)]

/-- The attribution table used by the C2 and C3 witnesses. -/
def cAttrs : List (String × Val) :=
  [("{attribution.OpenStreetMap}", .s "(C) OSM contributors".toList),
   ("{attribution.Esri}", .s "Tiles (C) Esri".toList),
   ("{attribution.OpenMapSurfer}", .s "Imagery OMS".toList)]

/-- The record used by the C2 witness. -/
def c2rec : Dict :=
  [("url", .s "http://u/{z}".toList),
   ("attribution", .s "Map tiles {attribution.Unknown}".toList)]

/-! ## Lemmas about `strContains`, `strReplace`, `strSplit` -/

theorem strContains_nil (p : List Char) : strContains [] p = p.isEmpty := rfl

theorem strContains_cons (c : Char) (s' p : List Char) :
    strContains (c :: s') p = (p.isPrefixOf (c :: s') || strContains s' p) :=
  rfl

/-- `strContains` is the (decidable) infix relation. -/
theorem strContains_infix_iff {s p : List Char} :
    strContains s p = true ↔ p <:+: s := by
  induction s with
  | nil =>
    simp [strContains_nil, List.isEmpty_iff, List.infix_nil]
  | cons c s' ih =>
    simp [strContains_cons, List.infix_cons_iff, ih]

theorem strContains_eq_false_iff {s p : List Char} :
    strContains s p = false ↔ ¬ p <:+: s := by
  rw [← strContains_infix_iff]
  cases strContains s p <;> simp

theorem strReplaceF_fuel (p r : List Char) :
    ∀ (f₁ f₂ : Nat) (s : List Char), s.length ≤ f₁ → s.length ≤ f₂ →
      strReplaceF f₁ s p r = strReplaceF f₂ s p r := by
  intro f₁
  induction f₁ with
  | zero =>
    intro f₂ s h1 _
    have hs : s = [] := List.length_eq_zero.mp (Nat.le_zero.mp h1)
    subst hs
    cases f₂ <;> rfl
  | succ f ih =>
    intro f₂ s h1 h2
    cases s with
    | nil => cases f₂ <;> rfl
    | cons c s' =>
      cases f₂ with
      | zero => simp at h2
      | succ f₂' =>
        simp only [List.length_cons] at h1 h2
        simp only [strReplaceF]
        by_cases hm : p ≠ [] ∧ p.isPrefixOf (c :: s')
        · have hp1 : 1 ≤ p.length := by
            cases p with
            | nil => exact absurd rfl hm.1
            | cons _ _ => simp
          rw [if_pos hm, if_pos hm]
          congr 1
          apply ih <;> (simp only [List.length_drop, List.length_cons]; omega)
        · rw [if_neg hm, if_neg hm]
          congr 1
          apply ih <;> omega

theorem strReplace_nil (p r : List Char) : strReplace [] p r = [] := rfl

/-- Recurrence for `strReplace` when the pattern matches at the head. -/
theorem strReplace_cons_pos {c : Char} {s' p : List Char} (r : List Char)
    (hm : p ≠ [] ∧ p.isPrefixOf (c :: s')) :
    strReplace (c :: s') p r =
      r ++ strReplace ((c :: s').drop p.length) p r := by
  have hp1 : 1 ≤ p.length := by
    cases p with
    | nil => exact absurd rfl hm.1
    | cons _ _ => simp
  show strReplaceF (c :: s').length (c :: s') p r = _
  simp only [List.length_cons, strReplaceF, if_pos hm]
  congr 1
  apply strReplaceF_fuel <;>
    (simp only [List.length_drop, List.length_cons]; omega)

/-- Recurrence for `strReplace` when the pattern does not match at the
head. -/
theorem strReplace_cons_neg {c : Char} {s' p : List Char} (r : List Char)
    (hm : ¬ (p ≠ [] ∧ p.isPrefixOf (c :: s'))) :
    strReplace (c :: s') p r = c :: strReplace s' p r := by
  show strReplaceF (c :: s').length (c :: s') p r = _
  simp only [List.length_cons, strReplaceF, if_neg hm]
  rfl

/-- Replacing a pattern that does not occur leaves the string unchanged. -/
theorem strReplace_of_not_contains {s p : List Char} (r : List Char)
    (h : strContains s p = false) : strReplace s p r = s := by
  induction s with
  | nil => rfl
  | cons c s' ih =>
    rw [strContains_cons, Bool.or_eq_false_iff] at h
    rw [strReplace_cons_neg r (by simp [h.1]), ih h.2]

/-- Replacing a pattern by itself is the identity. -/
theorem strReplace_self (s p : List Char) : strReplace s p p = s := by
  cases s with
  | nil => rfl
  | cons c s' =>
    by_cases hm : p ≠ [] ∧ p.isPrefixOf (c :: s')
    · rw [strReplace_cons_pos p hm,
        strReplace_self ((c :: s').drop p.length) p]
      have := List.prefix_iff_eq_append.mp
        (List.isPrefixOf_iff_prefix.mp hm.2)
      exact this
    · rw [strReplace_cons_neg p hm, strReplace_self s' p]
termination_by s.length
decreasing_by
  · have hp1 : 1 ≤ p.length := by
      cases p with
      | nil => exact absurd rfl hm.1
      | cons _ _ => simp
    simp only [List.length_drop, List.length_cons]
    omega
  · simp

/-- A string with no `'{'` that is not a prefix stays a non-prefix after
replacement, provided the replacement string starts with `'{'`. -/
theorem not_prefix_strReplace (p : List Char) {r rt : List Char}
    (hr : r = '{' :: rt) :
    ∀ (s q : List Char), '{' ∉ q → q ≠ [] → ¬ q <+: s →
      ¬ q <+: strReplace s p r := by
  intro s
  induction s with
  | nil =>
    intro q _ hq2 _ hcon
    rw [strReplace_nil] at hcon
    exact hq2 (List.prefix_nil.mp hcon)
  | cons c s' ih =>
    intro q hq1 hq2 hqs hcon
    by_cases hm : p ≠ [] ∧ p.isPrefixOf (c :: s')
    · rw [strReplace_cons_pos r hm, hr] at hcon
      cases q with
      | nil => exact hq2 rfl
      | cons ch qt =>
        rw [List.cons_append, List.cons_prefix_cons] at hcon
        exact hq1 (hcon.1 ▸ List.mem_cons_self ch qt)
    · rw [strReplace_cons_neg r hm] at hcon
      cases q with
      | nil => exact hq2 rfl
      | cons ch qt =>
        rw [List.cons_prefix_cons] at hcon
        obtain ⟨rfl, hqt⟩ := hcon
        cases qt with
        | nil => exact hqs (by simp)
        | cons d qs =>
          have hq1' : '{' ∉ d :: qs := fun hmem => hq1 (List.mem_cons_of_mem _ hmem)
          have hqs' : ¬ (d :: qs) <+: s' := by
            intro hc
            exact hqs (List.cons_prefix_cons.mpr ⟨rfl, hc⟩)
          exact ih (d :: qs) hq1' (by simp) hqs' hqt

/-- Prepending brace-free characters cannot create an occurrence of a
pattern that starts with `'{'`. -/
theorem not_contains_append_left {p pt : List Char} (hp : p = '{' :: pt) :
    ∀ (u X : List Char), '{' ∉ u → strContains X p = false →
      strContains (u ++ X) p = false := by
  intro u
  induction u with
  | nil => intro X _ hX; simpa using hX
  | cons c u' ih =>
    intro X hu hX
    rw [List.cons_append, strContains_cons, Bool.or_eq_false_iff]
    refine ⟨?_, ih X (fun hm => hu (List.mem_cons_of_mem _ hm)) hX⟩
    have hc : c ≠ '{' := fun hc => hu (hc ▸ List.mem_cons_self c u')
    rw [hp]
    simp only [List.isPrefixOf, Bool.and_eq_false_iff]
    left
    exact beq_eq_false_iff_ne.mpr (fun hcc => hc hcc.symm)

/-- A prefix of `r ++ X` no longer than `r` is a prefix of `r`. -/
theorem prefix_of_prefix_append_le {q r X : List Char}
    (h : q <+: r ++ X) (hl : q.length ≤ r.length) : q <+: r :=
  List.prefix_of_prefix_length_le h (List.prefix_append r X) hl

theorem strContains_false_drop {s q : List Char} (n : Nat)
    (h : strContains s q = false) : strContains (s.drop n) q = false := by
  rw [strContains_eq_false_iff] at h ⊢
  intro hc
  exact h (hc.trans (List.drop_suffix n s).isInfix)

/-- After `strReplace s p r`, the pattern `p` itself no longer occurs,
for patterns/replacements of the shapes used on URL templates: both are
brace-delimited tokens whose interiors are brace-free, the pattern is not a
prefix of the (no shorter) replacement. -/
theorem strReplace_contains_self_eq_false
    (s : List Char) {p r pt rt : List Char}
    (hp : p = '{' :: pt) (hpt : '{' ∉ pt) (hptne : pt ≠ [])
    (hr : r = '{' :: rt) (hrt : '{' ∉ rt)
    (hlen : p.length ≤ r.length) (hpr : ¬ p <+: r) :
    strContains (strReplace s p r) p = false := by
  subst hp
  subst hr
  cases s with
  | nil => rw [strReplace_nil, strContains_nil]; rfl
  | cons c s' =>
    by_cases hm : ('{' :: pt) ≠ [] ∧ ('{' :: pt).isPrefixOf (c :: s')
    · have hX : strContains
          (strReplace ((c :: s').drop ('{' :: pt).length)
            ('{' :: pt) ('{' :: rt)) ('{' :: pt) = false :=
        strReplace_contains_self_eq_false ((c :: s').drop ('{' :: pt).length)
          rfl hpt hptne rfl hrt hlen hpr
      rw [strReplace_cons_pos ('{' :: rt) hm, List.cons_append,
        strContains_cons, Bool.or_eq_false_iff]
      constructor
      · rw [Bool.eq_false_iff]
        intro hpre
        rw [List.isPrefixOf_iff_prefix, ← List.cons_append] at hpre
        exact hpr (prefix_of_prefix_append_le hpre hlen)
      · exact not_contains_append_left rfl rt _ hrt hX
    · have hX' : strContains (strReplace s' ('{' :: pt) ('{' :: rt))
          ('{' :: pt) = false :=
        strReplace_contains_self_eq_false s' rfl hpt hptne rfl hrt hlen hpr
      rw [strReplace_cons_neg ('{' :: rt) hm, strContains_cons,
        Bool.or_eq_false_iff]
      refine ⟨?_, hX'⟩
      rw [Bool.eq_false_iff]
      intro hpre
      rw [List.isPrefixOf_iff_prefix, List.cons_prefix_cons] at hpre
      obtain ⟨hc, hqt⟩ := hpre
      have hnm : ¬ ('{' :: pt).isPrefixOf (c :: s') = true :=
        fun hx => hm ⟨by simp, hx⟩
      rw [List.isPrefixOf_iff_prefix, hc, List.cons_prefix_cons] at hnm
      push_neg at hnm
      exact not_prefix_strReplace ('{' :: pt) rfl s' pt hpt hptne
        (hnm rfl) hqt
termination_by s.length
decreasing_by
  · simp only [List.length_drop, List.length_cons]
    omega
  · simp

/-- `strReplace` with a brace-token pattern/replacement cannot introduce an
occurrence of a different brace-token `q` that was absent before (e.g.
rewriting `{minZoom}` cannot create a `{maxZoom}`). -/
theorem strReplace_contains_other_eq_false_aux (n : Nat) :
    ∀ (s : List Char) {p qt rt : List Char}, s.length ≤ n →
    '{' ∉ qt → qt ≠ [] → '{' ∉ rt →
    ('{' :: qt).length ≤ ('{' :: rt).length →
    ¬ ('{' :: qt) <+: ('{' :: rt) →
    strContains s ('{' :: qt) = false →
    strContains (strReplace s p ('{' :: rt)) ('{' :: qt) = false := by
  induction n with
  | zero =>
    intro s p qt rt hn _ _ _ _ _ hs
    have : s = [] := List.length_eq_zero.mp (Nat.le_zero.mp hn)
    subst this
    rw [strReplace_nil]
    exact hs
  | succ n ih =>
    intro s p qt rt hn hqt hqtne hrt hlen hqr hs
    cases s with
    | nil => rw [strReplace_nil]; exact hs
    | cons c s' =>
      simp only [List.length_cons] at hn
      have hsdrop : strContains ((c :: s').drop p.length) ('{' :: qt)
          = false := strContains_false_drop p.length hs
      rw [strContains_cons, Bool.or_eq_false_iff] at hs
      obtain ⟨hs1, hs2⟩ := hs
      by_cases hm : p ≠ [] ∧ p.isPrefixOf (c :: s')
      · have hp1 : 1 ≤ p.length := by
          cases p with
          | nil => exact absurd rfl hm.1
          | cons _ _ => simp
        have hX : strContains
            (strReplace ((c :: s').drop p.length) p ('{' :: rt))
            ('{' :: qt) = false := by
          apply ih ((c :: s').drop p.length) _ hqt hqtne hrt hlen hqr hsdrop
          simp only [List.length_drop, List.length_cons]
          omega
        rw [strReplace_cons_pos ('{' :: rt) hm, List.cons_append,
          strContains_cons, Bool.or_eq_false_iff]
        constructor
        · rw [Bool.eq_false_iff]
          intro hpre
          rw [List.isPrefixOf_iff_prefix, ← List.cons_append] at hpre
          exact hqr (prefix_of_prefix_append_le hpre hlen)
        · exact not_contains_append_left rfl rt _ hrt hX
      · have hX' : strContains (strReplace s' p ('{' :: rt))
            ('{' :: qt) = false :=
          ih s' (by omega) hqt hqtne hrt hlen hqr hs2
        rw [strReplace_cons_neg ('{' :: rt) hm, strContains_cons,
          Bool.or_eq_false_iff]
        refine ⟨?_, hX'⟩
        rw [Bool.eq_false_iff]
        intro hpre
        rw [List.isPrefixOf_iff_prefix, List.cons_prefix_cons] at hpre
        obtain ⟨hc, hqpre⟩ := hpre
        rw [Bool.eq_false_iff, Ne, List.isPrefixOf_iff_prefix, hc,
          List.cons_prefix_cons] at hs1
        push_neg at hs1
        exact not_prefix_strReplace p rfl s' qt hqt hqtne (hs1 rfl) hqpre

/-- `strReplace` with a brace-token replacement cannot introduce an
occurrence of a different brace-token `q` that was absent before (e.g.
rewriting `{minZoom}` cannot create a `{maxZoom}`). -/
theorem strReplace_contains_other_eq_false
    (s : List Char) {p r q qt rt : List Char}
    (hq : q = '{' :: qt) (hqt : '{' ∉ qt) (hqtne : qt ≠ [])
    (hr : r = '{' :: rt) (hrt : '{' ∉ rt)
    (hlen : q.length ≤ r.length) (hqr : ¬ q <+: r)
    (hs : strContains s q = false) :
    strContains (strReplace s p r) q = false := by
  subst hq
  subst hr
  exact strReplace_contains_other_eq_false_aux s.length s le_rfl
    hqt hqtne hrt hlen hqr hs

/-! ### `strSplit` and `joinWith`: replacement rewrites exactly the
occurrences of the pattern and leaves everything else unchanged. -/

theorem strSplitF_fuel (p : List Char) :
    ∀ (f₁ f₂ : Nat) (s : List Char), s.length ≤ f₁ → s.length ≤ f₂ →
      strSplitF f₁ s p = strSplitF f₂ s p := by
  intro f₁
  induction f₁ with
  | zero =>
    intro f₂ s h1 _
    have hs : s = [] := List.length_eq_zero.mp (Nat.le_zero.mp h1)
    subst hs
    cases f₂ <;> rfl
  | succ f ih =>
    intro f₂ s h1 h2
    cases s with
    | nil => cases f₂ <;> rfl
    | cons c s' =>
      cases f₂ with
      | zero => simp at h2
      | succ f₂' =>
        simp only [List.length_cons] at h1 h2
        simp only [strSplitF]
        by_cases hm : p ≠ [] ∧ p.isPrefixOf (c :: s')
        · have hp1 : 1 ≤ p.length := by
            cases p with
            | nil => exact absurd rfl hm.1
            | cons _ _ => simp
          rw [if_pos hm, if_pos hm]
          congr 1
          apply ih <;> (simp only [List.length_drop, List.length_cons]; omega)
        · rw [if_neg hm, if_neg hm, ih f₂' s' (by omega) (by omega)]

theorem strSplit_nil (p : List Char) : strSplit [] p = [[]] := rfl

theorem strSplit_cons_pos {c : Char} {s' p : List Char}
    (hm : p ≠ [] ∧ p.isPrefixOf (c :: s')) :
    strSplit (c :: s') p = [] :: strSplit ((c :: s').drop p.length) p := by
  have hp1 : 1 ≤ p.length := by
    cases p with
    | nil => exact absurd rfl hm.1
    | cons _ _ => simp
  show strSplitF (c :: s').length (c :: s') p = _
  simp only [List.length_cons, strSplitF, if_pos hm]
  congr 1
  apply strSplitF_fuel <;>
    (simp only [List.length_drop, List.length_cons]; omega)

theorem strSplit_cons_neg {c : Char} {s' p : List Char}
    (hm : ¬ (p ≠ [] ∧ p.isPrefixOf (c :: s'))) :
    strSplit (c :: s') p =
      match strSplit s' p with
      | [] => [[c]]
      | t :: ts => (c :: t) :: ts := by
  show strSplitF (c :: s').length (c :: s') p = _
  simp only [List.length_cons, strSplitF, if_neg hm]
  rfl

/-- `strSplit` always produces at least one part, and the first part is a
prefix of the string. -/
theorem strSplit_head_pfx (p : List Char) :
    ∀ s : List Char, ∃ t ts, strSplit s p = t :: ts ∧ t <+: s := by
  intro s
  induction s with
  | nil => exact ⟨[], [], strSplit_nil p, List.nil_prefix⟩
  | cons c s' ih =>
    by_cases hm : p ≠ [] ∧ p.isPrefixOf (c :: s')
    · exact ⟨[], _, strSplit_cons_pos hm, List.nil_prefix⟩
    · obtain ⟨t, ts, hts, hpre⟩ := ih
      refine ⟨c :: t, ts, ?_, List.cons_prefix_cons.mpr ⟨rfl, hpre⟩⟩
      rw [strSplit_cons_neg hm, hts]

theorem joinWith_cons_cons (sep x y : List Char) (ys : List (List Char)) :
    joinWith sep (x :: y :: ys) = x ++ sep ++ joinWith sep (y :: ys) := rfl

/-- `strReplace` is the parts of `strSplit` joined with the replacement
string: every occurrence of the pattern becomes `rep`, everything between
occurrences is kept verbatim. -/
theorem strReplace_eq_joinWith_aux (p rep : List Char) (n : Nat) :
    ∀ s : List Char, s.length ≤ n →
      strReplace s p rep = joinWith rep (strSplit s p) := by
  induction n with
  | zero =>
    intro s hn
    have : s = [] := List.length_eq_zero.mp (Nat.le_zero.mp hn)
    subst this
    rfl
  | succ n ih =>
    intro s hn
    cases s with
    | nil => rfl
    | cons c s' =>
      simp only [List.length_cons] at hn
      by_cases hm : p ≠ [] ∧ p.isPrefixOf (c :: s')
      · have hp1 : 1 ≤ p.length := by
          cases p with
          | nil => exact absurd rfl hm.1
          | cons _ _ => simp
        rw [strReplace_cons_pos rep hm, strSplit_cons_pos hm,
          ih ((c :: s').drop p.length)
            (by simp only [List.length_drop, List.length_cons]; omega)]
        obtain ⟨t, ts, hts, _⟩ := strSplit_head_pfx p ((c :: s').drop p.length)
        rw [hts, joinWith_cons_cons]
        simp
      · rw [strReplace_cons_neg rep hm, strSplit_cons_neg hm,
          ih s' (by omega)]
        obtain ⟨t, ts, hts, _⟩ := strSplit_head_pfx p s'
        rw [hts]
        cases ts with
        | nil => rfl
        | cons z zs =>
          rw [joinWith_cons_cons]
          show c :: (t ++ rep ++ joinWith rep (z :: zs)) = _
          rw [joinWith_cons_cons]
          simp

theorem strReplace_eq_joinWith (s p rep : List Char) :
    strReplace s p rep = joinWith rep (strSplit s p) :=
  strReplace_eq_joinWith_aux p rep s.length s le_rfl

/-- Joining the parts of `strSplit` with the pattern itself recovers the
original string. -/
theorem joinWith_strSplit (s p : List Char) :
    joinWith p (strSplit s p) = s := by
  rw [← strReplace_eq_joinWith, strReplace_self]

/-- No part produced by `strSplit` contains the pattern. -/
theorem strSplit_parts_not_contains_aux (p : List Char) (hp : p ≠ [])
    (n : Nat) :
    ∀ s t : List Char, s.length ≤ n → t ∈ strSplit s p →
      strContains t p = false := by
  induction n with
  | zero =>
    intro s t hn ht
    have : s = [] := List.length_eq_zero.mp (Nat.le_zero.mp hn)
    subst this
    rw [strSplit_nil] at ht
    simp at ht
    subst ht
    rw [strContains_nil]
    simpa using hp
  | succ n ih =>
    intro s t hn ht
    cases s with
    | nil =>
      rw [strSplit_nil] at ht
      simp at ht
      subst ht
      rw [strContains_nil]
      simpa using hp
    | cons c s' =>
      simp only [List.length_cons] at hn
      by_cases hm : p ≠ [] ∧ p.isPrefixOf (c :: s')
      · have hp1 : 1 ≤ p.length := by
          cases p with
          | nil => exact absurd rfl hm.1
          | cons _ _ => simp
        rw [strSplit_cons_pos hm] at ht
        rcases List.mem_cons.mp ht with rfl | hmem
        · rw [strContains_nil]; simpa using hp
        · exact ih ((c :: s').drop p.length) t
            (by simp only [List.length_drop, List.length_cons]; omega) hmem
      · rw [strSplit_cons_neg hm] at ht
        obtain ⟨t₀, ts, hts, hpre⟩ := strSplit_head_pfx p s'
        rw [hts] at ht
        rcases List.mem_cons.mp ht with rfl | hmem
        · rw [strContains_cons, Bool.or_eq_false_iff]
          constructor
          · rw [Bool.eq_false_iff]
            intro hx
            rw [List.isPrefixOf_iff_prefix] at hx
            have : p <+: c :: s' :=
              hx.trans (List.cons_prefix_cons.mpr ⟨rfl, hpre⟩)
            rw [← List.isPrefixOf_iff_prefix] at this
            exact hm ⟨hp, this⟩
          · exact ih s' t₀ (by omega) (by rw [hts]; simp)
        · exact ih s' t (by omega) (by rw [hts]; simp [hmem])

/-- No part produced by `strSplit` contains the pattern. -/
theorem strSplit_parts_not_contains {s p : List Char} (hp : p ≠ [])
    {t : List Char} (ht : t ∈ strSplit s p) : strContains t p = false :=
  strSplit_parts_not_contains_aux p hp s.length s t le_rfl ht

/-! ### Survival of an unknown attribution token under substitution

Replacing a known placeholder `{attribution.Y}` (whatever the replacement
string) can never destroy an occurrence of a different token
`{attribution.X}`: both start with the marker `{attribution.` whose only
`'{'` is its first character, so occurrences cannot overlap. -/

theorem attrMarker_eq : attrMarker = '{' :: attrMarkerTail := by decide

theorem attrMarkerTail_no_braces :
    '{' ∉ attrMarkerTail ∧ '}' ∉ attrMarkerTail := by decide

/-- Cancelling equal brace-free parts in front of a `'}'`. -/
theorem append_brace_cancel :
    ∀ {X Y b c : List Char}, '}' ∉ X → '}' ∉ Y →
      X ++ '}' :: b = Y ++ '}' :: c → X = Y ∧ b = c := by
  intro X
  induction X with
  | nil =>
    intro Y b c _ hY h
    cases Y with
    | nil => simpa using h
    | cons y Y' =>
      rw [List.nil_append, List.cons_append] at h
      have : y = '}' := (List.cons.inj h).1.symm
      exact absurd (this ▸ List.mem_cons_self y Y') hY
  | cons x X' ih =>
    intro Y b c hX hY h
    cases Y with
    | nil =>
      rw [List.nil_append, List.cons_append] at h
      have : x = '}' := (List.cons.inj h).1
      exact absurd (this ▸ List.mem_cons_self x X') hX
    | cons y Y' =>
      rw [List.cons_append, List.cons_append] at h
      obtain ⟨h1, h2⟩ := List.cons.inj h
      obtain ⟨h3, h4⟩ := ih (fun hm => hX (List.mem_cons_of_mem _ hm))
        (fun hm => hY (List.mem_cons_of_mem _ hm)) h2
      exact ⟨by rw [h1, h3], h4⟩

/-- A brace-free prefix survives `strReplace` with a pattern that starts
with `'{'`. -/
theorem pfx_strReplace_of_no_brace {pht : List Char} (r : List Char) :
    ∀ (u s : List Char), '{' ∉ u → u <+: s →
      u <+: strReplace s ('{' :: pht) r := by
  intro u
  induction u with
  | nil => intro s _ _; exact List.nil_prefix
  | cons d u' ih =>
    intro s hu hpre
    cases s with
    | nil => exact absurd (List.prefix_nil.mp hpre) (by simp)
    | cons e s₃ =>
      rw [List.cons_prefix_cons] at hpre
      obtain ⟨rfl, hpre'⟩ := hpre
      have hd : d ≠ '{' := fun hc => hu (hc ▸ List.mem_cons_self d u')
      have hm : ¬ (('{' :: pht) ≠ [] ∧
          ('{' :: pht).isPrefixOf (d :: s₃)) := by
        rintro ⟨-, hx⟩
        rw [List.isPrefixOf_iff_prefix, List.cons_prefix_cons] at hx
        exact hd hx.1.symm
      rw [strReplace_cons_neg r hm, List.cons_prefix_cons]
      exact ⟨rfl, ih s₃ (fun hm' => hu (List.mem_cons_of_mem _ hm')) hpre'⟩

/-- A nonempty suffix of `'{' :: t` (`t` brace-free) that starts with `'{'`
is the whole list. -/
theorem sfx_eq_of_brace_head {t ph' : List Char} (ht : '{' ∉ t)
    (hs : ph' <:+ ('{' :: t)) (hne : ph' ≠ [])
    (hhead : ph'.head? = some '{') : ph' = '{' :: t := by
  rcases List.suffix_cons_iff.mp hs with h | h
  · exact h
  · exfalso
    obtain ⟨ys, rfl⟩ := List.head?_eq_some_iff.mp hhead
    exact ht (h.subset (List.mem_cons_self _ _))

/-- An occurrence of the attribution token `{attribution.X}` survives the
replacement of a different attribution token `{attribution.Y}` by an
arbitrary string. -/
theorem token_survives_strReplace_aux (n : Nat) :
    ∀ (s : List Char) {X Y : List Char} (r : List Char), s.length ≤ n →
      '{' ∉ X → '}' ∉ X → '{' ∉ Y → '}' ∉ Y → X ≠ Y →
      (attrMarker ++ X ++ ['}']) <:+: s →
      (attrMarker ++ X ++ ['}']) <:+:
        strReplace s (attrMarker ++ Y ++ ['}']) r := by
  induction n with
  | zero =>
    intro s X Y r hn _ _ _ _ _ hin
    have : s = [] := List.length_eq_zero.mp (Nat.le_zero.mp hn)
    subst this
    have := List.infix_nil.mp hin
    simp [attrMarker] at this
  | succ n ih =>
    intro s X Y r hn hX1 hX2 hY1 hY2 hXY hin
    set T : List Char := attrMarker ++ X ++ ['}'] with hT
    set ph : List Char := attrMarker ++ Y ++ ['}'] with hph
    have hTne : T ≠ [] := by simp [hT, attrMarker]
    have hphne : ph ≠ [] := by simp [hph, attrMarker]
    have hTshape : T = '{' :: (attrMarkerTail ++ X ++ ['}']) := by
      rw [hT, attrMarker_eq]; simp
    have hphshape : ph = '{' :: (attrMarkerTail ++ Y ++ ['}']) := by
      rw [hph, attrMarker_eq]; simp
    have hTtail_nobrace : '{' ∉ (attrMarkerTail ++ X ++ ['}']) := by
      intro hm
      rcases List.mem_append.mp hm with hm' | hm'
      · rcases List.mem_append.mp hm' with hm'' | hm''
        · exact attrMarkerTail_no_braces.1 hm''
        · exact hX1 hm''
      · simp at hm'
    have hphtail_nobrace : '{' ∉ (attrMarkerTail ++ Y ++ ['}']) := by
      intro hm
      rcases List.mem_append.mp hm with hm' | hm'
      · rcases List.mem_append.mp hm' with hm'' | hm''
        · exact attrMarkerTail_no_braces.1 hm''
        · exact hY1 hm''
      · simp at hm'
    cases s with
    | nil =>
      exact absurd (List.infix_nil.mp hin) hTne
    | cons c s' =>
      simp only [List.length_cons] at hn
      by_cases hm : ph ≠ [] ∧ ph.isPrefixOf (c :: s')
      · -- the known placeholder matches at the head
        have hple : 1 ≤ ph.length := by
          rw [hphshape]; simp
        have hdecomp : ph ++ (c :: s').drop ph.length = c :: s' :=
          (List.prefix_iff_eq_append.mp
            (List.isPrefixOf_iff_prefix.mp hm.2))
        set s₂ : List Char := (c :: s').drop ph.length with hs₂
        -- T occurs in ph ++ s₂, and cannot overlap ph, so it occurs in s₂
        have hin₂ : T <:+: s₂ := by
          obtain ⟨a, b, hab⟩ := hin
          rw [← hdecomp] at hab
          have hafull : a <+: ph ++ s₂ := by
            rw [← hab, List.append_assoc]
            exact List.prefix_append a (T ++ b)
          by_cases hlen : ph.length ≤ a.length
          · have hpha : ph <+: a :=
              List.prefix_of_prefix_length_le
                (List.prefix_append ph s₂) hafull hlen
            obtain ⟨a', rfl⟩ := hpha
            rw [List.append_assoc, List.append_assoc] at hab
            have hcan := List.append_cancel_left hab
            rw [← List.append_assoc] at hcan
            exact ⟨a', b, hcan⟩
          · -- T would have to start inside ph: impossible
            exfalso
            push_neg at hlen
            have haph : a <+: ph :=
              List.prefix_of_prefix_length_le hafull
                (List.prefix_append ph s₂) (Nat.le_of_lt hlen)
            have hphsplit : a ++ ph.drop a.length = ph :=
              List.prefix_iff_eq_append.mp haph
            set ph' : List Char := ph.drop a.length with hph'
            have hph'ne : ph' ≠ [] := by
              have : ph'.length = ph.length - a.length := by
                rw [hph', List.length_drop]
              intro hc
              rw [hc] at this
              simp at this
              omega
            have hTb : T ++ b = ph' ++ s₂ := by
              have : a ++ (T ++ b) = a ++ (ph' ++ s₂) := by
                rw [← List.append_assoc, hab, ← hphsplit,
                  List.append_assoc]
              exact List.append_cancel_left this
            have hph'head : ph'.head? = some '{' := by
              cases hp' : ph' with
              | nil => exact absurd hp' hph'ne
              | cons x xs =>
                have : (T ++ b).head? = some x := by
                  rw [hTb, hp']
                  rfl
                rw [hTshape] at this
                simp at this
                rw [this]
                rfl
            have hph'eq : ph' = ph := by
              have hsfx : ph' <:+ ph := hph' ▸ List.drop_suffix a.length ph
              rw [hphshape] at hsfx ⊢
              exact sfx_eq_of_brace_head hphtail_nobrace hsfx hph'ne
                hph'head
            have ha0 : a = [] := by
              have h1 : ph'.length = ph.length - a.length := by
                rw [hph', List.length_drop]
              rw [hph'eq] at h1
              have h2 : a.length = 0 := by omega
              exact List.length_eq_zero.mp h2
            rw [ha0, List.nil_append] at hphsplit
            rw [hph'eq] at hTb
            rw [hTshape, hphshape] at hTb
            simp only [List.cons_append, List.cons.injEq, true_and] at hTb
            rw [List.append_assoc, List.append_assoc] at hTb
            have hTb' := List.append_cancel_left
              (by rw [← List.append_assoc, ← List.append_assoc] at hTb ⊢
                  exact hTb :
                attrMarkerTail ++ (X ++ ['}'] ++ b) =
                attrMarkerTail ++ (Y ++ ['}'] ++ s₂))
            rw [List.append_assoc, List.append_assoc] at hTb'
            simp only [List.singleton_append] at hTb'
            exact hXY (append_brace_cancel hX2 hY2 hTb').1
        rw [strReplace_cons_pos r hm]
        have hrec : T <:+: strReplace s₂ ph r := by
          apply ih s₂ r _ hX1 hX2 hY1 hY2 hXY hin₂
          rw [hs₂]
          simp only [List.length_drop, List.length_cons]
          omega
        obtain ⟨u, v, huv⟩ := hrec
        exact ⟨r ++ u, v, by rw [List.append_assoc, List.append_assoc,
          ← List.append_assoc u, huv]⟩
      · -- no match at the head: the head character is kept
        rw [strReplace_cons_neg r hm]
        rcases List.infix_cons_iff.mp hin with hpre | hinf
        · -- T is a prefix of c :: s'
          rw [hTshape, List.cons_prefix_cons] at hpre
          obtain ⟨rfl, htail⟩ := hpre
          have : (attrMarkerTail ++ X ++ ['}']) <+:
              strReplace s' ph r := by
            rw [hphshape]
            exact pfx_strReplace_of_no_brace r _ s' hTtail_nobrace htail
          apply List.IsPrefix.isInfix
          rw [hTshape]
          exact List.cons_prefix_cons.mpr ⟨rfl, this⟩
        · exact List.infix_cons
            (ih s' r (by omega) hX1 hX2 hY1 hY2 hXY hinf)

/-- An occurrence of the attribution token `{attribution.X}` survives the
replacement of a different attribution token `{attribution.Y}` by an
arbitrary string. -/
theorem token_survives_strReplace {s X Y : List Char} (r : List Char)
    (hX1 : '{' ∉ X) (hX2 : '}' ∉ X) (hY1 : '{' ∉ Y) (hY2 : '}' ∉ Y)
    (hXY : X ≠ Y) (hin : (attrMarker ++ X ++ ['}']) <:+: s) :
    (attrMarker ++ X ++ ['}']) <:+:
      strReplace s (attrMarker ++ Y ++ ['}']) r :=
  token_survives_strReplace_aux s.length s r le_rfl hX1 hX2 hY1 hY2 hXY hin

/-! ## Lemmas about the dict operations -/

theorem alookup_eq_some_mem {α : Type} {l : List (String × α)} {k : String}
    {v : α} (h : alookup l k = some v) : (k, v) ∈ l := by
  induction l with
  | nil => simp [alookup] at h
  | cons kv rest ih =>
    obtain ⟨k', v'⟩ := kv
    rw [alookup] at h
    by_cases hk : k' = k
    · rw [if_pos hk] at h
      subst hk
      rw [Option.some.injEq] at h
      subst h
      exact List.mem_cons_self _ _
    · rw [if_neg hk] at h
      exact List.mem_cons_of_mem _ (ih h)

theorem alookup_isSome_of_mem {α : Type} {l : List (String × α)} {k : String}
    {v : α} (h : (k, v) ∈ l) : (alookup l k).isSome := by
  induction l with
  | nil => simp at h
  | cons kv rest ih =>
    obtain ⟨k', v'⟩ := kv
    rw [alookup]
    by_cases hk : k' = k
    · rw [if_pos hk]; rfl
    · rw [if_neg hk]
      rcases List.mem_cons.mp h with heq | hmem
      · rw [Prod.mk.injEq] at heq
        exact absurd heq.1.symm hk
      · exact ih hmem

theorem alookup_eq_none_iff {α : Type} {l : List (String × α)} {k : String} :
    alookup l k = none ↔ k ∉ l.map Prod.fst := by
  induction l with
  | nil => simp [alookup]
  | cons kv rest ih =>
    obtain ⟨k', v'⟩ := kv
    rw [alookup]
    by_cases hk : k' = k
    · subst hk
      simp
    · rw [if_neg hk]
      simp only [List.map_cons, List.mem_cons, ih]
      constructor
      · rintro h (h1 | h2)
        · exact hk h1.symm
        · exact h h2
      · intro h
        exact fun hm => h (Or.inr hm)

theorem hasKey_iff_mem_keys {d : Dict} {k : String} :
    hasKey d k = true ↔ k ∈ d.map Prod.fst := by
  rw [hasKey, Option.isSome_iff_ne_none]
  constructor
  · intro h
    by_contra hc
    exact h (alookup_eq_none_iff.mpr hc)
  · intro h hc
    exact alookup_eq_none_iff.mp hc h

theorem alookup_append {α : Type} (l₁ l₂ : List (String × α)) (k : String) :
    alookup (l₁ ++ l₂) k =
      match alookup l₁ k with
      | some v => some v
      | none => alookup l₂ k := by
  induction l₁ with
  | nil => simp [alookup]
  | cons kv rest ih =>
    obtain ⟨k', v'⟩ := kv
    rw [List.cons_append, alookup, alookup]
    by_cases hk : k' = k
    · rw [if_pos hk, if_pos hk]
    · rw [if_neg hk, if_neg hk, ih]

theorem alookup_dictSet_self (d : Dict) (k : String) (v : Val) :
    alookup (dictSet d k v) k = some v := by
  induction d with
  | nil => simp [dictSet, alookup]
  | cons kv rest ih =>
    obtain ⟨k', v'⟩ := kv
    rw [dictSet]
    by_cases hk : k' = k
    · rw [if_pos hk, alookup, if_pos hk]
    · rw [if_neg hk, alookup, if_neg hk]
      exact ih

theorem alookup_dictSet_ne (d : Dict) (k : String) (v : Val) {k' : String}
    (h : k' ≠ k) : alookup (dictSet d k v) k' = alookup d k' := by
  induction d with
  | nil =>
    rw [dictSet, alookup, alookup, if_neg (fun hc => h hc.symm)]
    rfl
  | cons kv rest ih =>
    obtain ⟨k₀, v₀⟩ := kv
    rw [dictSet]
    by_cases hk : k₀ = k
    · rw [if_pos hk, alookup, alookup]
      by_cases hk0 : k₀ = k'
      · exact absurd (hk0.symm.trans hk) h
      · rw [if_neg hk0, if_neg hk0]
    · rw [if_neg hk, alookup, alookup]
      by_cases hk0 : k₀ = k'
      · rw [if_pos hk0, if_pos hk0]
      · rw [if_neg hk0, if_neg hk0]
        exact ih

theorem mem_dictSet {d : Dict} {k : String} {v : Val} {x : String × Val}
    (h : x ∈ dictSet d k v) : x = (k, v) ∨ x ∈ d := by
  induction d with
  | nil => simpa [dictSet] using h
  | cons kv rest ih =>
    obtain ⟨k₀, v₀⟩ := kv
    rw [dictSet] at h
    by_cases hk : k₀ = k
    · rw [if_pos hk] at h
      rcases List.mem_cons.mp h with rfl | hmem
      · left; rw [hk]
      · right; exact List.mem_cons_of_mem _ hmem
    · rw [if_neg hk] at h
      rcases List.mem_cons.mp h with rfl | hmem
      · right; exact List.mem_cons_self _ _
      · rcases ih hmem with h1 | h2
        · left; exact h1
        · right; exact List.mem_cons_of_mem _ h2

/-- Setting an absent key appends the pair at the end. -/
theorem dictSet_of_not_hasKey {d : Dict} {k : String} (v : Val)
    (h : hasKey d k = false) : dictSet d k v = d ++ [(k, v)] := by
  induction d with
  | nil => rfl
  | cons kv rest ih =>
    obtain ⟨k₀, v₀⟩ := kv
    rw [hasKey, alookup] at h
    by_cases hk : k₀ = k
    · rw [if_pos hk] at h
      simp at h
    · rw [if_neg hk] at h
      rw [dictSet, if_neg hk, List.cons_append, ih h]

/-- Setting a present key does not change the key list. -/
theorem keys_dictSet_of_hasKey {d : Dict} {k : String} (v : Val)
    (h : hasKey d k = true) :
    (dictSet d k v).map Prod.fst = d.map Prod.fst := by
  induction d with
  | nil => simp [hasKey, alookup] at h
  | cons kv rest ih =>
    obtain ⟨k₀, v₀⟩ := kv
    rw [hasKey, alookup] at h
    rw [dictSet]
    by_cases hk : k₀ = k
    · rw [if_pos hk]
      simp
    · rw [if_neg hk] at h
      rw [if_neg hk]
      simp only [List.map_cons, List.cons.injEq, true_and]
      exact ih h

theorem nodup_keys_dictSet {d : Dict} {k : String} {v : Val}
    (h : (d.map Prod.fst).Nodup) :
    ((dictSet d k v).map Prod.fst).Nodup := by
  cases hk : hasKey d k with
  | true => rw [keys_dictSet_of_hasKey v hk]; exact h
  | false =>
    rw [dictSet_of_not_hasKey v hk, List.map_append]
    simp only [List.map_cons, List.map_nil]
    rw [List.nodup_append]
    refine ⟨h, List.nodup_singleton k, ?_⟩
    intro a ha hb
    simp at hb
    subst hb
    exact (hasKey_iff_mem_keys.not.mp (by simp [hk])) ha

theorem dictErase_sublist (d : Dict) (k : String) :
    List.Sublist (dictErase d k) d := by
  induction d with
  | nil => simp [dictErase]
  | cons kv rest ih =>
    obtain ⟨k₀, v₀⟩ := kv
    rw [dictErase]
    by_cases hk : k₀ = k
    · rw [if_pos hk]
      exact List.sublist_cons_self _ _
    · rw [if_neg hk]
      exact List.Sublist.cons₂ _ ih

theorem nodup_keys_dictErase {d : Dict} (k : String)
    (h : (d.map Prod.fst).Nodup) :
    ((dictErase d k).map Prod.fst).Nodup :=
  ((dictErase_sublist d k).map Prod.fst).nodup h

theorem alookup_dictErase_ne (d : Dict) (k : String) {k' : String}
    (h : k' ≠ k) : alookup (dictErase d k) k' = alookup d k' := by
  induction d with
  | nil => rfl
  | cons kv rest ih =>
    obtain ⟨k₀, v₀⟩ := kv
    rw [dictErase]
    by_cases hk : k₀ = k
    · rw [if_pos hk, alookup, if_neg (hk.symm ▸ fun hc => h hc.symm)]
    · rw [if_neg hk, alookup, alookup]
      by_cases hk0 : k₀ = k'
      · rw [if_pos hk0, if_pos hk0]
      · rw [if_neg hk0, if_neg hk0]
        exact ih

theorem alookup_dictErase_self {d : Dict} {k : String}
    (h : (d.map Prod.fst).Nodup) : alookup (dictErase d k) k = none := by
  induction d with
  | nil => rfl
  | cons kv rest ih =>
    obtain ⟨k₀, v₀⟩ := kv
    simp only [List.map_cons, List.nodup_cons] at h
    rw [dictErase]
    by_cases hk : k₀ = k
    · rw [if_pos hk]
      rw [alookup_eq_none_iff]
      rw [← hk]
      exact h.1
    · rw [if_neg hk, alookup, if_neg hk]
      exact ih h.2

theorem mem_dictErase {d : Dict} {k : String} {x : String × Val}
    (h : x ∈ dictErase d k) : x ∈ d :=
  (dictErase_sublist d k).mem h

/-- Folding `dictSet` over a pair list: the result looks up the *last*
binding in the pair list (equivalently, the first in its reverse), falling
back to the initial dict. -/
theorem alookup_foldl_set (l : List (String × Val)) :
    ∀ (init : Dict) (k : String),
      alookup (l.foldl (fun acc kv => dictSet acc kv.1 kv.2) init) k =
        match alookup l.reverse k with
        | some v => some v
        | none => alookup init k := by
  induction l with
  | nil => intro init k; simp [alookup]
  | cons kv rest ih =>
    intro init k
    obtain ⟨k₀, v₀⟩ := kv
    rw [List.foldl_cons, ih, List.reverse_cons, alookup_append]
    cases h : alookup rest.reverse k with
    | some w => rfl
    | none =>
      by_cases hk : k₀ = k
      · subst hk
        rw [alookup_dictSet_self]
        simp [alookup]
      · rw [alookup_dictSet_ne _ _ _ (fun hc => hk hc.symm)]
        simp [alookup, hk]

theorem alookup_dictMerge (a b : Dict) (k : String) :
    alookup (dictMerge a b) k =
      match alookup b.reverse k with
      | some v => some v
      | none => alookup a k :=
  alookup_foldl_set b a k

theorem alookup_dictOfList (l : List (String × Val)) (k : String) :
    alookup (dictOfList l) k = alookup l.reverse k := by
  rw [dictOfList, alookup_foldl_set]
  cases alookup l.reverse k <;> rfl

theorem mem_foldl_set (l : List (String × Val)) :
    ∀ (init : Dict) (x : String × Val),
      x ∈ l.foldl (fun acc kv => dictSet acc kv.1 kv.2) init →
      x ∈ init ∨ x ∈ l := by
  induction l with
  | nil => intro init x h; exact Or.inl h
  | cons kv rest ih =>
    intro init x h
    obtain ⟨k₀, v₀⟩ := kv
    rw [List.foldl_cons] at h
    rcases ih _ x h with h1 | h2
    · rcases mem_dictSet h1 with h3 | h4
      · right
        rw [h3]
        exact List.mem_cons_self _ _
      · left; exact h4
    · right; exact List.mem_cons_of_mem _ h2

theorem mem_dictOfList {l : List (String × Val)} {x : String × Val}
    (h : x ∈ dictOfList l) : x ∈ l := by
  rcases mem_foldl_set l [] x h with h1 | h2
  · simp at h1
  · exact h2

theorem mem_dictMerge {a b : Dict} {x : String × Val}
    (h : x ∈ dictMerge a b) : x ∈ a ∨ x ∈ b :=
  mem_foldl_set b a x h

theorem nodup_keys_foldl_set (l : List (String × Val)) :
    ∀ (init : Dict), (init.map Prod.fst).Nodup →
      ((l.foldl (fun acc kv => dictSet acc kv.1 kv.2) init).map
        Prod.fst).Nodup := by
  induction l with
  | nil => intro init h; exact h
  | cons kv rest ih =>
    intro init h
    rw [List.foldl_cons]
    exact ih _ (nodup_keys_dictSet h)

theorem nodup_keys_dictMerge {a : Dict} (b : Dict)
    (h : (a.map Prod.fst).Nodup) :
    ((dictMerge a b).map Prod.fst).Nodup :=
  nodup_keys_foldl_set b a h

theorem nodup_keys_dictOfList (l : List (String × Val)) :
    ((dictOfList l).map Prod.fst).Nodup :=
  nodup_keys_foldl_set l [] (by simp)

theorem hasKey_append (a b : Dict) (k : String) :
    hasKey (a ++ b) k = (hasKey a k || hasKey b k) := by
  rw [hasKey, hasKey, hasKey, alookup_append]
  cases alookup a k <;> cases alookup b k <;> rfl

/-- `dict(pairs)` on a pair list with distinct keys is the identity. -/
theorem dictOfList_eq_self_aux (l : List (String × Val)) :
    ∀ (init : Dict), (∀ k, k ∈ l.map Prod.fst → hasKey init k = false) →
      (l.map Prod.fst).Nodup →
      l.foldl (fun acc kv => dictSet acc kv.1 kv.2) init = init ++ l := by
  induction l with
  | nil => intro init _ _; simp
  | cons kv rest ih =>
    intro init hdisj hnd
    obtain ⟨k₀, v₀⟩ := kv
    simp only [List.map_cons, List.nodup_cons] at hnd
    rw [List.foldl_cons]
    have h0 : hasKey init k₀ = false := hdisj k₀ (by simp)
    rw [dictSet_of_not_hasKey v₀ h0]
    rw [ih (init ++ [(k₀, v₀)]) ?_ hnd.2]
    · simp
    · intro k hk
      rw [hasKey_append]
      have h1 : hasKey init k = false :=
        hdisj k (by simp only [List.map_cons, List.mem_cons]; right; exact hk)
      rw [h1]
      simp only [Bool.false_or]
      rw [hasKey]
      simp only [alookup]
      rw [if_neg]
      · rfl
      · intro hc
        exact hnd.1 (hc ▸ hk)

theorem dictOfList_eq_self {l : List (String × Val)}
    (h : (l.map Prod.fst).Nodup) : dictOfList l = l := by
  rw [dictOfList, dictOfList_eq_self_aux l [] (fun _ _ => rfl) h,
    List.nil_append]

/-- With duplicate-free keys, looking up in the reverse is the same as
looking up in the list. -/
theorem alookup_reverse_of_nodup {α : Type} {l : List (String × α)}
    (h : (l.map Prod.fst).Nodup) (k : String) :
    alookup l.reverse k = alookup l k := by
  induction l with
  | nil => rfl
  | cons kv rest ih =>
    obtain ⟨k₀, v₀⟩ := kv
    simp only [List.map_cons, List.nodup_cons] at h
    rw [List.reverse_cons, alookup_append, ih h.2]
    by_cases hk : k₀ = k
    · subst hk
      rw [show alookup rest k₀ = none from alookup_eq_none_iff.mpr h.1]
      simp [alookup]
    · cases halt : alookup rest k with
      | some w => simp [alookup, hk, halt]
      | none => simp [alookup, hk, halt]

/-- If exactly one binding for `k` occurs in the pair list, `dict(pairs)`
maps `k` to its value. -/
theorem alookup_dictOfList_unique {l : List (String × Val)} {k : String}
    {v : Val} (hmem : (k, v) ∈ l) (huniq : ∀ w, (k, w) ∈ l → w = v) :
    alookup (dictOfList l) k = some v := by
  rw [alookup_dictOfList]
  have h1 : (alookup l.reverse k).isSome :=
    alookup_isSome_of_mem (List.mem_reverse.mpr hmem)
  cases h2 : alookup l.reverse k with
  | none => rw [h2] at h1; simp at h1
  | some w =>
    have := alookup_eq_some_mem h2
    rw [List.mem_reverse] at this
    rw [huniq w this]

theorem alookup_of_mem_nodup {α : Type} {l : List (String × α)} {k : String}
    {v : α} (hnd : (l.map Prod.fst).Nodup) (h : (k, v) ∈ l) :
    alookup l k = some v := by
  induction l with
  | nil => simp at h
  | cons kv rest ih =>
    obtain ⟨k₀, v₀⟩ := kv
    simp only [List.map_cons, List.nodup_cons] at hnd
    rcases List.mem_cons.mp h with heq | hmem
    · rw [Prod.mk.injEq] at heq
      obtain ⟨rfl, rfl⟩ := heq
      rw [alookup, if_pos rfl]
    · rw [alookup]
      by_cases hk : k₀ = k
      · subst hk
        exact absurd (List.mem_map_of_mem Prod.fst hmem) hnd.1
      · rw [if_neg hk]
        exact ih hnd.2 hmem

theorem hasKey_dictOfList (l : List (String × Val)) (k : String) :
    hasKey (dictOfList l) k = hasKey l k := by
  rw [hasKey, hasKey, alookup_dictOfList]
  cases h1 : alookup l.reverse k with
  | some w =>
    have := alookup_eq_some_mem h1
    rw [List.mem_reverse] at this
    rw [show (alookup l k).isSome = true from alookup_isSome_of_mem this]
    rfl
  | none =>
    rw [alookup_eq_none_iff] at h1
    rw [List.map_reverse, List.mem_reverse] at h1
    rw [alookup_eq_none_iff.mpr h1]

/-! ## Lemmas about `pythonize_data` -/

/-- Bind of `Except` yields `ok` exactly when both steps do. -/
theorem exceptBind_ok {ε α β : Type} {x : Except ε α} {f : α → Except ε β}
    {b : β} : (x >>= f) = .ok b ↔ ∃ a, x = .ok a ∧ f a = .ok b := by
  cases x with
  | error e =>
    constructor
    · intro h; exact Except.noConfusion h
    · rintro ⟨a, ha, -⟩; exact Except.noConfusion ha
  | ok a =>
    constructor
    · intro h; exact ⟨a, rfl, h⟩
    · rintro ⟨a', ha, hf⟩
      rw [Except.ok.injEq] at ha
      subst ha
      exact hf

/-- Keys other than `attribution`, `maxZoom`, `minZoom`, `url` pass through
`pythonize_data` with their value untouched. -/
theorem pythonizeItem_pass (attrs : List (String × Val)) (k : String)
    (v : Val) (h1 : k ≠ "attribution") (h2 : k ≠ "maxZoom")
    (h3 : k ≠ "minZoom") (h4 : k ≠ "url") :
    pythonizeItem attrs k v = .ok (k, v) := by
  simp only [pythonizeItem, if_neg h1, if_neg h2, if_neg h3, if_neg h4]

theorem attrReplace_ok {ph : String} {av v v' : Val}
    (h : attrReplace ph av v = .ok v') :
    ∃ vs a, v = .s vs ∧ av = .s a ∧ v' = .s (strReplace vs ph.toList a) := by
  cases v with
  | s vs =>
    cases av with
    | s a =>
      simp only [attrReplace, Except.ok.injEq] at h
      exact ⟨vs, a, rfl, rfl, h.symm⟩
    | n x => exact Except.noConfusion h
    | b x => exact Except.noConfusion h
    | null => exact Except.noConfusion h
    | arr x => exact Except.noConfusion h
    | d x => exact Except.noConfusion h
  | n x => exact Except.noConfusion h
  | b x => exact Except.noConfusion h
  | null => exact Except.noConfusion h
  | arr x => exact Except.noConfusion h
  | d x => exact Except.noConfusion h

/-- A successful attribution-substitution loop returns a string with no
remaining `{attribution.` marker (the loop only breaks on that check). -/
theorem attrSubstIter_ok {attrs : List (String × Val)} {v w : Val}
    (h : attrSubstIter attrs v = .ok w) :
    ∃ w', w = .s w' ∧ strContains w' attrMarker = false := by
  induction attrs generalizing v with
  | nil => simp [attrSubstIter] at h
  | cons pr rest ih =>
    obtain ⟨ph, av⟩ := pr
    rw [attrSubstIter] at h
    cases hg : pyIn ph v with
    | error e => rw [hg] at h; exact Except.noConfusion h
    | ok m =>
      rw [hg] at h
      simp only [Bind.bind, Except.bind] at h
      by_cases hm : m
      · subst hm
        rw [if_pos rfl] at h
        cases hr : attrReplace ph av v with
        | error e => rw [hr] at h; exact Except.noConfusion h
        | ok v' =>
          rw [hr] at h
          simp only at h
          by_cases hc : attrCont v'
          · rw [if_pos hc] at h
            exact ih h
          · rw [if_neg hc] at h
            rw [Except.ok.injEq] at h
            subst h
            obtain ⟨vs, a, -, -, rfl⟩ := attrReplace_ok hr
            refine ⟨_, rfl, ?_⟩
            simpa [attrCont] using hc
      · rw [if_neg hm] at h
        exact ih h

/-- Processing an item never invents a key: the output key is the canonical
renaming of the input key. -/
theorem pythonizeItem_key {attrs : List (String × Val)} {k : String}
    {v : Val} {k' : String} {v' : Val}
    (h : pythonizeItem attrs k v = .ok (k', v')) : k' = renameKey k := by
  by_cases h1 : k = "attribution"
  · subst h1
    rw [pythonizeItem, if_pos rfl] at h
    rw [exceptBind_ok] at h
    obtain ⟨g, -, h⟩ := h
    by_cases hg : g
    · subst hg
      rw [if_pos rfl, exceptBind_ok] at h
      obtain ⟨w, -, h⟩ := h
      rw [Except.ok.injEq, Prod.mk.injEq] at h
      exact h.1.symm
    · rw [if_neg hg, Except.ok.injEq, Prod.mk.injEq] at h
      exact h.1.symm
  · rw [pythonizeItem, if_neg h1] at h
    by_cases h2 : k = "maxZoom"
    · subst h2
      rw [if_pos rfl, Except.ok.injEq, Prod.mk.injEq] at h
      rw [h.1.symm]
      rfl
    · rw [if_neg h2] at h
      by_cases h3 : k = "minZoom"
      · subst h3
        rw [if_pos rfl, Except.ok.injEq, Prod.mk.injEq] at h
        rw [h.1.symm]
        rfl
      · rw [if_neg h3] at h
        have hren : renameKey k = k := by
          rw [renameKey, rename_keys]
          rw [alookup, if_neg (fun hc => h2 hc.symm), alookup,
            if_neg (fun hc => h3 hc.symm), alookup]
        rw [hren]
        by_cases h4 : k = "url"
        · subst h4
          rw [if_pos rfl, exceptBind_ok] at h
          obtain ⟨g, -, h⟩ := h
          by_cases hg : g
          · subst hg
            rw [if_pos rfl, exceptBind_ok] at h
            obtain ⟨w, -, h⟩ := h
            rw [Except.ok.injEq, Prod.mk.injEq] at h
            exact h.1.symm
          · rw [if_neg hg, Except.ok.injEq, Prod.mk.injEq] at h
            exact h.1.symm
        · rw [if_neg h4, Except.ok.injEq, Prod.mk.injEq] at h
          exact h.1.symm

/-- A key renaming to `attribution`, `name`, `url`, `variants` or `options`
was already that key (those are not rename targets). -/
theorem renameKey_eq_self_iff (k k' : String)
    (h2 : k' ≠ "max_zoom") (h3 : k' ≠ "min_zoom")
    (h : renameKey k = k') : k = k' := by
  by_cases hmax : k = "maxZoom"
  · subst hmax
    rw [show renameKey "maxZoom" = "max_zoom" from rfl] at h
    exact absurd h.symm h2
  · by_cases hmin : k = "minZoom"
    · subst hmin
      rw [show renameKey "minZoom" = "min_zoom" from rfl] at h
      exact absurd h.symm h3
    · rw [renameKey, rename_keys, alookup, if_neg (fun hc => hmax hc.symm),
        alookup, if_neg (fun hc => hmin hc.symm), alookup] at h
      exact h

/-- The attribution item of a successfully processed record is fully
resolved: no `{attribution.` marker remains in a string value. -/
theorem pythonizeItem_attribution {attrs : List (String × Val)} {v : Val}
    {k' : String} {v' : Val}
    (h : pythonizeItem attrs "attribution" v = .ok (k', v')) :
    k' = "attribution" ∧ noAttrToken v' = true := by
  rw [pythonizeItem, if_pos rfl, exceptBind_ok] at h
  obtain ⟨g, hg, h⟩ := h
  by_cases hgt : g
  · subst hgt
    rw [if_pos rfl, exceptBind_ok] at h
    obtain ⟨w, hw, h⟩ := h
    rw [Except.ok.injEq, Prod.mk.injEq] at h
    obtain ⟨w', rfl, hres⟩ := attrSubstIter_ok hw
    refine ⟨h.1.symm, ?_⟩
    rw [← h.2, noAttrToken, hres]
    rfl
  · rw [if_neg hgt, Except.ok.injEq, Prod.mk.injEq] at h
    obtain ⟨hk, hv⟩ := h
    refine ⟨hk.symm, ?_⟩
    subst hv
    cases v with
    | s vs =>
      rw [noAttrToken]
      have hgv : strContains vs "\x7battribution.".toList = false := by
        simp only [pyIn, Except.ok.injEq] at hg
        rw [hg]
        simpa using hgt
      rw [show attrMarker = "\x7battribution.".toList from rfl, hgv]
      rfl
    | n x => exact Except.noConfusion hg
    | b x => exact Except.noConfusion hg
    | null => exact Except.noConfusion hg
    | arr x => rfl
    | d x => rfl

/-! ### The URL rewrite -/

theorem urlFix_eq (v : List Char) :
    urlFix v = strReplace (strReplace v pMaxTok rMaxTok) pMinTok rMinTok := by
  rw [urlFix, rename_keys]
  simp only [List.foldl_cons, List.foldl_nil]
  have hA : ('{' :: "maxZoom".toList ++ ['}']) = pMaxTok := by decide
  have hB : ('{' :: "max_zoom".toList ++ ['}']) = rMaxTok := by decide
  have hC : ('{' :: "minZoom".toList ++ ['}']) = pMinTok := by decide
  have hD : ('{' :: "min_zoom".toList ++ ['}']) = rMinTok := by decide
  rw [hA, hB, hC, hD]

/-- After the URL rewrite no `{maxZoom}` occurrence remains. -/
theorem urlFix_no_maxTok (v : List Char) :
    strContains (urlFix v) pMaxTok = false := by
  rw [urlFix_eq]
  apply strReplace_contains_other_eq_false
    (strReplace v pMaxTok rMaxTok)
    (show pMaxTok = '{' :: "maxZoom\x7d".toList by decide)
    (by decide) (by decide)
    (show rMinTok = '{' :: "min_zoom\x7d".toList by decide)
    (by decide) (by decide) (by decide)
  exact strReplace_contains_self_eq_false v
    (show pMaxTok = '{' :: "maxZoom\x7d".toList by decide)
    (by decide) (by decide)
    (show rMaxTok = '{' :: "max_zoom\x7d".toList by decide)
    (by decide) (by decide) (by decide)

/-- After the URL rewrite no `{minZoom}` occurrence remains. -/
theorem urlFix_no_minTok (v : List Char) :
    strContains (urlFix v) pMinTok = false := by
  rw [urlFix_eq]
  exact strReplace_contains_self_eq_false (strReplace v pMaxTok rMaxTok)
    (show pMinTok = '{' :: "minZoom\x7d".toList by decide)
    (by decide) (by decide)
    (show rMinTok = '{' :: "min_zoom\x7d".toList by decide)
    (by decide) (by decide) (by decide)

/-- The URL rewrite does nothing on a string containing neither braced
token. -/
theorem urlFix_of_no_tokens {v : List Char}
    (h1 : strContains v pMaxTok = false)
    (h2 : strContains v pMinTok = false) : urlFix v = v := by
  rw [urlFix_eq, strReplace_of_not_contains rMaxTok h1,
    strReplace_of_not_contains rMinTok h2]

/-- The URL rewrite is idempotent. -/
theorem urlFix_idem (v : List Char) : urlFix (urlFix v) = urlFix v :=
  urlFix_of_no_tokens (urlFix_no_maxTok v) (urlFix_no_minTok v)

/-- `any(k in value for k in rename_keys)` on a string value never raises
and computes the disjunction of the substring tests. -/
theorem pyAnyIn_s_ok (keys : List String) (w : List Char) :
    pyAnyIn keys (Val.s w) =
      .ok (keys.any fun k => strContains w k.toList) := by
  induction keys with
  | nil => rfl
  | cons k rest ih =>
    simp only [pyAnyIn, pyIn, Bind.bind, Except.bind]
    have hany : ((k :: rest).any fun x => strContains w x.toList) =
        (strContains w k.toList || rest.any fun x => strContains w x.toList) :=
      List.any_cons
    by_cases hc : strContains w k.toList
    · rw [if_pos hc, hany, hc]
      rfl
    · rw [if_neg hc, hany]
      simp only [Bool.not_eq_true] at hc
      rw [hc, Bool.false_or, ih]

/-- One output item of `pythonize_data`'s loop is a fixed point of the
loop body. -/
theorem pythonizeItem_idem {attrs : List (String × Val)} {k : String}
    {v : Val} {k' : String} {v' : Val}
    (h : pythonizeItem attrs k v = .ok (k', v')) :
    pythonizeItem attrs k' v' = .ok (k', v') := by
  by_cases h1 : k = "attribution"
  · subst h1
    rw [pythonizeItem, if_pos rfl, exceptBind_ok] at h
    obtain ⟨g, hg, h⟩ := h
    by_cases hgt : g
    · subst hgt
      rw [if_pos rfl, exceptBind_ok] at h
      obtain ⟨w, hw, h⟩ := h
      rw [Except.ok.injEq, Prod.mk.injEq] at h
      obtain ⟨hk9, hv9⟩ := h
      subst hk9
      subst hv9
      obtain ⟨w', rfl, hres⟩ := attrSubstIter_ok hw
      rw [pythonizeItem, if_pos rfl]
      have : pyIn "\x7battribution." (Val.s w') = .ok false := by
        rw [pyIn]
        rw [show "\x7battribution.".toList = attrMarker from rfl, hres]
      rw [this]
      simp only [Bind.bind, Except.bind]
      rw [if_neg (by simp : ¬ (false : Bool) = true)]
    · rw [if_neg hgt, Except.ok.injEq, Prod.mk.injEq] at h
      obtain ⟨hk9, hv9⟩ := h
      subst hk9
      subst hv9
      rw [pythonizeItem, if_pos rfl, hg]
      simp only [Bind.bind, Except.bind]
      rw [if_neg hgt]
  · rw [pythonizeItem, if_neg h1] at h
    by_cases h2 : k = "maxZoom"
    · subst h2
      rw [if_pos rfl, Except.ok.injEq, Prod.mk.injEq] at h
      obtain ⟨hk9, hv9⟩ := h
      subst hk9
      subst hv9
      exact pythonizeItem_pass attrs "max_zoom" _
        (by decide) (by decide) (by decide) (by decide)
    · rw [if_neg h2] at h
      by_cases h3 : k = "minZoom"
      · subst h3
        rw [if_pos rfl, Except.ok.injEq, Prod.mk.injEq] at h
        obtain ⟨hk9, hv9⟩ := h
        subst hk9
        subst hv9
        exact pythonizeItem_pass attrs "min_zoom" _
          (by decide) (by decide) (by decide) (by decide)
      · rw [if_neg h3] at h
        by_cases h4 : k = "url"
        · subst h4
          rw [if_pos rfl, exceptBind_ok] at h
          obtain ⟨g, hg, h⟩ := h
          by_cases hgt : g
          · subst hgt
            rw [if_pos rfl, exceptBind_ok] at h
            obtain ⟨w, hw, h⟩ := h
            rw [Except.ok.injEq, Prod.mk.injEq] at h
            obtain ⟨hk9, hv9⟩ := h
            subst hk9
            subst hv9
            cases v with
            | s vs =>
              rw [urlRename, Except.ok.injEq] at hw
              subst hw
              rw [pythonizeItem, if_neg h1, if_neg h2, if_neg h3,
                if_pos rfl, pyAnyIn_s_ok, exceptBind_ok]
              refine ⟨_, rfl, ?_⟩
              by_cases hg2 : ((rename_keys.map Prod.fst).any
                  fun k => strContains (urlFix vs) k.toList)
              · rw [if_pos hg2, exceptBind_ok]
                refine ⟨.s (urlFix (urlFix vs)), by rw [urlRename], ?_⟩
                rw [urlFix_idem]
              · rw [if_neg hg2]
            | n x => exact Except.noConfusion hw
            | b x => exact Except.noConfusion hw
            | null => exact Except.noConfusion hw
            | arr x => exact Except.noConfusion hw
            | d x => exact Except.noConfusion hw
          · rw [if_neg hgt, Except.ok.injEq, Prod.mk.injEq] at h
            obtain ⟨hk9, hv9⟩ := h
            subst hk9
            subst hv9
            rw [pythonizeItem, if_neg h1, if_neg h2, if_neg h3, if_pos rfl,
              hg]
            simp only [Bind.bind, Except.bind]
            rw [if_neg hgt]
        · rw [if_neg h4, Except.ok.injEq, Prod.mk.injEq] at h
          obtain ⟨hk9, hv9⟩ := h
          subst hk9
          subst hv9
          exact pythonizeItem_pass attrs k v h1 h2 h3 h4

/-! ### The item loop and `dict(new_data)` -/

theorem pythonizeItems_mem_fwd {attrs : List (String × Val)}
    {l l' : List (String × Val)} (h : pythonizeItems attrs l = .ok l')
    {k : String} {v : Val} (hm : (k, v) ∈ l) :
    ∃ kv', kv' ∈ l' ∧ pythonizeItem attrs k v = .ok kv' := by
  induction l generalizing l' with
  | nil => simp at hm
  | cons kv rest ih =>
    obtain ⟨k₀, v₀⟩ := kv
    rw [pythonizeItems, exceptBind_ok] at h
    obtain ⟨x, hx, h⟩ := h
    rw [exceptBind_ok] at h
    obtain ⟨xs, hxs, h⟩ := h
    rw [Except.ok.injEq] at h
    subst h
    rcases List.mem_cons.mp hm with heq | hmem
    · rw [Prod.mk.injEq] at heq
      obtain ⟨rfl, rfl⟩ := heq
      exact ⟨x, List.mem_cons_self _ _, hx⟩
    · obtain ⟨kv', hkv1, hkv2⟩ := ih hxs hmem
      exact ⟨kv', List.mem_cons_of_mem _ hkv1, hkv2⟩

theorem pythonizeItems_mem_back {attrs : List (String × Val)}
    {l l' : List (String × Val)} (h : pythonizeItems attrs l = .ok l')
    {x : String × Val} (hx : x ∈ l') :
    ∃ k v, (k, v) ∈ l ∧ pythonizeItem attrs k v = .ok x := by
  induction l generalizing l' with
  | nil =>
    rw [pythonizeItems, Except.ok.injEq] at h
    subst h
    simp at hx
  | cons kv rest ih =>
    obtain ⟨k₀, v₀⟩ := kv
    rw [pythonizeItems, exceptBind_ok] at h
    obtain ⟨y, hy, h⟩ := h
    rw [exceptBind_ok] at h
    obtain ⟨ys, hys, h⟩ := h
    rw [Except.ok.injEq] at h
    subst h
    rcases List.mem_cons.mp hx with rfl | hmem
    · exact ⟨k₀, v₀, List.mem_cons_self _ _, hy⟩
    · obtain ⟨k, v, hk1, hk2⟩ := ih hys hmem
      exact ⟨k, v, List.mem_cons_of_mem _ hk1, hk2⟩

theorem pythonizeItems_of_fixed {attrs : List (String × Val)}
    {l : List (String × Val)}
    (hall : ∀ kv ∈ l, pythonizeItem attrs kv.1 kv.2 = .ok kv) :
    pythonizeItems attrs l = .ok l := by
  induction l with
  | nil => rfl
  | cons kv rest ih =>
    obtain ⟨k₀, v₀⟩ := kv
    rw [pythonizeItems, exceptBind_ok]
    refine ⟨(k₀, v₀), hall (k₀, v₀) (List.mem_cons_self _ _), ?_⟩
    rw [exceptBind_ok]
    exact ⟨rest, ih (fun kv hm => hall kv (List.mem_cons_of_mem _ hm)), rfl⟩

theorem pythonizeItems_not_ok_of_mem {attrs : List (String × Val)}
    {l : List (String × Val)} {k : String} {v : Val} {e : PyErr}
    (hm : (k, v) ∈ l) (he : pythonizeItem attrs k v = .error e) :
    ∀ l', pythonizeItems attrs l ≠ .ok l' := by
  induction l with
  | nil => simp at hm
  | cons kv rest ih =>
    obtain ⟨k₀, v₀⟩ := kv
    intro l' hcon
    rw [pythonizeItems, exceptBind_ok] at hcon
    obtain ⟨x, hx, hcon⟩ := hcon
    rw [exceptBind_ok] at hcon
    obtain ⟨xs, hxs, -⟩ := hcon
    rcases List.mem_cons.mp hm with heq | hmem
    · rw [Prod.mk.injEq] at heq
      obtain ⟨rfl, rfl⟩ := heq
      rw [he] at hx
      exact Except.noConfusion hx
    · exact ih hmem xs hxs

theorem pythonizeItems_keys {attrs : List (String × Val)}
    {l l' : List (String × Val)} (h : pythonizeItems attrs l = .ok l') :
    l'.map Prod.fst = l.map (fun kv => renameKey kv.1) := by
  induction l generalizing l' with
  | nil =>
    rw [pythonizeItems, Except.ok.injEq] at h
    subst h
    rfl
  | cons kv rest ih =>
    obtain ⟨k₀, v₀⟩ := kv
    rw [pythonizeItems, exceptBind_ok] at h
    obtain ⟨x, hx, h⟩ := h
    rw [exceptBind_ok] at h
    obtain ⟨xs, hxs, h⟩ := h
    rw [Except.ok.injEq] at h
    subst h
    obtain ⟨k', v'⟩ := x
    rw [List.map_cons, List.map_cons, ih hxs, pythonizeItem_key hx]

/-! ### `pythonize_data` -/

theorem pythonize_data_ok_iff {attrs : List (String × Val)} {d d' : Dict} :
    pythonize_data attrs d = .ok d' ↔
      ∃ items, pythonizeItems attrs d = .ok items ∧ d' = dictOfList items := by
  rw [pythonize_data, exceptBind_ok]
  constructor
  · rintro ⟨items, h1, h2⟩
    rw [Except.ok.injEq] at h2
    exact ⟨items, h1, h2.symm⟩
  · rintro ⟨items, h1, h2⟩
    exact ⟨items, h1, by rw [h2]⟩

theorem pythonize_data_nodup_keys {attrs : List (String × Val)} {d d' : Dict}
    (h : pythonize_data attrs d = .ok d') : (d'.map Prod.fst).Nodup := by
  obtain ⟨items, -, rfl⟩ := pythonize_data_ok_iff.mp h
  exact nodup_keys_dictOfList items

/-- Every key of a pythonized record is the canonical renaming of a key of
the input record, and conversely. -/
theorem pythonize_data_hasKey {attrs : List (String × Val)} {d d' : Dict}
    (h : pythonize_data attrs d = .ok d') (k : String) :
    hasKey d' k = true ↔ ∃ k₀, k₀ ∈ d.map Prod.fst ∧ renameKey k₀ = k := by
  obtain ⟨items, hitems, rfl⟩ := pythonize_data_ok_iff.mp h
  rw [hasKey_dictOfList, hasKey_iff_mem_keys, pythonizeItems_keys hitems]
  constructor
  · intro hmem
    rw [List.mem_map] at hmem
    obtain ⟨kv, hkv, hren⟩ := hmem
    exact ⟨kv.1, List.mem_map_of_mem Prod.fst hkv, hren⟩
  · rintro ⟨k₀, hk₀, hren⟩
    rw [List.mem_map] at hk₀ ⊢
    obtain ⟨kv, hkv, hfst⟩ := hk₀
    exact ⟨kv, hkv, by rw [hfst, hren]⟩

/-- A resolved record's attribution value carries no attribution marker. -/
theorem pythonize_data_attribution {attrs : List (String × Val)}
    {d d' : Dict} (h : pythonize_data attrs d = .ok d') {v : Val}
    (hv : alookup d' "attribution" = some v) : noAttrToken v = true := by
  obtain ⟨items, hitems, rfl⟩ := pythonize_data_ok_iff.mp h
  have hmem : ("attribution", v) ∈ items :=
    mem_dictOfList (alookup_eq_some_mem hv)
  obtain ⟨k₀, v₀, hk₀, hok⟩ := pythonizeItems_mem_back hitems hmem
  have hkey := pythonizeItem_key hok
  have hk0 : k₀ = "attribution" :=
    renameKey_eq_self_iff k₀ "attribution" (by decide) (by decide) hkey.symm
  subst hk0
  exact (pythonizeItem_attribution hok).2

/-- Looking up a key that is not a rename target, whose item passes through
unchanged, in the pythonized record. -/
theorem pythonize_data_keyval {attrs : List (String × Val)} {d d' : Dict}
    {k : String} {v : Val} (h : pythonize_data attrs d = .ok d')
    (hnd : (d.map Prod.fst).Nodup)
    (hk2 : k ≠ "max_zoom") (hk3 : k ≠ "min_zoom")
    (hv : alookup d k = some v)
    (hpass : pythonizeItem attrs k v = .ok (k, v)) :
    alookup d' k = some v := by
  obtain ⟨items, hitems, rfl⟩ := pythonize_data_ok_iff.mp h
  obtain ⟨kv', hkv1, hkv2⟩ :=
    pythonizeItems_mem_fwd hitems (alookup_eq_some_mem hv)
  rw [hpass, Except.ok.injEq] at hkv2
  subst hkv2
  apply alookup_dictOfList_unique hkv1
  intro w hw
  obtain ⟨k₀, v₀, hk₀, hok⟩ := pythonizeItems_mem_back hitems hw
  have hkey := pythonizeItem_key hok
  have hk0 : k₀ = k := renameKey_eq_self_iff k₀ k hk2 hk3 hkey.symm
  subst hk0
  have hveq : v₀ = v := by
    have := alookup_of_mem_nodup hnd hk₀
    rw [hv, Option.some.injEq] at this
    exact this.symm
  subst hveq
  rw [hpass, Except.ok.injEq, Prod.mk.injEq] at hok
  exact hok.2.symm

/-- `pythonize_data` is idempotent on its successful outputs. -/
theorem pythonize_data_idem {attrs : List (String × Val)} {d d' : Dict}
    (h : pythonize_data attrs d = .ok d') :
    pythonize_data attrs d' = .ok d' := by
  obtain ⟨items, hitems, rfl⟩ := pythonize_data_ok_iff.mp h
  apply pythonize_data_ok_iff.mpr
  refine ⟨dictOfList items, ?_, (dictOfList_eq_self (nodup_keys_dictOfList items)).symm⟩
  apply pythonizeItems_of_fixed
  intro kv hm
  obtain ⟨k₀, v₀, -, hok⟩ :=
    pythonizeItems_mem_back hitems (mem_dictOfList hm)
  obtain ⟨k', v'⟩ := kv
  exact pythonizeItem_idem hok

/-! ## Lemmas about well-formedness -/

theorem cellWF_iff {l : List (String × Val)} :
    cellWF l = true ↔ ∀ kv ∈ l, valWF kv.2 = true := by
  induction l with
  | nil => simp [cellWF]
  | cons kv rest ih =>
    obtain ⟨k₀, v₀⟩ := kv
    rw [cellWF, Bool.and_eq_true, ih]
    constructor
    · rintro ⟨h1, h2⟩ kv hm
      rcases List.mem_cons.mp hm with rfl | hmem
      · exact h1
      · exact h2 kv hmem
    · intro h
      exact ⟨h (k₀, v₀) (List.mem_cons_self _ _),
        fun kv hm => h kv (List.mem_cons_of_mem _ hm)⟩

theorem valWF_d_iff {dd : List (String × Val)} :
    valWF (.d dd) = true ↔
      (dd.map Prod.fst).Nodup ∧ cellWF dd = true := by
  rw [valWF, Bool.and_eq_true, decide_eq_true_iff]

theorem valWF_of_alookup {dd : List (String × Val)} {k : String} {v : Val}
    (h : valWF (.d dd) = true) (hv : alookup dd k = some v) :
    valWF v = true :=
  cellWF_iff.mp (valWF_d_iff.mp h).2 (k, v) (alookup_eq_some_mem hv)

/-! ## Lemmas about `process_provider` and `process_data` -/

theorem hasKey_false_alookup {d : Dict} {k : String}
    (h : hasKey d k = false) : alookup d k = none := by
  rw [hasKey] at h
  cases hx : alookup d k with
  | none => rfl
  | some w => rw [hx] at h; exact absurd h (by simp)

theorem popVariants_of_not_hasKey {pd : Dict}
    (h : hasKey pd "variants" = false) : popVariants pd = none := by
  rw [popVariants, hasKey_false_alookup h]

theorem popVariants_of_some {pd : Dict} {vv : Val}
    (h : alookup pd "variants" = some vv) (hnn : vv ≠ .null) :
    popVariants pd = some vv := by
  rw [popVariants, h]
  cases vv with
  | null => exact absurd rfl hnn
  | s w => rfl
  | n x => rfl
  | b x => rfl
  | arr x => rfl
  | d x => rfl

/-- Unfolding `process_provider` once the provider dict and its options
dict are known. -/
theorem process_provider_eq {attrs : List (String × Val)} {data : Dict}
    {pname : String} {pd opts : Dict}
    (hdata : alookup data pname = some (.d pd))
    (hopts : alookup (dictErase pd "variants") "options" = some (.d opts)) :
    process_provider attrs data pname =
      processBranch attrs
        (dictMerge (dictErase (dictErase pd "variants") "options") opts)
        pname (popVariants pd) := by
  rw [process_provider, lookupOrKeyError, hdata]
  simp only [Bind.bind, Except.bind, dictCopy, lookupOrKeyError, hopts,
    asDictForUnpack]

theorem processBranch_none_ok {attrs : List (String × Val)} {pk : Dict}
    {name : String} {v : Val} :
    processBranch attrs pk name none = .ok v ↔
      ∃ r, v = .d r ∧
        pythonize_data attrs (dictSet pk "name" (.s name.toList)) = .ok r := by
  rw [processBranch, exceptBind_ok]
  constructor
  · rintro ⟨r, h1, h2⟩
    rw [Except.ok.injEq] at h2
    exact ⟨r, h2.symm, h1⟩
  · rintro ⟨r, rfl, h⟩
    exact ⟨r, h, rfl⟩

theorem processBranch_some_d_ok {attrs : List (String × Val)} {pk : Dict}
    {name : String} {vd : List (String × Val)} {v : Val} :
    processBranch attrs pk name (some (.d vd)) = .ok v ↔
      ∃ res, v = .d res ∧
        processVariantList attrs pk name [] vd = .ok res := by
  rw [processBranch]
  show (processVariantsVal attrs pk name (.d vd) >>= fun res =>
    .ok (.d res)) = .ok v ↔ _
  rw [show processVariantsVal attrs pk name (.d vd) =
    processVariantList attrs pk name [] vd from rfl, exceptBind_ok]
  constructor
  · rintro ⟨res, h1, h2⟩
    rw [Except.ok.injEq] at h2
    exact ⟨res, h2.symm, h1⟩
  · rintro ⟨res, rfl, h⟩
    exact ⟨res, h, rfl⟩

/-- Successful variant dicts have duplicate-free keys (assuming the raw
variant definition was a well-formed JSON value). -/
theorem buildVariantKeys_nodup {var : Val} {vk : Dict}
    (hwf : valWF var = true) (h : buildVariantKeys var = .ok vk) :
    (vk.map Prod.fst).Nodup := by
  cases var with
  | s w =>
    rw [buildVariantKeys, Except.ok.injEq] at h
    subst h
    simp
  | d vd =>
    obtain ⟨hnd, -⟩ := valWF_d_iff.mp hwf
    rw [buildVariantKeys] at h
    cases ho : alookup vd "options" with
    | none =>
      rw [ho, Except.ok.injEq] at h
      subst h
      exact nodup_keys_dictMerge [] (nodup_keys_dictErase _ hnd)
    | some ov =>
      rw [ho] at h
      cases ov with
      | d vo =>
        simp only [asDictForUnpack, Bind.bind, Except.bind,
          Except.ok.injEq] at h
        subst h
        exact nodup_keys_dictMerge vo (nodup_keys_dictErase _ hnd)
      | s x => exact Except.noConfusion h
      | n x => exact Except.noConfusion h
      | b x => exact Except.noConfusion h
      | null => exact Except.noConfusion h
      | arr x => exact Except.noConfusion h
  | n x => exact Except.noConfusion h
  | b x => exact Except.noConfusion h
  | null => exact Except.noConfusion h
  | arr x => exact Except.noConfusion h

/-- The `result[variant] = ...` loop: keys are the variant names in order,
previous entries are preserved, and each variant maps to its processed
record. -/
theorem processVariantList_spec {attrs : List (String × Val)} {pk : Dict}
    {pname : String} :
    ∀ (vd : List (String × Val)) (acc res : Dict),
      processVariantList attrs pk pname acc vd = .ok res →
      (vd.map Prod.fst).Nodup →
      (∀ k, k ∈ vd.map Prod.fst → hasKey acc k = false) →
      res.map Prod.fst = acc.map Prod.fst ++ vd.map Prod.fst ∧
      (∀ k, hasKey acc k = true → alookup res k = alookup acc k) ∧
      (∀ vn var, (vn, var) ∈ vd → ∃ r,
        processVariant attrs pk pname vn var = .ok r ∧
        alookup res vn = some (.d r)) := by
  intro vd
  induction vd with
  | nil =>
    intro acc res h _ _
    rw [processVariantList, Except.ok.injEq] at h
    subst h
    refine ⟨by simp, fun k _ => rfl, fun vn var hm => by simp at hm⟩
  | cons kv rest ih =>
    intro acc res h hnd hdisj
    obtain ⟨vn₀, var₀⟩ := kv
    simp only [List.map_cons, List.nodup_cons] at hnd
    rw [processVariantList, exceptBind_ok] at h
    obtain ⟨r₀, hr₀, h⟩ := h
    have hfresh : hasKey acc vn₀ = false := hdisj vn₀ (by simp)
    have hset : dictSet acc vn₀ (.d r₀) = acc ++ [(vn₀, .d r₀)] :=
      dictSet_of_not_hasKey _ hfresh
    have hdisj' : ∀ k, k ∈ rest.map Prod.fst →
        hasKey (dictSet acc vn₀ (.d r₀)) k = false := by
      intro k hk
      rw [hset, hasKey_append]
      have h1 : hasKey acc k = false := hdisj k (by simp [hk])
      have h2 : hasKey [(vn₀, Val.d r₀)] k = false := by
        rw [hasKey, alookup]
        rw [if_neg (fun hc => hnd.1 (by rw [hc]; exact hk))]
        rfl
      rw [h1, h2]
      rfl
    obtain ⟨hkeys, hpres, hvars⟩ := ih (dictSet acc vn₀ (.d r₀)) res h
      hnd.2 hdisj'
    refine ⟨?_, ?_, ?_⟩
    · rw [hkeys, hset]
      simp
    · intro k hk
      rw [hpres k ?_, hset, alookup_append]
      · rw [hasKey] at hk
        cases hx : alookup acc k with
        | none => rw [hx] at hk; exact absurd hk (by simp)
        | some w => rfl
      · rw [hset, hasKey_append, hk]
        rfl
    · intro vn var hm
      rcases List.mem_cons.mp hm with heq | hmem
      · rw [Prod.mk.injEq] at heq
        obtain ⟨rfl, rfl⟩ := heq
        refine ⟨r₀, hr₀, ?_⟩
        rw [hpres vn ?_, hset, alookup_append]
        · rw [hasKey_false_alookup hfresh]
          simp [alookup]
        · rw [hset, hasKey_append]
          have : hasKey [(vn, Val.d r₀)] vn = true := by
            rw [hasKey, alookup, if_pos rfl]
            rfl
          rw [this]
          simp
      · exact hvars vn var hmem

/-- Every entry of a successful `process_data` result that is not carried
over from the accumulator comes from a successful `process_provider`. -/
theorem processProviderLoop_mem {attrs : List (String × Val)} {data : Dict} :
    ∀ (l : List (String × Val)) (acc res : Dict),
      processProviderLoop attrs data acc l = .ok res →
      ∀ x, x ∈ res → x ∈ acc ∨
        process_provider attrs data x.1 = .ok x.2 := by
  intro l
  induction l with
  | nil =>
    intro acc res h x hx
    rw [processProviderLoop, Except.ok.injEq] at h
    subst h
    exact Or.inl hx
  | cons kv rest ih =>
    intro acc res h x hx
    obtain ⟨pn, pv⟩ := kv
    rw [processProviderLoop, exceptBind_ok] at h
    obtain ⟨r, hr, h⟩ := h
    rcases ih _ res h x hx with hmem | hproc
    · rcases mem_dictSet hmem with heq | hacc
      · subst heq
        exact Or.inr hr
      · exact Or.inl hacc
    · exact Or.inr hproc

theorem process_data_ok_iff {data res : Dict} :
    process_data data = .ok res ↔
      ∃ attrs, buildAttributions data = .ok attrs ∧
        processProviderLoop attrs data [] data = .ok res := by
  rw [process_data, exceptBind_ok]

theorem lookupOrKeyError_ok {d : Dict} {k : String} {v : Val} :
    lookupOrKeyError d k = .ok v ↔ alookup d k = some v := by
  rw [lookupOrKeyError]
  cases h : alookup d k with
  | none =>
    constructor
    · intro hc; exact Except.noConfusion hc
    · intro hc; exact Option.noConfusion hc
  | some w =>
    constructor
    · intro hc
      rw [Except.ok.injEq] at hc
      rw [hc]
    · intro hc
      rw [Option.some.injEq] at hc
      rw [hc]

theorem dictCopy_ok {pv : Val} {pd : Dict} :
    dictCopy pv = .ok pd ↔ pv = .d pd := by
  cases pv with
  | d dd =>
    rw [dictCopy]
    constructor
    · intro h
      rw [Except.ok.injEq] at h
      rw [h]
    · intro h
      rw [Val.d.injEq] at h
      rw [h]
  | s x =>
    exact ⟨fun h => Except.noConfusion h, fun h => Val.noConfusion h⟩
  | n x =>
    exact ⟨fun h => Except.noConfusion h, fun h => Val.noConfusion h⟩
  | b x =>
    exact ⟨fun h => Except.noConfusion h, fun h => Val.noConfusion h⟩
  | null =>
    exact ⟨fun h => Except.noConfusion h, fun h => Val.noConfusion h⟩
  | arr x =>
    exact ⟨fun h => Except.noConfusion h, fun h => Val.noConfusion h⟩

theorem asDictForUnpack_ok {pv : Val} {pd : Dict} :
    asDictForUnpack pv = .ok pd ↔ pv = .d pd := by
  cases pv with
  | d dd =>
    rw [asDictForUnpack]
    constructor
    · intro h
      rw [Except.ok.injEq] at h
      rw [h]
    · intro h
      rw [Val.d.injEq] at h
      rw [h]
  | s x =>
    exact ⟨fun h => Except.noConfusion h, fun h => Val.noConfusion h⟩
  | n x =>
    exact ⟨fun h => Except.noConfusion h, fun h => Val.noConfusion h⟩
  | b x =>
    exact ⟨fun h => Except.noConfusion h, fun h => Val.noConfusion h⟩
  | null =>
    exact ⟨fun h => Except.noConfusion h, fun h => Val.noConfusion h⟩
  | arr x =>
    exact ⟨fun h => Except.noConfusion h, fun h => Val.noConfusion h⟩

theorem processBranch_some_ok {attrs : List (String × Val)} {pk : Dict}
    {name : String} {vv v : Val} :
    processBranch attrs pk name (some vv) = .ok v ↔
      ∃ res, v = .d res ∧
        processVariantsVal attrs pk name vv = .ok res := by
  rw [processBranch, exceptBind_ok]
  constructor
  · rintro ⟨res, h1, h2⟩
    rw [Except.ok.injEq] at h2
    exact ⟨res, h2.symm, h1⟩
  · rintro ⟨res, rfl, h⟩
    exact ⟨res, h, rfl⟩

/-- Entries of a successful variant loop come from the accumulator or from
one successful `processVariant`. -/
theorem processVariantList_mem {attrs : List (String × Val)} {pk : Dict}
    {pname : String} :
    ∀ (vd : List (String × Val)) (acc res : Dict),
      processVariantList attrs pk pname acc vd = .ok res →
      ∀ x, x ∈ res → x ∈ acc ∨ ∃ var r,
        processVariant attrs pk pname x.1 var = .ok r ∧ x.2 = .d r := by
  intro vd
  induction vd with
  | nil =>
    intro acc res h x hx
    rw [processVariantList, Except.ok.injEq] at h
    subst h
    exact Or.inl hx
  | cons kv rest ih =>
    intro acc res h x hx
    obtain ⟨vn₀, var₀⟩ := kv
    rw [processVariantList, exceptBind_ok] at h
    obtain ⟨r₀, hr₀, h⟩ := h
    rcases ih _ res h x hx with hmem | hvar
    · rcases mem_dictSet hmem with heq | hacc
      · subst heq
        exact Or.inr ⟨var₀, r₀, hr₀, rfl⟩
      · exact Or.inl hacc
    · exact Or.inr hvar

/-- `processVariant` unpacked: a successful variant record is the
pythonization of the variant keys merged over the provider keys, with the
qualified name set last. -/
theorem processVariant_ok {attrs : List (String × Val)} {pk : Dict}
    {pname vn : String} {var : Val} {r : Dict} :
    processVariant attrs pk pname vn var = .ok r ↔
      ∃ vk, buildVariantKeys var = .ok vk ∧
        pythonize_data attrs (dictSet (dictMerge pk vk) "name"
          (.s (pname ++ "." ++ vn).toList)) = .ok r := by
  rw [processVariant, exceptBind_ok]

/-- Shape of every successful `process_provider` result: a record produced
by `pythonize_data` from a duplicate-free dict whose `name` is the provider
name, or a mapping of variant records likewise produced with qualified
names. -/
theorem process_provider_ok_cases {attrs : List (String × Val)} {data : Dict}
    {pn : String} {v : Val} (hwf : cellWF data = true)
    (h : process_provider attrs data pn = .ok v) :
    ∃ r : Dict, v = .d r ∧
      ((∃ nd : Dict, (nd.map Prod.fst).Nodup ∧
          alookup nd "name" = some (.s pn.toList) ∧
          pythonize_data attrs nd = .ok r)
       ∨ (∀ x, x ∈ r → ∃ vn rr, x = (vn, Val.d rr) ∧ ∃ nd : Dict,
            (nd.map Prod.fst).Nodup ∧
            alookup nd "name" = some (.s (pn ++ "." ++ vn).toList) ∧
            pythonize_data attrs nd = .ok rr)) := by
  rw [process_provider] at h
  rw [exceptBind_ok] at h
  obtain ⟨pv, hpv, h⟩ := h
  rw [exceptBind_ok] at h
  obtain ⟨pd, hpd, h⟩ := h
  rw [dictCopy_ok] at hpd
  subst hpd
  rw [exceptBind_ok] at h
  obtain ⟨optv, hoptv, h⟩ := h
  rw [exceptBind_ok] at h
  obtain ⟨opts, hopts, h⟩ := h
  have hpdwf : valWF (.d pd) = true :=
    cellWF_iff.mp hwf _ (alookup_eq_some_mem (lookupOrKeyError_ok.mp hpv))
  have hpknd : ((dictMerge (dictErase (dictErase pd "variants") "options")
      opts).map Prod.fst).Nodup :=
    nodup_keys_dictMerge opts
      (nodup_keys_dictErase _ (nodup_keys_dictErase _ (valWF_d_iff.mp hpdwf).1))
  cases hvo : popVariants pd with
  | none =>
    rw [hvo] at h
    rw [processBranch_none_ok] at h
    obtain ⟨r, rfl, hr⟩ := h
    refine ⟨r, rfl, Or.inl ⟨_, nodup_keys_dictSet hpknd,
      alookup_dictSet_self _ _ _, hr⟩⟩
  | some vv =>
    rw [hvo] at h
    rw [processBranch_some_ok] at h
    obtain ⟨res, rfl, hres⟩ := h
    refine ⟨res, rfl, Or.inr ?_⟩
    intro x hx
    cases vv with
    | d vd =>
      rw [show processVariantsVal attrs
          (dictMerge (dictErase (dictErase pd "variants") "options") opts)
          pn (.d vd) = processVariantList attrs _ pn [] vd from rfl] at hres
      rcases processVariantList_mem vd [] res hres x hx with hacc | hvar
      · simp at hacc
      · obtain ⟨var, rr, hok, hx2⟩ := hvar
        rw [processVariant_ok] at hok
        obtain ⟨vk, -, hpyth⟩ := hok
        obtain ⟨k₀, v₀⟩ := x
        simp only at hx2
        refine ⟨k₀, rr, by rw [hx2], ?_⟩
        exact ⟨_, nodup_keys_dictSet (nodup_keys_dictMerge vk hpknd),
          alookup_dictSet_self _ _ _, hpyth⟩
    | s w =>
      cases w with
      | nil =>
        rw [show processVariantsVal attrs
            (dictMerge (dictErase (dictErase pd "variants") "options") opts)
            pn (.s []) = .ok [] from rfl, Except.ok.injEq] at hres
        subst hres
        simp at hx
      | cons c cs => exact Except.noConfusion hres
    | arr l =>
      cases l with
      | nil =>
        rw [show processVariantsVal attrs
            (dictMerge (dictErase (dictErase pd "variants") "options") opts)
            pn (.arr []) = .ok [] from rfl, Except.ok.injEq] at hres
        subst hres
        simp at hx
      | cons y ys => exact Except.noConfusion hres
    | n x' => exact Except.noConfusion hres
    | b x' => exact Except.noConfusion hres
    | null => exact Except.noConfusion hres

theorem hasKey_dictSet (d : Dict) (k : String) (v : Val) (k' : String) :
    hasKey (dictSet d k v) k' = if k' = k then true else hasKey d k' := by
  by_cases hk : k' = k
  · subst hk
    rw [if_pos rfl, hasKey, alookup_dictSet_self]
    rfl
  · rw [if_neg hk, hasKey, hasKey, alookup_dictSet_ne d k v hk]

theorem hasKey_dictMerge (a b : Dict) (k : String) :
    hasKey (dictMerge a b) k = (hasKey a k || hasKey b k) := by
  rw [hasKey, alookup_dictMerge]
  cases h : alookup b.reverse k with
  | some w =>
    have hmem := alookup_eq_some_mem h
    rw [List.mem_reverse] at hmem
    have : hasKey b k = true := alookup_isSome_of_mem hmem
    rw [this, Bool.or_true]
    rfl
  | none =>
    rw [alookup_eq_none_iff, List.map_reverse, List.mem_reverse] at h
    have : hasKey b k = false := by
      rw [hasKey, alookup_eq_none_iff.mpr h]
      rfl
    rw [this, Bool.or_false, hasKey]

/-! ## The claims -/

/-- C1, counterexample: normalizing the spec's one-provider round-trip
catalog with `process_data` does not return the expected mapping — it does
not succeed at all.  Building the `ATTRIBUTIONS` table reads
`data["Esri"]`, which is absent, so the run aborts with a `KeyError`. -/
theorem c1_roundtrip_fails :
    process_data c1data = .error (.keyError "Esri") := rfl

/-- C1, amended: the per-provider normalization of the round-trip catalog
(`process_provider`, with any attribution table — the example's attribution
contains no placeholder) yields exactly the expected record
`{name: "OpenStreetMap", url: "http://tile/{z}/{x}/{y}.png",
max_zoom: 19, attribution: "© OSM"}`; `process_data` itself fails on this
catalog because the attribution-table build also requires `Esri` and
`OpenMapSurfer` entries. -/
theorem c1_roundtrip_per_provider : ∀ attrs : List (String × Val),
    process_provider attrs c1data "OpenStreetMap" = .ok (.d c1record) ∧
    alookup c1record "name" = some (.s "OpenStreetMap".toList) ∧
    alookup c1record "url" =
      some (.s "http://tile/{z}/{x}/{y}.png".toList) ∧
    alookup c1record "max_zoom" = some (.n 19) ∧
    alookup c1record "attribution" = some (.s "© OSM".toList) ∧
    c1record.map Prod.fst = ["url", "max_zoom", "attribution", "name"] :=
  fun _ => ⟨rfl, rfl, rfl, rfl, rfl, rfl⟩

/-- C5, counterexample: a provider without variants whose `options`
sub-mapping itself contains an `options` key.  Normalization succeeds and
the record contains a leftover `options` key, contradicting the claim that
no `variants`/`options` keys remain. -/
theorem c5_leftover_options :
    process_provider [] c5data "P" = .ok (.d c5record) ∧
    hasKey c5record "options" = true :=
  ⟨rfl, rfl⟩

/-- C5, amended: for every provider entry lacking `variants` (and decoding
from well-formed JSON), the normalized record is the pythonization of the
provider's remaining top-level fields merged with its `options` sub-mapping
(options values winning on key collision), its `name` equals the raw
provider name, and — provided the `options` sub-mapping itself introduces
neither key — the record contains no `variants` and no `options` key. -/
theorem c5_novariants (attrs : List (String × Val)) (data : Dict)
    (pname : String) (pd opts r : Dict)
    (hdata : alookup data pname = some (.d pd))
    (hwf : valWF (.d pd) = true)
    (hnovar : hasKey pd "variants" = false)
    (hopts : alookup pd "options" = some (.d opts))
    (hoptwf : valWF (.d opts) = true)
    (hok : process_provider attrs data pname = .ok (.d r)) :
    alookup r "name" = some (.s pname.toList) ∧
    pythonize_data attrs (dictSet (providerBaseKeys pd opts) "name"
      (.s pname.toList)) = .ok r ∧
    (∀ k, alookup (providerBaseKeys pd opts) k =
      match alookup opts k with
      | some w => some w
      | none => alookup (dictErase (dictErase pd "variants") "options") k) ∧
    (hasKey opts "variants" = false → hasKey r "variants" = false) ∧
    (hasKey opts "options" = false → hasKey r "options" = false) := by
  have hopts' : alookup (dictErase pd "variants") "options" =
      some (.d opts) := by
    rw [alookup_dictErase_ne pd "variants" (by decide), hopts]
  rw [process_provider_eq hdata hopts', popVariants_of_not_hasKey hnovar,
    processBranch_none_ok] at hok
  obtain ⟨r₂, heq, hpyth⟩ := hok
  rw [Val.d.injEq] at heq
  subst heq
  have hpdnd : (pd.map Prod.fst).Nodup := (valWF_d_iff.mp hwf).1
  have hbasend : ((providerBaseKeys pd opts).map Prod.fst).Nodup :=
    nodup_keys_dictMerge opts
      (nodup_keys_dictErase _ (nodup_keys_dictErase _ hpdnd))
  have hinnd : ((dictSet (providerBaseKeys pd opts) "name"
      (.s pname.toList)).map Prod.fst).Nodup := nodup_keys_dictSet hbasend
  have hnokey : ∀ kk : String, kk ≠ "name" → kk ≠ "max_zoom" →
      kk ≠ "min_zoom" →
      hasKey (dictErase (dictErase pd "variants") "options") kk = false →
      hasKey opts kk = false → hasKey r kk = false := by
    intro kk hkn hkmax hkmin h1 h2
    cases hb : hasKey r kk with
    | false => rfl
    | true =>
      exfalso
      obtain ⟨k₀, hk₀, hren⟩ := (pythonize_data_hasKey hpyth kk).mp hb
      have hk0eq : k₀ = kk := renameKey_eq_self_iff k₀ kk hkmax hkmin hren
      subst hk0eq
      have hmem : hasKey (dictSet (providerBaseKeys pd opts) "name"
          (.s pname.toList)) k₀ = true := hasKey_iff_mem_keys.mpr hk₀
      rw [hasKey_dictSet, if_neg hkn, providerBaseKeys, hasKey_dictMerge,
        h1, h2] at hmem
      exact Bool.noConfusion hmem
  refine ⟨?_, hpyth, ?_, ?_, ?_⟩
  · apply pythonize_data_keyval hpyth hinnd (by decide) (by decide)
      (alookup_dictSet_self _ _ _)
    exact pythonizeItem_pass attrs "name" _ (by decide) (by decide)
      (by decide) (by decide)
  · intro k
    rw [providerBaseKeys, alookup_dictMerge,
      alookup_reverse_of_nodup (valWF_d_iff.mp hoptwf).1]
  · intro hnv
    apply hnokey "variants" (by decide) (by decide) (by decide) ?_ hnv
    rw [hasKey,
      alookup_dictErase_ne _ _ (by decide : "variants" ≠ "options"),
      alookup_dictErase_self hpdnd]
    rfl
  · intro hno
    apply hnokey "options" (by decide) (by decide) (by decide) ?_ hno
    rw [hasKey, alookup_dictErase_self (nodup_keys_dictErase _ hpdnd)]
    rfl

/-- C5, witness: the amended no-variants theorem applied to the concrete
round-trip provider. -/
theorem c5_novariants_witness :
    (alookup c1data "OpenStreetMap" = some (.d c1pd) ∧
     valWF (.d c1pd) = true ∧
     hasKey c1pd "variants" = false ∧
     alookup c1pd "options" = some (.d c1opts) ∧
     valWF (.d c1opts) = true ∧
     process_provider [] c1data "OpenStreetMap" = .ok (.d c1record)) ∧
    alookup c1record "name" = some (.s "OpenStreetMap".toList) ∧
    pythonize_data [] (dictSet (providerBaseKeys c1pd c1opts) "name"
      (.s "OpenStreetMap".toList)) = .ok c1record ∧
    hasKey c1record "variants" = false ∧
    hasKey c1record "options" = false := by
  have h := c5_novariants [] c1data "OpenStreetMap" c1pd c1opts c1record
    rfl (by decide) (by decide) rfl (by decide) rfl
  exact ⟨⟨rfl, by decide, by decide, rfl, by decide, rfl⟩,
    h.1, h.2.1, h.2.2.2.1 (by decide), h.2.2.2.2 (by decide)⟩

/-- C6: applying `pythonize_data` (field renaming and placeholder
resolution) a second time to an already-processed record returns it
unchanged: the first pass leaves no `maxZoom`/`minZoom` keys, no braced
`{maxZoom}`/`{minZoom}` URL tokens and no unresolved attribution
placeholders, so every item passes through untouched. -/
theorem c6_pythonize_idempotent {attrs : List (String × Val)}
    {d d' : Dict} (h : pythonize_data attrs d = .ok d') :
    pythonize_data attrs d' = .ok d' :=
  pythonize_data_idem h

/-- C6, witness: idempotence observed on a concrete record with a renamed
key and a rewritten URL template. -/
theorem c6_pythonize_idempotent_witness :
    pythonize_data [] c6data = .ok c6record ∧
    pythonize_data [] c6record = .ok c6record :=
  ⟨rfl, @c6_pythonize_idempotent [] c6data c6record rfl⟩

/-- C7: on a record's `url` item, `pythonize_data` (i) rewrites the value
with `urlFix` exactly when the bare names `maxZoom`/`minZoom` occur in it,
keeping the `url` key itself; (ii) after the rewrite no `{maxZoom}` or
`{minZoom}` token remains; and (iii) each of the two replacement stages is
the join of the `strSplit` parts of its input with the renamed token — all
characters outside occurrences of the rewritten token (in particular other
placeholders such as `{z}`, `{x}`, `{y}`, `{s}`) are preserved verbatim. -/
theorem c7_url_rewrite (attrs : List (String × Val)) (v : List Char) :
    (pythonizeItem attrs "url" (.s v) = .ok ("url", .s
      (if strContains v "maxZoom".toList || strContains v "minZoom".toList
       then urlFix v else v))) ∧
    strContains (urlFix v) pMaxTok = false ∧
    strContains (urlFix v) pMinTok = false ∧
    joinWith pMaxTok (strSplit v pMaxTok) = v ∧
    strReplace v pMaxTok rMaxTok = joinWith rMaxTok (strSplit v pMaxTok) ∧
    (∀ t ∈ strSplit v pMaxTok, strContains t pMaxTok = false) ∧
    joinWith pMinTok (strSplit (strReplace v pMaxTok rMaxTok) pMinTok) =
      strReplace v pMaxTok rMaxTok ∧
    urlFix v = joinWith rMinTok
      (strSplit (strReplace v pMaxTok rMaxTok) pMinTok) ∧
    (∀ t ∈ strSplit (strReplace v pMaxTok rMaxTok) pMinTok,
      strContains t pMinTok = false) := by
  refine ⟨?_, urlFix_no_maxTok v, urlFix_no_minTok v,
    joinWith_strSplit v pMaxTok,
    strReplace_eq_joinWith v pMaxTok rMaxTok,
    fun t ht => strSplit_parts_not_contains (by decide) ht,
    joinWith_strSplit _ pMinTok,
    by rw [urlFix_eq]; exact strReplace_eq_joinWith _ pMinTok rMinTok,
    fun t ht => strSplit_parts_not_contains (by decide) ht⟩
  rw [pythonizeItem, if_neg (by decide : ("url" : String) ≠ "attribution"),
    if_neg (by decide : ("url" : String) ≠ "maxZoom"),
    if_neg (by decide : ("url" : String) ≠ "minZoom"),
    if_pos rfl, pyAnyIn_s_ok]
  simp only [Bind.bind, Except.bind]
  have hmap : rename_keys.map Prod.fst = ["maxZoom", "minZoom"] := rfl
  rw [hmap]
  have hany : (["maxZoom", "minZoom"].any
      fun k => strContains v k.toList) =
      (strContains v "maxZoom".toList || strContains v "minZoom".toList) := by
    simp [List.any_cons]
  rw [hany]
  by_cases hg : strContains v "maxZoom".toList
      || strContains v "minZoom".toList
  · rw [if_pos hg, if_pos hg, urlRename]
  · rw [if_neg hg, if_neg hg]

/-- C7, witness: the URL rewrite on a concrete NASAGIBS-style template:
`{maxZoom}` is renamed, `{z}` is untouched. -/
theorem c7_url_rewrite_witness :
    pythonizeItem [] "url"
      (.s "http://x/{maxZoom}/{z}/{x}/{y}.png".toList) =
    .ok ("url", .s "http://x/{max_zoom}/{z}/{x}/{y}.png".toList) := by
  have h := (c7_url_rewrite []
    "http://x/{maxZoom}/{z}/{x}/{y}.png".toList).1
  rw [h]
  rfl

/-- The substitution loop ends in the `for`/`else` `ValueError` whenever an
attribution token absent from the table occurs in the value: replacing the
(brace-delimited, brace-free-interior) table tokens can never erase it, so
the `"{attribution." not in value` break is never taken. -/
theorem attrSubstIter_unknown {attrs : List (String × Val)}
    {v X : List Char}
    (hkeys : ∀ pr ∈ attrs, ∃ Y, pr.1.toList = attrMarker ++ Y ++ ['}'] ∧
      '{' ∉ Y ∧ '}' ∉ Y)
    (hvals : ∀ pr ∈ attrs, ∃ a, pr.2 = Val.s a)
    (hX1 : '{' ∉ X) (hX2 : '}' ∉ X)
    (hunk : ∀ pr ∈ attrs, pr.1.toList ≠ attrMarker ++ X ++ ['}'])
    (hin : (attrMarker ++ X ++ ['}']) <:+: v) :
    ∃ w, attrSubstIter attrs (.s v) =
      .error (.attributionNotKnown (.s w)) := by
  induction attrs generalizing v with
  | nil => exact ⟨v, rfl⟩
  | cons pr rest ih =>
    obtain ⟨ph, av⟩ := pr
    obtain ⟨Y, hph, hY1, hY2⟩ := hkeys (ph, av) (List.mem_cons_self _ _)
    obtain ⟨a, rfl⟩ := hvals (ph, av) (List.mem_cons_self _ _)
    rw [attrSubstIter,
      show pyIn ph (Val.s v) = .ok (strContains v ph.toList) from rfl]
    simp only [Bind.bind, Except.bind]
    by_cases hc : strContains v ph.toList
    · rw [if_pos hc,
        show attrReplace ph (Val.s a) (Val.s v) =
          .ok (.s (strReplace v ph.toList a)) from rfl]
      simp only
      have hXY : X ≠ Y := by
        intro hxy
        exact hunk (ph, .s a) (List.mem_cons_self _ _) (by rw [hph, hxy])
      have hsurv : (attrMarker ++ X ++ ['}']) <:+:
          strReplace v ph.toList a := by
        rw [hph]
        exact token_survives_strReplace a hX1 hX2 hY1 hY2 hXY hin
      have hcont : attrCont (.s (strReplace v ph.toList a)) = true := by
        show strContains (strReplace v ph.toList a) attrMarker = true
        rw [strContains_infix_iff]
        have hmk : attrMarker <+: (attrMarker ++ X ++ ['}']) := by
          rw [List.append_assoc]
          exact List.prefix_append _ _
        exact hmk.isInfix.trans hsurv
      rw [if_pos hcont]
      exact ih (fun pr hm => hkeys pr (List.mem_cons_of_mem _ hm))
        (fun pr hm => hvals pr (List.mem_cons_of_mem _ hm))
        (fun pr hm => hunk pr (List.mem_cons_of_mem _ hm)) hsurv
    · rw [if_neg hc]
      exact ih (fun pr hm => hkeys pr (List.mem_cons_of_mem _ hm))
        (fun pr hm => hvals pr (List.mem_cons_of_mem _ hm))
        (fun pr hm => hunk pr (List.mem_cons_of_mem _ hm)) hin

/-- C2: when a record's attribution string contains a placeholder-shaped
token `{attribution.X}` matching no key of the attribution table (whose
keys are themselves `{attribution.Y}` tokens mapped to strings), processing
the attribution item raises the `ValueError("Attribution not known: ...")`
and `pythonize_data` on the whole record produces no output. -/
theorem c2_unknown_attribution_raises (attrs : List (String × Val))
    (d : Dict) (v X : List Char)
    (hkeys : ∀ pr ∈ attrs, ∃ Y, pr.1.toList = attrMarker ++ Y ++ ['}'] ∧
      '{' ∉ Y ∧ '}' ∉ Y)
    (hvals : ∀ pr ∈ attrs, ∃ a, pr.2 = Val.s a)
    (hX1 : '{' ∉ X) (hX2 : '}' ∉ X)
    (hunk : ∀ pr ∈ attrs, pr.1.toList ≠ attrMarker ++ X ++ ['}'])
    (hin : (attrMarker ++ X ++ ['}']) <:+: v)
    (hmem : ("attribution", .s v) ∈ d) :
    isUnknownAttrError (pythonizeItem attrs "attribution" (.s v)) = true ∧
    (pythonize_data attrs d).isOk = false := by
  obtain ⟨w, hw⟩ := attrSubstIter_unknown hkeys hvals hX1 hX2 hunk hin
  have hguard : strContains v attrMarker = true := by
    rw [strContains_infix_iff]
    have hmk : attrMarker <+: (attrMarker ++ X ++ ['}']) := by
      rw [List.append_assoc]
      exact List.prefix_append _ _
    exact hmk.isInfix.trans hin
  have hitem : pythonizeItem attrs "attribution" (.s v) =
      .error (.attributionNotKnown (.s w)) := by
    rw [pythonizeItem, if_pos rfl,
      show pyIn "\x7battribution." (Val.s v) =
        .ok (strContains v attrMarker) from rfl, hguard]
    simp only [Bind.bind, Except.bind, if_true]
    rw [hw]
  constructor
  · rw [hitem]
    rfl
  · cases hok : pythonize_data attrs d with
    | error e => rfl
    | ok d' =>
      exfalso
      obtain ⟨items, hitems, -⟩ := pythonize_data_ok_iff.mp hok
      exact pythonizeItems_not_ok_of_mem hmem hitem items hitems

/-- C2, witness: an attribution referencing `{attribution.Unknown}` against
the three-token table raises the unknown-attribution error and the record
is not normalized. -/
theorem c2_unknown_attribution_raises_witness :
    isUnknownAttrError (pythonizeItem cAttrs "attribution"
      (.s "Map tiles {attribution.Unknown}".toList)) = true ∧
    (pythonize_data cAttrs c2rec).isOk = false := by
  apply c2_unknown_attribution_raises cAttrs c2rec
    "Map tiles {attribution.Unknown}".toList "Unknown".toList
  · intro pr hpr
    rcases List.mem_cons.mp hpr with rfl | hpr
    · exact ⟨"OpenStreetMap".toList, by decide, by decide, by decide⟩
    rcases List.mem_cons.mp hpr with rfl | hpr
    · exact ⟨"Esri".toList, by decide, by decide, by decide⟩
    rcases List.mem_cons.mp hpr with rfl | hpr
    · exact ⟨"OpenMapSurfer".toList, by decide, by decide, by decide⟩
    · simp at hpr
  · intro pr hpr
    rcases List.mem_cons.mp hpr with rfl | hpr
    · exact ⟨"(C) OSM contributors".toList, rfl⟩
    rcases List.mem_cons.mp hpr with rfl | hpr
    · exact ⟨"Tiles (C) Esri".toList, rfl⟩
    rcases List.mem_cons.mp hpr with rfl | hpr
    · exact ⟨"Imagery OMS".toList, rfl⟩
    · simp at hpr
  · decide
  · decide
  · decide
  · exact ⟨"Map tiles ".toList, [], by decide⟩
  · exact List.mem_cons_of_mem _ (List.mem_cons_self _ _)

theorem contains_marker_of_contains {s p : List Char}
    (hpfx : attrMarker <+: p) (h : strContains s p = true) :
    strContains s attrMarker = true := by
  rw [strContains_infix_iff] at h ⊢
  exact hpfx.isInfix.trans h

theorem foldAttrReplace_no_marker {attrs : List (String × Val)}
    {v : List Char}
    (hkeys : ∀ pr ∈ attrs, attrMarker <+: pr.1.toList)
    (h : strContains v attrMarker = false) :
    foldAttrReplace attrs v = v := by
  induction attrs with
  | nil => rfl
  | cons pr rest ih =>
    obtain ⟨ph, av⟩ := pr
    rw [foldAttrReplace, List.foldl_cons]
    cases av with
    | s a =>
      simp only
      have hc : strContains v ph.toList = false := by
        cases hx : strContains v ph.toList with
        | false => rfl
        | true =>
          rw [contains_marker_of_contains
            (hkeys (ph, .s a) (List.mem_cons_self _ _)) hx] at h
          exact Bool.noConfusion h
      rw [strReplace_of_not_contains a hc]
      exact ih (fun pr hm => hkeys pr (List.mem_cons_of_mem _ hm))
    | n x => exact ih (fun pr hm => hkeys pr (List.mem_cons_of_mem _ hm))
    | b x => exact ih (fun pr hm => hkeys pr (List.mem_cons_of_mem _ hm))
    | null => exact ih (fun pr hm => hkeys pr (List.mem_cons_of_mem _ hm))
    | arr x => exact ih (fun pr hm => hkeys pr (List.mem_cons_of_mem _ hm))
    | d x => exact ih (fun pr hm => hkeys pr (List.mem_cons_of_mem _ hm))

/-- When one pass over the table eliminates every attribution marker, the
substitution loop succeeds and computes exactly that pass. -/
theorem attrSubstIter_fold {attrs : List (String × Val)} {v : List Char}
    (hkeys : ∀ pr ∈ attrs, attrMarker <+: pr.1.toList)
    (hvals : ∀ pr ∈ attrs, ∃ a, pr.2 = .s a ∧
      strContains a attrMarker = false)
    (hguard : strContains v attrMarker = true)
    (hres : strContains (foldAttrReplace attrs v) attrMarker = false) :
    attrSubstIter attrs (.s v) = .ok (.s (foldAttrReplace attrs v)) := by
  induction attrs generalizing v with
  | nil =>
    rw [show foldAttrReplace [] v = v from rfl] at hres
    rw [hres] at hguard
    exact Bool.noConfusion hguard
  | cons pr rest ih =>
    obtain ⟨ph, av⟩ := pr
    obtain ⟨a, hav, hacl⟩ := hvals (ph, av) (List.mem_cons_self _ _)
    have hav' : av = Val.s a := hav
    subst hav'
    have hfold : foldAttrReplace ((ph, Val.s a) :: rest) v =
        foldAttrReplace rest (strReplace v ph.toList a) := rfl
    rw [attrSubstIter,
      show pyIn ph (Val.s v) = .ok (strContains v ph.toList) from rfl]
    simp only [Bind.bind, Except.bind]
    by_cases hc : strContains v ph.toList
    · rw [if_pos hc,
        show attrReplace ph (Val.s a) (Val.s v) =
          .ok (.s (strReplace v ph.toList a)) from rfl]
      simp only
      by_cases hcm : strContains (strReplace v ph.toList a) attrMarker
      · have hat : attrCont (Val.s (strReplace v ph.toList a)) = true := hcm
        rw [hat, if_pos rfl, hfold]
        apply ih (fun pr hm => hkeys pr (List.mem_cons_of_mem _ hm))
          (fun pr hm => hvals pr (List.mem_cons_of_mem _ hm)) hcm
        rw [← hfold]
        exact hres
      · simp only [Bool.not_eq_true] at hcm
        have hat : attrCont (Val.s (strReplace v ph.toList a)) = false := hcm
        rw [hat]
        simp only [Bool.false_eq_true, if_false]
        rw [hfold, foldAttrReplace_no_marker
          (fun pr hm => hkeys pr (List.mem_cons_of_mem _ hm)) hcm]
    · simp only [Bool.not_eq_true] at hc
      rw [hc]
      simp only [Bool.false_eq_true, if_false]
      have hrepl : strReplace v ph.toList a = v :=
        strReplace_of_not_contains a hc
      rw [hfold, hrepl] at hres
      rw [hfold, hrepl]
      exact ih (fun pr hm => hkeys pr (List.mem_cons_of_mem _ hm))
        (fun pr hm => hvals pr (List.mem_cons_of_mem _ hm)) hguard hres

/-- C3: for an attribution value whose placeholder tokens are all resolved
by one pass over the attribution table (table keys are marker-prefixed
tokens, table values are fully resolved strings), the attribution item is
rewritten to exactly that pass — every occurrence of every matching token
replaced, no recognized placeholder remaining. -/
theorem c3_attribution_substitution (attrs : List (String × Val))
    (v : List Char)
    (hkeys : ∀ pr ∈ attrs, attrMarker <+: pr.1.toList)
    (hvals : ∀ pr ∈ attrs, ∃ a, pr.2 = .s a ∧
      strContains a attrMarker = false)
    (hguard : strContains v attrMarker = true)
    (hres : strContains (foldAttrReplace attrs v) attrMarker = false) :
    pythonizeItem attrs "attribution" (.s v) =
      .ok ("attribution", .s (foldAttrReplace attrs v)) ∧
    strContains (foldAttrReplace attrs v) attrMarker = false := by
  refine ⟨?_, hres⟩
  rw [pythonizeItem, if_pos rfl,
    show pyIn "\x7battribution." (Val.s v) =
      .ok (strContains v attrMarker) from rfl, hguard]
  simp only [Bind.bind, Except.bind, if_true]
  rw [attrSubstIter_fold hkeys hvals hguard hres]

/-- C3, witness: substituting the one-token table of the spec's example
into `"Data by {attribution.OpenStreetMap}"` yields exactly
`"Data by © OSM"`. -/
theorem c3_attribution_substitution_witness :
    pythonizeItem [("{attribution.OpenStreetMap}", .s "© OSM".toList)]
      "attribution" (.s "Data by {attribution.OpenStreetMap}".toList) =
    .ok ("attribution", .s "Data by © OSM".toList) := by
  have h := (c3_attribution_substitution
    [("{attribution.OpenStreetMap}", .s "© OSM".toList)]
    "Data by {attribution.OpenStreetMap}".toList
    (by intro pr hpr
        rcases List.mem_cons.mp hpr with rfl | hpr
        · decide
        · simp at hpr)
    (by intro pr hpr
        rcases List.mem_cons.mp hpr with rfl | hpr
        · exact ⟨"© OSM".toList, rfl, by decide⟩
        · simp at hpr)
    (by decide) (by decide)).1
  rw [h]
  rfl

/-- C4: for a provider entry with a `variants` mapping, a successful
`process_provider` returns a mapping keyed by the variant short names (in
order, not fully-qualified); each variant maps to the pythonization of the
variant-specific keys merged OVER the provider's base merged keys with the
qualified `name` set last, that record's `name` field is exactly
`"<provider>.<variant>"`, and on every other key the merged input takes the
variant's value when the variant defines the key and the provider's base
value otherwise. -/
theorem c4_variant_processing {attrs : List (String × Val)} {data : Dict}
    {pname : String} {pd opts : Dict} {vd : List (String × Val)} {v : Val}
    (hwf : cellWF data = true)
    (hdata : alookup data pname = some (.d pd))
    (hvars : alookup pd "variants" = some (.d vd))
    (hopts : alookup (dictErase pd "variants") "options" = some (.d opts))
    (hok : process_provider attrs data pname = .ok v) :
    ∃ res : Dict, v = .d res ∧
      res.map Prod.fst = vd.map Prod.fst ∧
      ∀ vn var, (vn, var) ∈ vd → ∃ vk r,
        buildVariantKeys var = .ok vk ∧
        alookup res vn = some (.d r) ∧
        pythonize_data attrs
          (dictSet (dictMerge (providerBaseKeys pd opts) vk) "name"
            (.s (pname ++ "." ++ vn).toList)) = .ok r ∧
        alookup r "name" = some (.s (pname ++ "." ++ vn).toList) ∧
        (∀ k, k ≠ "name" →
          alookup (dictSet (dictMerge (providerBaseKeys pd opts) vk) "name"
            (.s (pname ++ "." ++ vn).toList)) k =
          match alookup vk k with
          | some w => some w
          | none => alookup (providerBaseKeys pd opts) k) := by
  have hpdwf : valWF (.d pd) = true :=
    cellWF_iff.mp hwf (pname, .d pd) (alookup_eq_some_mem hdata)
  have hvdwf : valWF (.d vd) = true := valWF_of_alookup hpdwf hvars
  have hvdnd : (vd.map Prod.fst).Nodup := (valWF_d_iff.mp hvdwf).1
  have hbasend : ((providerBaseKeys pd opts).map Prod.fst).Nodup :=
    nodup_keys_dictMerge opts
      (nodup_keys_dictErase _
        (nodup_keys_dictErase _ (valWF_d_iff.mp hpdwf).1))
  rw [process_provider_eq hdata hopts,
    popVariants_of_some hvars (fun hc => Val.noConfusion hc)] at hok
  rw [show dictMerge (dictErase (dictErase pd "variants") "options") opts =
    providerBaseKeys pd opts from rfl] at hok
  rw [processBranch_some_d_ok] at hok
  obtain ⟨res, rfl, hres⟩ := hok
  obtain ⟨hkeys, -, hvarspec⟩ :=
    processVariantList_spec vd [] res hres hvdnd (fun k _ => rfl)
  refine ⟨res, rfl, by simpa using hkeys, ?_⟩
  intro vn var hmem
  obtain ⟨r, hrok, hrlook⟩ := hvarspec vn var hmem
  rw [processVariant_ok] at hrok
  obtain ⟨vk, hvk, hpyth⟩ := hrok
  have hvarwf : valWF var = true :=
    cellWF_iff.mp (valWF_d_iff.mp hvdwf).2 (vn, var) hmem
  have hvknd : (vk.map Prod.fst).Nodup := buildVariantKeys_nodup hvarwf hvk
  refine ⟨vk, r, hvk, hrlook, hpyth, ?_, ?_⟩
  · apply pythonize_data_keyval hpyth
      (nodup_keys_dictSet (nodup_keys_dictMerge vk hbasend))
      (by decide) (by decide) (alookup_dictSet_self _ _ _)
    exact pythonizeItem_pass attrs "name" _
      (by decide) (by decide) (by decide) (by decide)
  · intro k hk
    rw [alookup_dictSet_ne _ _ _ hk, alookup_dictMerge,
      alookup_reverse_of_nodup hvknd]

/-- C4, witness: a concrete provider with two variants — a plain-string
variant and a nested-mapping variant overriding `maxZoom` through its
`options` — satisfies every hypothesis, so the conclusion holds for it. -/
theorem c4_variant_processing_witness :
    cellWF c4data = true ∧
    alookup c4data "Basemap" = some (.d c4pd) ∧
    alookup c4pd "variants" = some (.d c4vd) ∧
    alookup (dictErase c4pd "variants") "options" = some (.d c4opts) ∧
    process_provider [] c4data "Basemap" = .ok (.d c4res) ∧
    (∃ res : Dict, Val.d c4res = .d res ∧
      res.map Prod.fst = c4vd.map Prod.fst ∧
      ∀ vn var, (vn, var) ∈ c4vd → ∃ vk r,
        buildVariantKeys var = .ok vk ∧
        alookup res vn = some (.d r) ∧
        pythonize_data []
          (dictSet (dictMerge (providerBaseKeys c4pd c4opts) vk) "name"
            (.s ("Basemap" ++ "." ++ vn).toList)) = .ok r ∧
        alookup r "name" = some (.s ("Basemap" ++ "." ++ vn).toList) ∧
        (∀ k, k ≠ "name" →
          alookup (dictSet (dictMerge (providerBaseKeys c4pd c4opts) vk)
            "name" (.s ("Basemap" ++ "." ++ vn).toList)) k =
          match alookup vk k with
          | some w => some w
          | none => alookup (providerBaseKeys c4pd c4opts) k)) :=
  ⟨rfl, rfl, rfl, rfl, rfl,
    @c4_variant_processing [] c4data "Basemap" c4pd c4opts c4vd (.d c4res)
      rfl rfl rfl rfl rfl⟩

/-- C8, counterexample: `process_data` succeeds on a catalog whose
`OpenMapSurfer` provider has no `url`, and the resulting record has a
`name` but no `url` key — the "every record contains at least `name` and
`url`" invariant fails on its `url` half.  Nothing in the code requires or
inserts a `url`. -/
theorem c8_url_missing :
    process_data c8data = .ok c8out ∧
    alookup c8out "OpenMapSurfer" =
      some (.d [("attribution", .s "Imagery OMS".toList),
                ("name", .s "OpenMapSurfer".toList)]) ∧
    hasKey [(("attribution" : String), Val.s "Imagery OMS".toList),
            (("name" : String), Val.s "OpenMapSurfer".toList)] "url"
      = false :=
  ⟨rfl, rfl, rfl⟩

/-- C8, amended: for every well-formed raw catalog on which `process_data`
succeeds, every record at any depth of the result carries a `name` field
(the provider name, or `provider.variant` for variant records), and any
`attribution` field it carries contains no remaining attribution
placeholder token.  (A `url` field is NOT guaranteed: providers without a
raw `url` yield records without one.) -/
theorem c8_every_record_named_resolved {data res : Dict}
    (hwf : cellWF data = true) (hok : process_data data = .ok res) :
    ∀ pn v, (pn, v) ∈ res → ∃ r : Dict, v = .d r ∧
      (alookup r "name" = some (.s pn.toList) ∧ attributionResolved r
       ∨ ∀ x, x ∈ r → ∃ vn rr, x = (vn, Val.d rr) ∧
           alookup rr "name" = some (.s (pn ++ "." ++ vn).toList) ∧
           attributionResolved rr) := by
  obtain ⟨attrs, -, hloop⟩ := process_data_ok_iff.mp hok
  intro pn v hmem
  rcases processProviderLoop_mem data [] res hloop (pn, v) hmem
    with hacc | hproc
  · simp at hacc
  · obtain ⟨r, rfl, hcases⟩ := process_provider_ok_cases hwf hproc
    refine ⟨r, rfl, ?_⟩
    rcases hcases with ⟨nd, hnd, hname, hpyth⟩ | hvars
    · refine Or.inl ⟨?_, ?_⟩
      · exact pythonize_data_keyval hpyth hnd (by decide) (by decide) hname
          (pythonizeItem_pass attrs "name" _
            (by decide) (by decide) (by decide) (by decide))
      · intro w hw
        exact pythonize_data_attribution hpyth hw
    · refine Or.inr ?_
      intro x hx
      obtain ⟨vn, rr, hxeq, nd, hnd, hname, hpyth⟩ := hvars x hx
      refine ⟨vn, rr, hxeq, ?_, ?_⟩
      · exact pythonize_data_keyval hpyth hnd (by decide) (by decide) hname
          (pythonizeItem_pass attrs "name" _
            (by decide) (by decide) (by decide) (by decide))
      · intro w hw
        exact pythonize_data_attribution hpyth hw

/-- C8, witness for the amended statement: on the concrete catalog of the
counterexample — well-formed, and normalized successfully — every record of
the output is named and attribution-resolved. -/
theorem c8_every_record_named_resolved_witness :
    cellWF c8data = true ∧ process_data c8data = .ok c8out ∧
    (∀ pn v, (pn, v) ∈ c8out → ∃ r : Dict, v = .d r ∧
      (alookup r "name" = some (.s pn.toList) ∧ attributionResolved r
       ∨ ∀ x, x ∈ r → ∃ vn rr, x = (vn, Val.d rr) ∧
           alookup rr "name" = some (.s (pn ++ "." ++ vn).toList) ∧
           attributionResolved rr)) :=
  ⟨rfl, rfl, @c8_every_record_named_resolved c8data c8out rfl rfl⟩

/-! ## Lemmas about the heap model -/

theorem set_concat_length {α : Type} (l : List α) (o o' : α) :
    (l ++ [o]).set l.length o' = l ++ [o'] := by
  induction l with
  | nil => rfl
  | cons x xs ih =>
    show x :: (xs ++ [o]).set xs.length o' = x :: (xs ++ [o'])
    rw [ih]

theorem readOnly_pure {α : Type} (x : α) : ReadOnly (pure x : HM α) :=
  fun _ => rfl

theorem readOnly_raise {α : Type} (e : PyErr) :
    ReadOnly (hmRaise e : HM α) :=
  fun _ => rfl

theorem readOnly_hmRead (a : Nat) : ReadOnly (hmRead a) :=
  fun _ => rfl

theorem readOnly_bind {α β : Type} {m : HM α} {f : α → HM β}
    (hm : ReadOnly m) (hf : ∀ x, ReadOnly (f x)) : ReadOnly (m >>= f) := by
  intro h
  show ((match m h with
    | (h', .ok x) => f x h'
    | (h', .error e) => (h', .error e)) : Heap × Except PyErr β).1 = h
  cases hmh : m h with
  | mk h' r =>
    have hh' : h' = h := by
      have := hm h
      rw [hmh] at this
      exact this
    cases r with
    | ok x =>
      rw [hh']
      exact hf x h
    | error e => exact hh'

theorem readOnly_hmSubscript (v : HVal) (key : String) :
    ReadOnly (hmSubscript v key) := by
  cases v with
  | s w => exact readOnly_raise _
  | n x => exact readOnly_raise _
  | b x => exact readOnly_raise _
  | null => exact readOnly_raise _
  | ref a =>
    apply readOnly_bind (readOnly_hmRead a)
    rintro (_ | (d | l))
    · exact readOnly_raise _
    · dsimp only
      cases alookup d key with
      | some w => exact readOnly_pure _
      | none => exact readOnly_raise _
    · exact readOnly_raise _

theorem readOnly_hmItems (a : Nat) : ReadOnly (hmItems a) := by
  apply readOnly_bind (readOnly_hmRead a)
  rintro (_ | (d | l))
  · exact readOnly_raise _
  · exact readOnly_pure _
  · exact readOnly_raise _

theorem readOnly_hmUnpack (v : HVal) : ReadOnly (hmUnpack v) := by
  cases v with
  | s w => exact readOnly_raise _
  | n x => exact readOnly_raise _
  | b x => exact readOnly_raise _
  | null => exact readOnly_raise _
  | ref a =>
    apply readOnly_bind (readOnly_hmRead a)
    rintro (_ | (d | l))
    · exact readOnly_raise _
    · exact readOnly_pure _
    · exact readOnly_raise _

theorem readOnly_hPyIn (needle : String) (v : HVal) :
    ReadOnly (hPyIn needle v) := by
  cases v with
  | s w => exact readOnly_pure _
  | n x => exact readOnly_raise _
  | b x => exact readOnly_raise _
  | null => exact readOnly_raise _
  | ref a =>
    apply readOnly_bind (readOnly_hmRead a)
    rintro (_ | (d | l))
    · exact readOnly_raise _
    · exact readOnly_pure _
    · exact readOnly_pure _

theorem readOnly_hPyAnyIn (keys : List String) (v : HVal) :
    ReadOnly (hPyAnyIn keys v) := by
  induction keys with
  | nil => exact readOnly_pure _
  | cons k rest ih =>
    apply readOnly_bind (readOnly_hPyIn k v)
    intro bb
    cases bb with
    | true => exact readOnly_pure _
    | false => exact ih

theorem readOnly_hAttrReplace (ph : String) (av value : HVal) :
    ReadOnly (hAttrReplace ph av value) := by
  cases value with
  | s v =>
    cases av with
    | s a => exact readOnly_pure _
    | n x => exact readOnly_raise _
    | b x => exact readOnly_raise _
    | null => exact readOnly_raise _
    | ref x => exact readOnly_raise _
  | n x => exact readOnly_raise _
  | b x => exact readOnly_raise _
  | null => exact readOnly_raise _
  | ref x => exact readOnly_raise _

theorem readOnly_hAttrSubstIter (attrs : List (String × HVal)) :
    ∀ value, ReadOnly (hAttrSubstIter attrs value) := by
  induction attrs with
  | nil => intro value; exact readOnly_raise _
  | cons pr rest ih =>
    intro value
    obtain ⟨ph, av⟩ := pr
    apply readOnly_bind (readOnly_hPyIn ph value)
    intro m
    cases m with
    | false => exact ih value
    | true =>
      apply readOnly_bind (readOnly_hAttrReplace ph av value)
      intro v'
      cases hc : hAttrCont v' with
      | true => simpa [hc] using ih v'
      | false => simpa [hc] using readOnly_pure v'

theorem readOnly_hUrlRename (v : HVal) : ReadOnly (hUrlRename v) := by
  cases v with
  | s w => exact readOnly_pure _
  | n x => exact readOnly_raise _
  | b x => exact readOnly_raise _
  | null => exact readOnly_raise _
  | ref x => exact readOnly_raise _

theorem readOnly_hPythonizeItem (attrs : List (String × HVal))
    (key : String) (value : HVal) :
    ReadOnly (hPythonizeItem attrs key value) := by
  rw [hPythonizeItem]
  by_cases h1 : key = "attribution"
  · rw [if_pos h1]
    apply readOnly_bind (readOnly_hPyIn _ value)
    intro g
    cases g with
    | true =>
      apply readOnly_bind (readOnly_hAttrSubstIter attrs value)
      intro v'
      exact readOnly_pure _
    | false => exact readOnly_pure _
  · rw [if_neg h1]
    by_cases h2 : key = "maxZoom"
    · rw [if_pos h2]; exact readOnly_pure _
    · rw [if_neg h2]
      by_cases h3 : key = "minZoom"
      · rw [if_pos h3]; exact readOnly_pure _
      · rw [if_neg h3]
        by_cases h4 : key = "url"
        · rw [if_pos h4]
          apply readOnly_bind (readOnly_hPyAnyIn _ value)
          intro g
          cases g with
          | true =>
            apply readOnly_bind (readOnly_hUrlRename value)
            intro v'
            exact readOnly_pure _
          | false => exact readOnly_pure _
        · rw [if_neg h4]; exact readOnly_pure _

theorem readOnly_hPythonizeItems (attrs : List (String × HVal)) :
    ∀ items, ReadOnly (hPythonizeItems attrs items) := by
  intro items
  induction items with
  | nil => exact readOnly_pure _
  | cons kv rest ih =>
    obtain ⟨k, v⟩ := kv
    apply readOnly_bind (readOnly_hPythonizeItem attrs k v)
    intro x
    apply readOnly_bind ih
    intro xs
    exact readOnly_pure _

theorem readOnly_hGetOptionsAttribution (dataAddr : Nat) (p : String) :
    ReadOnly (hGetOptionsAttribution dataAddr p) := by
  apply readOnly_bind (readOnly_hmSubscript _ _)
  intro pv
  apply readOnly_bind (readOnly_hmSubscript _ _)
  intro ov
  exact readOnly_hmSubscript _ _

theorem readOnly_hBuildAttributions (dataAddr : Nat) :
    ReadOnly (hBuildAttributions dataAddr) := by
  apply readOnly_bind (readOnly_hGetOptionsAttribution _ _)
  intro a1
  apply readOnly_bind (readOnly_hGetOptionsAttribution _ _)
  intro a2
  apply readOnly_bind (readOnly_hGetOptionsAttribution _ _)
  intro a3
  exact readOnly_pure _

theorem htriple_pure {n : Nat} {α : Type} {x : α} {Q : α → Prop}
    (hq : Q x) : HTriple n (pure x) Q := by
  intro h _
  refine ⟨le_refl _, fun b _ => rfl, fun y hy => ?_⟩
  have hxy : x = y := by
    have hh : (Except.ok x : Except PyErr α) = .ok y := hy
    rw [Except.ok.injEq] at hh
    exact hh
  rw [← hxy]
  exact hq

theorem htriple_raise {n : Nat} {α : Type} (e : PyErr) (Q : α → Prop) :
    HTriple n (hmRaise e) Q :=
  fun _ _ => ⟨le_refl _, fun _ _ => rfl, fun _ hx => Except.noConfusion hx⟩

theorem htriple_of_readOnly {n : Nat} {α : Type} {m : HM α}
    (hro : ReadOnly m) : HTriple n m (fun _ => True) :=
  fun h _ => ⟨by rw [hro h], fun b _ => by rw [hro h], fun _ _ => trivial⟩

theorem htriple_weaken {n : Nat} {α : Type} {m : HM α} {Q R : α → Prop}
    (hm : HTriple n m Q) (hqr : ∀ x, Q x → R x) : HTriple n m R := by
  intro h hn
  obtain ⟨h1, h2, h3⟩ := hm h hn
  exact ⟨h1, h2, fun x hx => hqr x (h3 x hx)⟩

theorem htriple_bind {n : Nat} {α β : Type} {m : HM α} {f : α → HM β}
    {Q : α → Prop} {R : β → Prop}
    (hm : HTriple n m Q) (hf : ∀ x, Q x → HTriple n (f x) R) :
    HTriple n (m >>= f) R := by
  intro h hn
  obtain ⟨h1, h2, h3⟩ := hm h hn
  have hbind : (m >>= f) h = (match m h with
    | (h', .ok x) => f x h'
    | (h', .error e) => (h', .error e)) := rfl
  cases hmh : m h with
  | mk h' r =>
    rw [hmh] at h1 h2
    cases r with
    | ok x =>
      have hq : Q x := h3 x (by rw [hmh])
      obtain ⟨g1, g2, g3⟩ := hf x hq h' (le_trans hn h1)
      rw [hbind, hmh]
      exact ⟨le_trans h1 g1, fun b hb => (g2 b hb).trans (h2 b hb), g3⟩
    | error e =>
      rw [hbind, hmh]
      exact ⟨h1, h2, fun x hx => Except.noConfusion hx⟩

theorem htriple_alloc {n : Nat} (o : HObj) :
    HTriple n (hmAlloc o) (fun a => n ≤ a) := by
  intro h hn
  refine ⟨?_, ?_, ?_⟩
  · show h.length ≤ (h ++ [o]).length
    simp
  · intro b hb
    show (h ++ [o])[b]? = h[b]?
    rw [List.getElem?_append, if_pos (lt_of_lt_of_le hb hn)]
  · intro x hx
    have hlx : h.length = x := by
      have hh : (Except.ok h.length : Except PyErr Nat) = .ok x := hx
      rw [Except.ok.injEq] at hh
      exact hh
    rw [← hlx]
    exact hn

theorem htriple_setObj {n a : Nat} (o : HObj) (ha : n ≤ a) :
    HTriple n (hmSetObj a o) (fun _ => True) := by
  intro h hn
  refine ⟨?_, ?_, fun _ _ => trivial⟩
  · show h.length ≤ (h.set a o).length
    rw [List.length_set]
  · intro b hb
    show (h.set a o)[b]? = h[b]?
    exact List.getElem?_set_ne (by omega)

theorem htriple_hmCopy {n : Nat} (v : HVal) :
    HTriple n (hmCopy v) (fun a => n ≤ a) := by
  cases v with
  | s w => exact htriple_raise _ _
  | n x => exact htriple_raise _ _
  | b x => exact htriple_raise _ _
  | null => exact htriple_raise _ _
  | ref a =>
    apply htriple_bind (htriple_of_readOnly (readOnly_hmRead a))
    rintro (_ | o) -
    · exact htriple_raise _ _
    · exact htriple_alloc o

theorem htriple_hmPop {n a : Nat} (key : String) (ha : n ≤ a) :
    HTriple n (hmPop a key) (fun _ => True) := by
  apply htriple_bind (htriple_of_readOnly (readOnly_hmRead a))
  rintro (_ | (d | l)) -
  · exact htriple_raise _ _
  · dsimp only
    cases alookup d key with
    | some w =>
      exact htriple_bind (htriple_setObj _ ha)
        (fun _ _ => htriple_pure trivial)
    | none => exact htriple_raise _ _
  · exact htriple_raise _ _

theorem htriple_hmPopDefault {n a : Nat} (key : String) (dflt : HVal)
    (ha : n ≤ a) : HTriple n (hmPopDefault a key dflt) (fun _ => True) := by
  apply htriple_bind (htriple_of_readOnly (readOnly_hmRead a))
  rintro (_ | (d | l)) -
  · exact htriple_raise _ _
  · dsimp only
    cases alookup d key with
    | some w =>
      exact htriple_bind (htriple_setObj _ ha)
        (fun _ _ => htriple_pure trivial)
    | none => exact htriple_pure trivial
  · exact htriple_raise _ _

theorem htriple_hmSetItem {n a : Nat} (key : String) (v : HVal)
    (ha : n ≤ a) : HTriple n (hmSetItem a key v) (fun _ => True) := by
  apply htriple_bind (htriple_of_readOnly (readOnly_hmRead a))
  rintro (_ | (d | l)) -
  · exact htriple_raise _ _
  · exact htriple_setObj _ ha
  · exact htriple_raise _ _

theorem htriple_hmUpdate {n a : Nat} (kwargs : HDict) (ha : n ≤ a) :
    HTriple n (hmUpdate a kwargs) (fun _ => True) := by
  apply htriple_bind (htriple_of_readOnly (readOnly_hmRead a))
  rintro (_ | (d | l)) -
  · exact htriple_raise _ _
  · exact htriple_setObj _ ha
  · exact htriple_raise _ _

theorem htriple_hPythonize_data {n : Nat} (attrs : List (String × HVal))
    (a : Nat) : HTriple n (hPythonize_data attrs a) (fun ra => n ≤ ra) := by
  apply htriple_bind (htriple_of_readOnly (readOnly_hmItems a))
  rintro items -
  apply htriple_bind (htriple_of_readOnly (readOnly_hPythonizeItems attrs items))
  rintro new_data -
  exact htriple_alloc _

theorem htriple_hBuildVariantKeys {n : Nat} (var : HVal) :
    HTriple n (hBuildVariantKeys var) (fun a => n ≤ a) := by
  cases var with
  | s w => exact htriple_alloc _
  | n x =>
    apply htriple_bind (htriple_hmCopy _)
    intro ca hca
    apply htriple_bind (htriple_alloc _)
    intro dfa _
    apply htriple_bind (htriple_hmPopDefault _ _ hca)
    rintro ov -
    apply htriple_bind (htriple_of_readOnly (readOnly_hmUnpack _))
    rintro vkd -
    apply htriple_bind (htriple_of_readOnly (readOnly_hmUnpack _))
    rintro vod -
    exact htriple_alloc _
  | b x =>
    apply htriple_bind (htriple_hmCopy _)
    intro ca hca
    apply htriple_bind (htriple_alloc _)
    intro dfa _
    apply htriple_bind (htriple_hmPopDefault _ _ hca)
    rintro ov -
    apply htriple_bind (htriple_of_readOnly (readOnly_hmUnpack _))
    rintro vkd -
    apply htriple_bind (htriple_of_readOnly (readOnly_hmUnpack _))
    rintro vod -
    exact htriple_alloc _
  | null =>
    apply htriple_bind (htriple_hmCopy _)
    intro ca hca
    apply htriple_bind (htriple_alloc _)
    intro dfa _
    apply htriple_bind (htriple_hmPopDefault _ _ hca)
    rintro ov -
    apply htriple_bind (htriple_of_readOnly (readOnly_hmUnpack _))
    rintro vkd -
    apply htriple_bind (htriple_of_readOnly (readOnly_hmUnpack _))
    rintro vod -
    exact htriple_alloc _
  | ref a =>
    apply htriple_bind (htriple_hmCopy _)
    intro ca hca
    apply htriple_bind (htriple_alloc _)
    intro dfa _
    apply htriple_bind (htriple_hmPopDefault _ _ hca)
    rintro ov -
    apply htriple_bind (htriple_of_readOnly (readOnly_hmUnpack _))
    rintro vkd -
    apply htriple_bind (htriple_of_readOnly (readOnly_hmUnpack _))
    rintro vod -
    exact htriple_alloc _

theorem htriple_hProcessVariant {n : Nat}
    (attrs : List (String × HVal)) (pkAddr : Nat) (pname vname : String)
    (var : HVal) :
    HTriple n (hProcessVariant attrs pkAddr pname vname var)
      (fun _ => True) := by
  apply htriple_bind (htriple_hBuildVariantKeys var)
  rintro vka -
  apply htriple_bind (htriple_of_readOnly (readOnly_hmUnpack _))
  rintro pkd -
  apply htriple_bind (htriple_of_readOnly (readOnly_hmUnpack _))
  rintro vkd -
  apply htriple_bind (htriple_alloc _)
  intro ma hma
  apply htriple_bind (htriple_hmSetItem _ _ hma)
  rintro u -
  exact htriple_weaken (htriple_hPythonize_data attrs ma) (fun _ _ => trivial)

theorem htriple_hProcessVariantList {n : Nat}
    (attrs : List (String × HVal)) (varsAddr pkAddr : Nat) (pname : String)
    {resAddr : Nat} (hres : n ≤ resAddr) :
    ∀ keys, HTriple n
      (hProcessVariantList attrs varsAddr pkAddr pname resAddr keys)
      (fun _ => True) := by
  intro keys
  induction keys with
  | nil => exact htriple_pure trivial
  | cons vn rest ih =>
    apply htriple_bind (htriple_of_readOnly (readOnly_hmSubscript _ _))
    rintro var -
    apply htriple_bind (htriple_hProcessVariant attrs pkAddr pname vn var)
    rintro ra -
    apply htriple_bind (htriple_hmSetItem _ _ hres)
    rintro u -
    exact ih

theorem htriple_hProcessVariantsVal {n : Nat}
    (attrs : List (String × HVal)) (pkAddr : Nat) (pname : String)
    {resAddr : Nat} (hres : n ≤ resAddr) (vv : HVal) :
    HTriple n (hProcessVariantsVal attrs pkAddr pname resAddr vv)
      (fun _ => True) := by
  cases vv with
  | s w =>
    cases w with
    | nil => exact htriple_pure trivial
    | cons c cs => exact htriple_raise _ _
  | n x => exact htriple_raise _ _
  | b x => exact htriple_raise _ _
  | null => exact htriple_raise _ _
  | ref a =>
    apply htriple_bind (htriple_of_readOnly (readOnly_hmRead a))
    rintro (_ | (d | l)) -
    · exact htriple_raise _ _
    · exact htriple_hProcessVariantList attrs a pkAddr pname hres _
    · cases l with
      | nil => exact htriple_pure trivial
      | cons x xs => exact htriple_raise _ _

theorem htriple_hProcess_provider {n : Nat}
    (attrs : List (String × HVal)) (dataAddr : Nat) (name : String) :
    HTriple n (hProcess_provider attrs dataAddr name) (fun _ => True) := by
  apply htriple_bind (htriple_of_readOnly (readOnly_hmSubscript _ _))
  rintro pv -
  apply htriple_bind (htriple_hmCopy pv)
  intro pa hpa
  apply htriple_bind (htriple_hmPopDefault _ _ hpa)
  rintro variants -
  apply htriple_bind (htriple_hmPop _ hpa)
  rintro options -
  apply htriple_bind (htriple_of_readOnly (readOnly_hmUnpack _))
  rintro pd -
  apply htriple_bind (htriple_of_readOnly (readOnly_hmUnpack _))
  rintro od -
  apply htriple_bind (htriple_alloc _)
  intro pka hpka
  by_cases hv : variants = HVal.null
  · rw [if_pos hv]
    apply htriple_bind (htriple_hmSetItem _ _ hpka)
    rintro u -
    apply htriple_bind (htriple_hPythonize_data attrs pka)
    rintro ra -
    exact htriple_pure trivial
  · rw [if_neg hv]
    apply htriple_bind (htriple_alloc _)
    intro resAddr hres
    apply htriple_bind (htriple_hProcessVariantsVal attrs pka name hres variants)
    rintro u -
    exact htriple_pure trivial

theorem htriple_hProcessProviderLoop {n : Nat}
    (attrs : List (String × HVal)) (dataAddr : Nat) {resAddr : Nat}
    (hres : n ≤ resAddr) :
    ∀ keys, HTriple n (hProcessProviderLoop attrs dataAddr resAddr keys)
      (fun _ => True) := by
  intro keys
  induction keys with
  | nil => exact htriple_pure trivial
  | cons pn rest ih =>
    apply htriple_bind (htriple_hProcess_provider attrs dataAddr pn)
    rintro r -
    apply htriple_bind (htriple_hmSetItem _ _ hres)
    rintro u -
    exact ih

theorem htriple_hProcess_data {n : Nat} (dataAddr : Nat) :
    HTriple n (hProcess_data dataAddr) (fun ra => n ≤ ra) := by
  apply htriple_bind (htriple_of_readOnly (readOnly_hBuildAttributions _))
  rintro attrs -
  apply htriple_bind (htriple_alloc _)
  intro resAddr hres
  apply htriple_bind (htriple_of_readOnly (readOnly_hmItems _))
  rintro dd -
  apply htriple_bind (htriple_hProcessProviderLoop attrs dataAddr hres _)
  rintro u -
  exact htriple_pure hres

/-! ## Evaluation lemmas for the heap monad, and `hdictMerge` lookups -/

theorem hmRead_bind {β : Type} (a : Nat) (f : Option HObj → HM β)
    (h : Heap) : (hmRead a >>= f) h = f h[a]? h := rfl

theorem hmBind_step {α β : Type} {m : HM α} {f : α → HM β} {h h' : Heap}
    {x : α} (hm : m h = (h', .ok x)) : (m >>= f) h = f x h' := by
  show (match m h with
    | (h', .ok x) => f x h'
    | (h', .error e) => (h', .error e)) = f x h'
  rw [hm]

theorem hmUnpack_ref_eval {h : Heap} {a : Nat} {d : HDict}
    (ha : h[a]? = some (.dict d)) : hmUnpack (.ref a) h = (h, .ok d) := by
  rw [hmUnpack, hmRead_bind, ha]
  rfl

theorem hmUpdate_eval {h : Heap} {a : Nat} {d : HDict} (kwargs : HDict)
    (ha : h[a]? = some (.dict d)) :
    hmUpdate a kwargs h =
      (h.set a (.dict (hdictMerge d kwargs)), .ok ()) := by
  rw [hmUpdate, hmRead_bind, ha]
  rfl

theorem tpCall_eval {h : Heap} {a : Nat} {d : HDict} (kwargs : HDict)
    (ha : h[a]? = some (.dict d)) :
    tpCall a kwargs h =
      (h ++ [.dict (hdictMerge d kwargs)], .ok h.length) := by
  have ha2 : (h ++ [HObj.dict d])[h.length]? = some (.dict d) :=
    List.getElem?_concat_length h (.dict d)
  rw [tpCall, hmBind_step (hmUnpack_ref_eval ha),
    hmBind_step (show hmAlloc (HObj.dict d) h =
      (h ++ [HObj.dict d], .ok h.length) from rfl),
    hmBind_step (hmUpdate_eval kwargs ha2), set_concat_length]
  rfl

theorem alookup_hdictSet_self (d : HDict) (k : String) (v : HVal) :
    alookup (hdictSet d k v) k = some v := by
  induction d with
  | nil => simp [hdictSet, alookup]
  | cons kv rest ih =>
    obtain ⟨k', v'⟩ := kv
    rw [hdictSet]
    by_cases hk : k' = k
    · rw [if_pos hk, alookup, if_pos hk]
    · rw [if_neg hk, alookup, if_neg hk]
      exact ih

theorem alookup_hdictSet_ne (d : HDict) (k : String) (v : HVal)
    {k' : String} (h : k' ≠ k) :
    alookup (hdictSet d k v) k' = alookup d k' := by
  induction d with
  | nil =>
    rw [hdictSet, alookup, alookup, if_neg (fun hc => h hc.symm)]
    rfl
  | cons kv rest ih =>
    obtain ⟨k₀, v₀⟩ := kv
    rw [hdictSet]
    by_cases hk : k₀ = k
    · rw [if_pos hk, alookup, alookup]
      have : k₀ ≠ k' := fun hc => h (hc ▸ hk : k' = k)
      rw [if_neg this, if_neg this]
    · rw [if_neg hk, alookup, alookup]
      by_cases hk' : k₀ = k'
      · rw [if_pos hk', if_pos hk']
      · rw [if_neg hk', if_neg hk']
        exact ih

theorem alookup_hfoldl_set (l : List (String × HVal)) :
    ∀ (init : HDict) (k : String),
      alookup (l.foldl (fun acc kv => hdictSet acc kv.1 kv.2) init) k =
        match alookup l.reverse k with
        | some v => some v
        | none => alookup init k := by
  induction l with
  | nil => intro init k; simp [alookup]
  | cons kv rest ih =>
    intro init k
    obtain ⟨k₀, v₀⟩ := kv
    rw [List.foldl_cons, ih, List.reverse_cons, alookup_append]
    cases h : alookup rest.reverse k with
    | some w => rfl
    | none =>
      by_cases hk : k₀ = k
      · subst hk
        rw [alookup_hdictSet_self]
        simp [alookup]
      · rw [alookup_hdictSet_ne _ _ _ (fun hc => hk hc.symm)]
        simp [alookup, hk]

theorem alookup_hdictMerge (a b : HDict) (k : String) :
    alookup (hdictMerge a b) k =
      match alookup b.reverse k with
      | some v => some v
      | none => alookup a k :=
  alookup_hfoldl_set b a k

/-- C9: calling a rendered `TileProvider` record with keyword overrides
allocates a fresh record (a new address, distinct from the original's)
whose entries are the original's updated by the overrides — an override
key's value replaces the original's, any other key keeps the original's
value — while the original record object and every other pre-existing
object are left exactly as they were. -/
theorem c9_tile_provider_call {h : Heap} {a : Nat} {d kwargs : HDict}
    (ha : h[a]? = some (.dict d)) (hnd : (kwargs.map Prod.fst).Nodup) :
    tpCall a kwargs h =
      (h ++ [.dict (hdictMerge d kwargs)], .ok h.length) ∧
    h.length ≠ a ∧
    (h ++ [.dict (hdictMerge d kwargs)])[h.length]? =
      some (.dict (hdictMerge d kwargs)) ∧
    (∀ k, alookup (hdictMerge d kwargs) k =
      match alookup kwargs k with
      | some w => some w
      | none => alookup d k) ∧
    (h ++ [.dict (hdictMerge d kwargs)])[a]? = some (.dict d) ∧
    (∀ b, b < h.length →
      (h ++ [.dict (hdictMerge d kwargs)])[b]? = h[b]?) := by
  have halen : a < h.length := (List.getElem?_eq_some.mp ha).1
  have hframe : ∀ b, b < h.length →
      (h ++ [HObj.dict (hdictMerge d kwargs)])[b]? = h[b]? := by
    intro b hb
    rw [List.getElem?_append, if_pos hb]
  refine ⟨tpCall_eval kwargs ha, fun hc => absurd (hc ▸ halen) (lt_irrefl a),
    List.getElem?_concat_length _ _, ?_, ?_, hframe⟩
  · intro k
    rw [alookup_hdictMerge, alookup_reverse_of_nodup hnd]
  · rw [hframe a halen]
    exact ha

/-- C9, witness: overriding `max_zoom` on a concrete one-record heap. -/
theorem c9_tile_provider_call_witness :
    c9heap[0]? = some (.dict c9self) ∧
    (c9kwargs.map Prod.fst).Nodup ∧
    (tpCall 0 c9kwargs c9heap =
      (c9heap ++ [.dict (hdictMerge c9self c9kwargs)], .ok c9heap.length) ∧
    c9heap.length ≠ 0 ∧
    (c9heap ++ [.dict (hdictMerge c9self c9kwargs)])[c9heap.length]? =
      some (.dict (hdictMerge c9self c9kwargs)) ∧
    (∀ k, alookup (hdictMerge c9self c9kwargs) k =
      match alookup c9kwargs k with
      | some w => some w
      | none => alookup c9self k) ∧
    (c9heap ++ [.dict (hdictMerge c9self c9kwargs)])[0]? =
      some (.dict c9self) ∧
    (∀ b, b < c9heap.length →
      (c9heap ++ [.dict (hdictMerge c9self c9kwargs)])[b]? = c9heap[b]?)) :=
  ⟨rfl, by decide, @c9_tile_provider_call c9heap 0 c9self c9kwargs rfl
    (by decide)⟩

/-- C10: normalization never mutates its input.  Running the heap-level
`process_data` on a catalog address — whether it returns normally or
raises — only allocates: every object that existed before the call (the
raw catalog dict, each provider's entry, its `options` sub-mapping, each
variant definition, and anything else) is still the very same object
afterwards, because every `pop` and in-place update happens on a
freshly-allocated `.copy()` or on the freshly-allocated result dicts. -/
theorem c10_process_data_never_mutates_input (h : Heap) (dataAddr : Nat) :
    h.length ≤ (hProcess_data dataAddr h).1.length ∧
    ∀ b, b < h.length → (hProcess_data dataAddr h).1[b]? = h[b]? := by
  obtain ⟨h1, h2, -⟩ :=
    @htriple_hProcess_data h.length dataAddr h (le_refl h.length)
  exact ⟨h1, h2⟩

end Leaflet
